import Mathlib

/-!
# Verification of `ccxtpro/base/order_book_side.py`

A shallow embedding of the order-book-side module: one side (bids or asks) of
a streaming order book, kept as a price-sorted list of levels plus a parallel
list of signed sort keys used for binary search, with five update strategies
(absolute, counted, order-indexed, incremental, incremental+indexed), a hard
depth cap applied by `limit`, and a soft visible-length cap.

Modelling conventions:
* Python numbers are modelled as `Int` (the module only negates, adds,
  compares and takes absolute values; float rounding is declared an external
  constraint by the design).
* A dynamic Python value in a delta record is `Val := Option Int`: `none`
  models Python `None`, `some n` a number (order ids are also modelled as
  numbers).  Python truthiness (`None` and `0` are falsy) and the raising
  behaviour of `-`, `+`, `abs`, `<` on `None` are modelled explicitly.
* A mutating call returns `Except Side Side`; `.error s` carries the state of
  the instance at the moment a Python exception is raised, so the presence or
  absence of partial mutation is observable in the model.
* `self._depth` and `self._n` hold `sys.maxsize` when no cap is given; since
  a Python list is always shorter than `sys.maxsize`, the value `sys.maxsize`
  behaves exactly like "no cap": it is modelled as `Option.none`
  (`len(self) - sys.maxsize` is negative, so `range` of it is empty and the
  trimming loop does not run; `min(length, sys.maxsize) = length`).
* `bisect.bisect_left` is modelled by its loop (CPython `_bisectmodule.c`),
  written with a structural fuel argument `fuel ≥ hi - lo` so that it computes
  by kernel reduction; each comparison `a[mid] < x` may raise.
-/

/-- One dynamic Python value of this module: `None` or a number. -/
abbrev Val := Option Int

/-- Python truthiness of a `Val`: `None` and `0` are falsy. -/
def pyTruthy : Val → Bool
  | Option.none => false
  | some n => n != 0

/-- Python `a < b` on two values; comparing `None` raises `TypeError`. -/
def pyLt : Val → Val → Except Unit Bool
  | some a, some b => .ok (decide (a < b))
  | _, _ => .error ()

/-- Python `a + b`; adding `None` raises `TypeError`. -/
def pyAdd : Val → Val → Except Unit Val
  | some a, some b => .ok (some (a + b))
  | _, _ => .error ()

/-- Python `a > 0`; `None > 0` raises `TypeError`. -/
def pyGtZero : Val → Except Unit Bool
  | some a => .ok (decide (0 < a))
  | Option.none => .error ()

/-- Python `abs(a)`; `abs(None)` raises `TypeError`. -/
def pyAbs : Val → Except Unit Val
  | some a => .ok (some |a|)
  | Option.none => .error ()

/-- `-price if self.side else price` for the variants that require a numeric
price (`-None` raises `TypeError`; on the ask side the value is untouched). -/
def pyNegIf (side : Bool) (price : Val) : Except Unit Val :=
  if side then
    match price with
    | some p => .ok (some (-p))
    | Option.none => .error ()
  else .ok price

/-- Python `l[i]` for a non-negative index: `IndexError` when out of range. -/
def pyGet (l : List α) (i : Nat) : Except Unit α :=
  match l[i]? with
  | some v => .ok v
  | Option.none => .error ()

/-- Python `l[i] = v` for a non-negative index. -/
def pySet (l : List α) (i : Nat) (v : α) : Except Unit (List α) :=
  if i < l.length then .ok (l.set i v) else .error ()

/-- Python `del l[i]` for a non-negative index. -/
def pyDelAt (l : List α) (i : Nat) : Except Unit (List α) :=
  if i < l.length then .ok (l.eraseIdx i) else .error ()

/-- Python `l.insert(i, v)` for a non-negative index (clamps to the length). -/
def pyInsert (l : List α) (i : Nat) (v : α) : List α :=
  if i ≤ l.length then l.insertIdx i v else l ++ [v]

/-- Python `l.pop()`: removes and returns the last element. -/
def pyPop (l : List α) : Except Unit (α × List α) :=
  match l.getLast? with
  | some v => .ok (v, l.dropLast)
  | Option.none => .error ()

/-- The loop of `bisect.bisect_left(a, x)`:
`while lo < hi: mid = (lo+hi)//2; if a[mid] < x: lo = mid+1 else: hi = mid`.
`fuel` is structural and only needs to dominate `hi - lo`. -/
def bisectLoop (a : List Val) (x : Val) : Nat → Nat → Nat → Except Unit Nat
  | lo, _hi, 0 => .ok lo
  | lo, hi, fuel + 1 =>
    if lo < hi then
      match pyLt (a.getD ((lo + hi) / 2) Option.none) x with
      | .error e => .error e
      | .ok true => bisectLoop a x ((lo + hi) / 2 + 1) hi fuel
      | .ok false => bisectLoop a x lo ((lo + hi) / 2) fuel
    else .ok lo

/-- `bisect.bisect_left(a, x)` with the default bounds `lo = 0`, `hi = len(a)`. -/
def bisect_left (a : List Val) (x : Val) : Except Unit Nat :=
  bisectLoop a x 0 a.length a.length

/-- Lookup in `self._hashmap` (an insertion-ordered Python dict with the
order id as key and a sort key as value). -/
def dictLookup (d : List (Val × Val)) (k : Val) : Option Val :=
  (d.find? (fun p => p.1 == k)).map (fun p => p.2)

/-- Python `k in d`. -/
def dictMem (d : List (Val × Val)) (k : Val) : Bool :=
  (dictLookup d k).isSome

/-- Python `d[k] = v`: overwrite in place when the key is present, else append
(the insertion order of a Python dict). -/
def dictSet (d : List (Val × Val)) (k v : Val) : List (Val × Val) :=
  if dictMem d k then d.map (fun p => if p.1 == k then (k, v) else p)
  else d ++ [(k, v)]

/-- Python `del d[k]` (call sites always check membership first). -/
def dictDel (d : List (Val × Val)) (k : Val) : List (Val × Val) :=
  d.filter (fun p => !(p.1 == k))

/-- The state of one `OrderBookSide` instance (any variant): `levels` is the
underlying `list` contents (each level itself a Python list), `index` is
`self._index`, `hashmap` is `self._hashmap` (empty and untouched in the
non-indexed variants), `depth` is `self._depth` and `n` is `self._n`
(`Option.none` models `sys.maxsize`, see the module docstring). -/
structure Side where
  levels : List (List Val)
  index : List Val
  hashmap : List (Val × Val)
  depth : Option Nat
  n : Option Nat
deriving DecidableEq

/-- Result of a mutating call: `.error` carries the state at the moment a
Python exception propagates out of the call. -/
abbrev PyRes := Except Side Side

/-- Tag an exception from a primitive with the state at the raise point. -/
def withS (s : Side) (e : Except Unit α) : Except Side α :=
  e.mapError (fun _ => s)

/-- The state of the instance after a call, whether it returned or raised. -/
def resState : PyRes → Side
  | .ok s => s
  | .error s => s

/-- The key computation of the order-indexed variants (lines 118–122 and
195–199): `-price if self.side else price` when the price is given, else
`None`. -/
def keyOfPrice (side : Bool) (price : Val) : Val :=
  match price with
  | some p => some (if side then -p else p)
  | Option.none => Option.none

/-- `OrderBookSide.storeArray` (lines 25–38): absolute sizes keyed by signed
price; a truthy size upserts, a falsy size deletes a matching level. -/
def absStoreArray (side : Bool) (s : Side) (delta : List Val) : PyRes := do
  let price ← withS s (pyGet delta 0)
  let size ← withS s (pyGet delta 1)
  let index_price ← withS s (pyNegIf side price)
  let index ← withS s (bisect_left s.index index_price)
  if pyTruthy size then
    if index < s.index.length ∧ s.index.getD index Option.none == index_price then
      -- self[index][1] = size
      let level ← withS s (pyGet s.levels index)
      let level1 ← withS s (pySet level 1 size)
      pure { s with levels := s.levels.set index level1 }
    else
      pure { s with index := pyInsert s.index index index_price,
                    levels := pyInsert s.levels index delta }
  else
    if index < s.index.length ∧ s.index.getD index Option.none == index_price then
      let ix ← withS s (pyDelAt s.index index)
      let s1 := { s with index := ix }
      let lv ← withS s1 (pyDelAt s1.levels index)
      pure { s1 with levels := lv }
    else
      pure s

/-- `CountedOrderBookSide.storeArray` (lines 88–103): like absolute but the
delta carries an order count; upsert needs both size and count truthy. -/
def countedStoreArray (side : Bool) (s : Side) (delta : List Val) : PyRes := do
  let price ← withS s (pyGet delta 0)
  let size ← withS s (pyGet delta 1)
  let count ← withS s (pyGet delta 2)
  let index_price ← withS s (pyNegIf side price)
  let index ← withS s (bisect_left s.index index_price)
  if pyTruthy size && pyTruthy count then
    if index < s.index.length ∧ s.index.getD index Option.none == index_price then
      -- self[index][1] = size ; self[index][2] = count
      let level ← withS s (pyGet s.levels index)
      let level1 ← withS s (pySet level 1 size)
      let s1 := { s with levels := s.levels.set index level1 }
      let level2 ← withS s1 (pySet level1 2 count)
      pure { s1 with levels := s1.levels.set index level2 }
    else
      pure { s with index := pyInsert s.index index index_price,
                    levels := pyInsert s.levels index delta }
  else
    if index < s.index.length ∧ s.index.getD index Option.none == index_price then
      let ix ← withS s (pyDelAt s.index index)
      let s1 := { s with index := ix }
      let lv ← withS s1 (pyDelAt s1.levels index)
      pure { s1 with levels := lv }
    else
      pure s

/-- `IndexedOrderBookSide.storeArray` (lines 117–153): levels carry an order
id; a known id can be overwritten, moved to the resolved key, or removed, and
`delta[0]` is normalized to `abs(index_price)` before storing. -/
def idxStoreArray (side : Bool) (s : Side) (delta : List Val) : PyRes := do
  let price ← withS s (pyGet delta 0)
  let index_price : Val := keyOfPrice side price
  let size ← withS s (pyGet delta 1)
  let order_id ← withS s (pyGet delta 2)
  if pyTruthy size then
    match dictLookup s.hashmap order_id with
    | some old_price =>
      -- index_price = index_price or old_price  (Python `or`: falsy test)
      let index_price := if pyTruthy index_price then index_price else old_price
      -- delta[0] = abs(index_price)
      let a ← withS s (pyAbs index_price)
      let delta ← withS s (pySet delta 0 a)
      if index_price == old_price then
        let index ← withS s (bisect_left s.index index_price)
        let ix ← withS s (pySet s.index index index_price)
        let s1 := { s with index := ix }
        let lv ← withS s1 (pySet s1.levels index delta)
        pure { s1 with levels := lv }
      else
        -- remove old price level
        let old_index ← withS s (bisect_left s.index old_price)
        let ix ← withS s (pyDelAt s.index old_index)
        let s1 := { s with index := ix }
        let lv ← withS s1 (pyDelAt s1.levels old_index)
        let s2 := { s1 with levels := lv }
        -- insert new price level (fall-through to lines 143–147)
        let s3 := { s2 with hashmap := dictSet s2.hashmap order_id index_price }
        let index ← withS s3 (bisect_left s3.index index_price)
        pure { s3 with index := pyInsert s3.index index index_price,
                       levels := pyInsert s3.levels index delta }
    | Option.none =>
      let s3 := { s with hashmap := dictSet s.hashmap order_id index_price }
      let index ← withS s3 (bisect_left s3.index index_price)
      pure { s3 with index := pyInsert s3.index index index_price,
                     levels := pyInsert s3.levels index delta }
  else
    match dictLookup s.hashmap order_id with
    | some old_price =>
      let index ← withS s (bisect_left s.index old_price)
      let ix ← withS s (pyDelAt s.index index)
      let s1 := { s with index := ix }
      let lv ← withS s1 (pyDelAt s1.levels index)
      let s2 := { s1 with levels := lv }
      pure { s2 with hashmap := dictDel s2.hashmap order_id }
    | Option.none => pure s

/-- `IncrementalOrderBookSide.storeArray` (lines 171–187): the delta size is
added to the matching level's size; a positive effective size upserts, a
non-positive one deletes the matching level. -/
def incStoreArray (side : Bool) (s : Side) (delta : List Val) : PyRes := do
  let price ← withS s (pyGet delta 0)
  let size ← withS s (pyGet delta 1)
  let index_price ← withS s (pyNegIf side price)
  let index ← withS s (bisect_left s.index index_price)
  let index_exists :=
    index < s.index.length && (s.index.getD index Option.none == index_price)
  let size ←
    if index_exists then do
      let level ← withS s (pyGet s.levels index)
      let v ← withS s (pyGet level 1)
      withS s (pyAdd size v)
    else pure size
  let pos ← withS s (pyGtZero size)
  if pos then
    if index_exists then
      let level ← withS s (pyGet s.levels index)
      let level1 ← withS s (pySet level 1 size)
      pure { s with levels := s.levels.set index level1 }
    else
      pure { s with index := pyInsert s.index index index_price,
                    levels := pyInsert s.levels index delta }
  else
    if index < s.index.length ∧ s.index.getD index Option.none == index_price then
      let ix ← withS s (pyDelAt s.index index)
      let s1 := { s with index := ix }
      let lv ← withS s1 (pyDelAt s1.levels index)
      pure { s1 with levels := lv }
    else
      pure s

/-- `IncrementalIndexedOrderBookSide.storeArray` (lines 194–240): when the
order id is known and the raw size is positive, the size of the level at the
binary-search position of the resolved key is added first, then the indexed
overwrite/move/insert/delete logic runs on the updated delta. -/
def incIdxStoreArray (side : Bool) (s : Side) (delta : List Val) : PyRes := do
  let price ← withS s (pyGet delta 0)
  let index_price : Val := keyOfPrice side price
  let size ← withS s (pyGet delta 1)
  let order_id ← withS s (pyGet delta 2)
  -- line 206 evaluates `size > 0` before `contains_index`
  let szPos ← withS s (pyGtZero size)
  match dictLookup s.hashmap order_id with
  | some old_price =>
    if szPos then do
      -- handling for incremental stuff (lines 206–215)
      let index_price := if pyTruthy index_price then index_price else old_price
      let index ← withS s (bisect_left s.index index_price)
      let level ← withS s (pyGet s.levels index)
      let v ← withS s (pyGet level 1)
      let size ← withS s (pyAdd size v)
      let a ← withS s (pyAbs index_price)
      let delta ← withS s (pySet delta 0 a)
      let delta ← withS s (pySet delta 1 size)
      -- line 217 re-tests `size > 0` on the updated size
      let szPos2 ← withS s (pyGtZero size)
      if szPos2 then
        if index_price == old_price then do
          let ix ← withS s (pySet s.index index index_price)
          let s1 := { s with index := ix }
          let lv ← withS s1 (pySet s1.levels index delta)
          pure { s1 with levels := lv }
        else do
          let old_index ← withS s (bisect_left s.index old_price)
          let ix ← withS s (pyDelAt s.index old_index)
          let s1 := { s with index := ix }
          let lv ← withS s1 (pyDelAt s1.levels old_index)
          let s2 := { s1 with levels := lv }
          let s3 := { s2 with hashmap := dictSet s2.hashmap order_id index_price }
          let index ← withS s3 (bisect_left s3.index index_price)
          pure { s3 with index := pyInsert s3.index index index_price,
                         levels := pyInsert s3.levels index delta }
      else do
        -- lines 235–240 (the elif re-reads the hashmap, same value)
        let index ← withS s (bisect_left s.index old_price)
        let ix ← withS s (pyDelAt s.index index)
        let s1 := { s with index := ix }
        let lv ← withS s1 (pyDelAt s1.levels index)
        let s2 := { s1 with levels := lv }
        pure { s2 with hashmap := dictDel s2.hashmap order_id }
    else do
      let index ← withS s (bisect_left s.index old_price)
      let ix ← withS s (pyDelAt s.index index)
      let s1 := { s with index := ix }
      let lv ← withS s1 (pyDelAt s1.levels index)
      let s2 := { s1 with levels := lv }
      pure { s2 with hashmap := dictDel s2.hashmap order_id }
  | Option.none =>
    if szPos then
      let s3 := { s with hashmap := dictSet s.hashmap order_id index_price }
      let index ← withS s3 (bisect_left s3.index index_price)
      pure { s3 with index := pyInsert s3.index index index_price,
                     levels := pyInsert s3.levels index delta }
    else pure s

/-- `OrderBookSide.remove_index` (lines 50–51): the base hook does nothing. -/
def baseRemoveIndex (_order : List Val) (s : Side) : PyRes := .ok s

/-- `IndexedOrderBookSide.remove_index` (lines 155–158): drop the popped
order's id from the hashmap when present. -/
def idxRemoveIndex (order : List Val) (s : Side) : PyRes := do
  let order_id ← withS s (pyGet order 2)
  if dictMem s.hashmap order_id then
    pure { s with hashmap := dictDel s.hashmap order_id }
  else
    pure s

/-- One iteration of the trimming loop in `limit` (line 47):
`self.remove_index(self.pop()); self._index.pop()`. -/
def popOne (ri : List Val → Side → PyRes) (s : Side) : PyRes := do
  let pl ← withS s (pyPop s.levels)
  let s1 := { s with levels := pl.2 }
  let s2 ← ri pl.1 s1
  let pi ← withS s2 (pyPop s2.index)
  pure { s2 with index := pi.2 }

/-- `for _ in range(difference)` around `popOne`. -/
def popLoop (ri : List Val → Side → PyRes) (s : Side) : Nat → PyRes
  | 0 => .ok s
  | k + 1 => do
    let s1 ← popOne ri s
    popLoop ri s1 k

/-- `OrderBookSide.limit` (lines 43–48): set the visible length, then trim
`len(self) - self._depth` levels off the tail (note `len(self)` is the
visible length `min(stored, _n)`, computed after `_n` was just set). -/
def pyLimit (ri : List Val → Side → PyRes) (s : Side) (n : Option Nat) : PyRes :=
  let s1 := { s with n := n }
  let visible :=
    match n with
    | Option.none => s1.levels.length
    | some k => min s1.levels.length k
  let pops :=
    match s1.depth with
    | Option.none => 0
    | some d => visible - d
  popLoop ri s1 pops

/-- `__len__` (lines 59–61): `min(stored length, self._n)`. -/
def pyLen (s : Side) : Nat :=
  match s.n with
  | Option.none => s.levels.length
  | some k => min s.levels.length k

/-- `__iter__` (lines 53–57): `islice` of the underlying list by `self._n`. -/
def pyIter (s : Side) : List (List Val) :=
  match s.n with
  | Option.none => s.levels
  | some k => s.levels.take k

/-- `__getitem__` (lines 63–68) with a non-negative integer index: delegates
to the underlying list, not truncated by `self._n`. -/
def pyGetItem (s : Side) (i : Nat) : Except Unit (List Val) :=
  pyGet s.levels i

/-- `__init__` (lines 16–23): `self._depth = depth or sys.maxsize` (so a `0`
depth also means "no cap"), `self._n = sys.maxsize`, then every initial delta
is replayed through the variant's `storeArray`. -/
def newSide (store : Side → List Val → PyRes) (deltas : List (List Val))
    (depth : Option Nat) : PyRes :=
  let d : Option Nat :=
    match depth with
    | some (k + 1) => some (k + 1)
    | _ => Option.none
  let s0 : Side :=
    { levels := [], index := [], hashmap := [], depth := d, n := Option.none }
  deltas.foldlM (fun s delta => store s delta) s0

/-! ## Sorted-index machinery

`self._index` is maintained sorted, and `bisect_left` returns the leftmost
insertion point.  `ipos` is that insertion point, characterised as the number
of keys strictly below the probe. -/

/-- The leftmost insertion point of `x` in `ks`: the number of keys `< x`. -/
def ipos (ks : List Int) (x : Int) : Nat :=
  ks.countP (fun y => decide (y < x))

theorem ipos_le_length (ks : List Int) (x : Int) : ipos ks x ≤ ks.length :=
  List.countP_le_length _

theorem ipos_nil (x : Int) : ipos [] x = 0 := rfl

theorem ipos_cons (a : Int) (ks : List Int) (x : Int) :
    ipos (a :: ks) x = ipos ks x + if a < x then 1 else 0 := by
  simp [ipos, List.countP_cons]

theorem ipos_eq_zero_of_not_lt (ks : List Int) (a x : Int)
    (ha : ∀ y ∈ ks, a ≤ y) (hax : ¬a < x) : ipos ks x = 0 := by
  rw [ipos, List.countP_eq_zero]
  intro y hy
  have := ha y hy
  simp only [decide_eq_true_eq]
  omega

theorem lt_iff_lt_ipos (ks : List Int) (x : Int) (hs : ks.Pairwise (· ≤ ·)) :
    ∀ i, (h : i < ks.length) → (ks[i] < x ↔ i < ipos ks x) := by
  induction ks with
  | nil => intro i h; simp at h
  | cons a t ih =>
    rcases List.pairwise_cons.mp hs with ⟨ha, ht⟩
    intro i h
    by_cases hax : a < x
    · cases i with
      | zero =>
        rw [ipos_cons, if_pos hax]
        simp only [List.getElem_cons_zero]
        exact iff_of_true hax (by omega)
      | succ j =>
        have hj : j < t.length := by simpa using h
        have hiff := ih ht j hj
        simp only [List.getElem_cons_succ, ipos_cons, hax, if_true]
        constructor
        · intro hlt; have := hiff.mp hlt; omega
        · intro hlt; exact hiff.mpr (by omega)
    · have h0 : ipos t x = 0 := ipos_eq_zero_of_not_lt t a x ha hax
      simp only [ipos_cons, hax, if_false, h0, Nat.add_zero, Nat.not_lt_zero,
        iff_false]
      cases i with
      | zero => simpa using hax
      | succ j =>
        have hj : j < t.length := by simpa using h
        have hy := ha (t[j]) (List.getElem_mem hj)
        simp only [List.getElem_cons_succ]
        omega

theorem bisectLoop_sorted (ks : List Int) (x : Int) (hs : ks.Pairwise (· ≤ ·)) :
    ∀ fuel lo hi, hi ≤ ks.length → hi - lo ≤ fuel → lo ≤ ipos ks x →
      ipos ks x ≤ hi →
      bisectLoop (ks.map some) (some x) lo hi fuel = .ok (ipos ks x) := by
  intro fuel
  induction fuel with
  | zero =>
    intro lo hi _ h2 h3 h4
    have : lo = ipos ks x := by omega
    simp [bisectLoop, this]
  | succ fuel ih =>
    intro lo hi h1 h2 h3 h4
    by_cases hlh : lo < hi
    · have hm1 : lo ≤ (lo + hi) / 2 := by omega
      have hm2 : (lo + hi) / 2 < hi := by omega
      have hmlen : (lo + hi) / 2 < ks.length := lt_of_lt_of_le hm2 h1
      have hget : (ks.map some).getD ((lo + hi) / 2) Option.none
          = some (ks[(lo + hi) / 2]) := by
        rw [List.getD_eq_getElem?_getD, List.getElem?_map,
          List.getElem?_eq_getElem hmlen]
        rfl
      rw [bisectLoop, if_pos hlh, hget]
      by_cases hc : ks[(lo + hi) / 2] < x
      · have hlt := (lt_iff_lt_ipos ks x hs _ hmlen).mp hc
        simp only [pyLt, hc, decide_True]
        exact ih _ _ h1 (by omega) (by omega) h4
      · have hge : ipos ks x ≤ (lo + hi) / 2 := by
          have := mt (lt_iff_lt_ipos ks x hs _ hmlen).mpr hc
          omega
        simp only [pyLt, hc, decide_False]
        exact ih _ _ (le_of_lt hmlen) (by omega) h3 hge
    · have hle : lo = ipos ks x := by omega
      subst hle
      rw [bisectLoop, if_neg hlh]

/-- On a sorted all-numeric index, `bisect_left` succeeds and returns the
leftmost insertion point. -/
theorem bisect_left_map_some (ks : List Int) (x : Int)
    (hs : ks.Pairwise (· ≤ ·)) :
    bisect_left (ks.map some) (some x) = .ok (ipos ks x) := by
  have hlen : (ks.map some).length = ks.length := by simp
  rw [bisect_left, hlen]
  exact bisectLoop_sorted ks x hs ks.length 0 ks.length le_rfl (by omega)
    (Nat.zero_le _) (ipos_le_length ks x)

/-- Probing a nonempty all-numeric index with `None` raises at the first
comparison. -/
theorem bisect_left_none_probe (ks : List Int) (h : ks ≠ []) :
    bisect_left (ks.map some) Option.none = .error () := by
  cases hk : ks.length with
  | zero => exact absurd (List.length_eq_zero.mp hk) h
  | succ m =>
    have hlen : (ks.map some).length = m + 1 := by simp [hk]
    rw [bisect_left, hlen]
    rw [bisectLoop, if_pos (Nat.succ_pos m)]
    have hmid : (0 + (m + 1)) / 2 < ks.length := by omega
    have hget : (ks.map some).getD ((0 + (m + 1)) / 2) Option.none
        = some (ks[(0 + (m + 1)) / 2]) := by
      rw [List.getD_eq_getElem?_getD, List.getElem?_map,
        List.getElem?_eq_getElem hmid]
      rfl
    rw [hget]
    rfl

/-- Probing the singleton `[None]` index raises at the first comparison. -/
theorem bisect_left_none_singleton (x : Val) :
    bisect_left [Option.none] x = .error () := by
  cases x <;> rfl

/-- Bool-valued strict order on optional keys; `None` is never ordered. -/
def vlt (a b : Val) : Bool :=
  match a, b with
  | some x, some y => decide (x < y)
  | _, _ => false

/-- Bool-valued weak order on optional keys; `None` is never ordered. -/
def vle (a b : Val) : Bool :=
  match a, b with
  | some x, some y => decide (x ≤ y)
  | _, _ => false

theorem vlt_imp_vle {a b : Val} (h : vlt a b = true) : vle a b = true := by
  cases a <;> cases b <;> simp [vlt, vle] at * <;> omega

/-- A `vle`-pairwise list is `[None]` or an all-numeric weakly sorted list. -/
theorem pairwise_vle_shape (l : List Val)
    (h : l.Pairwise (fun a b => vle a b = true)) :
    l = [Option.none] ∨
      ∃ ks : List Int, l = ks.map some ∧ ks.Pairwise (· ≤ ·) := by
  induction l with
  | nil => exact Or.inr ⟨[], rfl, List.Pairwise.nil⟩
  | cons a t ih =>
    rcases List.pairwise_cons.mp h with ⟨ha, ht⟩
    cases a with
    | none =>
      cases t with
      | nil => exact Or.inl rfl
      | cons b t2 =>
        have hb := ha b (by simp)
        cases b <;> simp [vle] at hb
    | some k =>
      rcases ih ht with h1 | ⟨kt, rfl, hkt⟩
      · subst h1
        have hb := ha Option.none (by simp)
        simp [vle] at hb
      · refine Or.inr ⟨k :: kt, rfl, List.pairwise_cons.mpr ⟨?_, hkt⟩⟩
        intro y hy
        have := ha (some y) (List.mem_map_of_mem some hy)
        simpa [vle] using this

/-- A `vlt`-pairwise list is `[None]` or an all-numeric strictly sorted
list. -/
theorem pairwise_vlt_shape (l : List Val)
    (h : l.Pairwise (fun a b => vlt a b = true)) :
    l = [Option.none] ∨
      ∃ ks : List Int, l = ks.map some ∧ ks.Pairwise (· < ·) := by
  rcases pairwise_vle_shape l (h.imp vlt_imp_vle) with h1 | ⟨ks, rfl, _⟩
  · exact Or.inl h1
  · refine Or.inr ⟨ks, rfl, ?_⟩
    have := List.pairwise_map.mp h
    exact this.imp (fun hab => by simpa [vlt] using hab)

theorem pairwise_vlt_of_map_some (ks : List Int) (hs : ks.Pairwise (· < ·)) :
    (ks.map some).Pairwise (fun a b => vlt a b = true) := by
  rw [List.pairwise_map]
  exact hs.imp (fun hab => by simpa [vlt] using hab)

theorem pairwise_vle_of_map_some (ks : List Int) (hs : ks.Pairwise (· ≤ ·)) :
    (ks.map some).Pairwise (fun a b => vle a b = true) := by
  rw [List.pairwise_map]
  exact hs.imp (fun hab => by simpa [vle] using hab)

/-- On a strictly sorted key list, the probe is a member iff the entry at its
insertion point exists and equals it. -/
theorem ipos_mem_iff (ks : List Int) (x : Int) (hs : ks.Pairwise (· < ·)) :
    x ∈ ks ↔ ipos ks x < ks.length ∧ ks.getD (ipos ks x) 0 = x := by
  induction ks with
  | nil => simp [ipos]
  | cons a t ih =>
    rcases List.pairwise_cons.mp hs with ⟨ha, ht⟩
    by_cases hax : a < x
    · have hne : ¬x = a := by omega
      rw [ipos_cons]
      simp only [hax, if_true, List.mem_cons, hne, false_or, List.length_cons,
        Nat.add_lt_add_iff_right, List.getD_cons_succ]
      exact ih ht
    · have h0 : ipos t x = 0 :=
        ipos_eq_zero_of_not_lt t a x (fun y hy => le_of_lt (ha y hy)) hax
      rw [ipos_cons]
      simp only [hax, if_false, h0, Nat.add_zero, List.length_cons,
        Nat.succ_pos, true_and, List.getD_cons_zero, List.mem_cons]
      constructor
      · rintro (rfl | hx)
        · rfl
        · exact absurd (ha x hx) (by omega)
      · intro hax2; exact Or.inl hax2.symm

/-- Every member of `insertIdx` is the new element or an old member (with no
bound on the position, matching Python `insert`'s clamping). -/
theorem mem_of_mem_insertIdx {l : List α} {i : Nat} {x b : α}
    (h : b ∈ l.insertIdx i x) : b = x ∨ b ∈ l := by
  by_cases hi : i ≤ l.length
  · exact (List.mem_insertIdx hi).mp h
  · rw [List.insertIdx_of_length_lt _ _ _ (by omega)] at h
    exact Or.inr h

/-- Inserting at the leftmost insertion point preserves weak sortedness. -/
theorem pairwise_le_insertIdx (ks : List Int) (x : Int)
    (hs : ks.Pairwise (· ≤ ·)) :
    (ks.insertIdx (ipos ks x) x).Pairwise (· ≤ ·) := by
  induction ks with
  | nil => simp [ipos]
  | cons a t ih =>
    rcases List.pairwise_cons.mp hs with ⟨ha, ht⟩
    by_cases hax : a < x
    · rw [ipos_cons]
      simp only [hax, if_true]
      rw [List.insertIdx_succ_cons]
      refine List.pairwise_cons.mpr ⟨?_, ih ht⟩
      intro b hb
      rcases mem_of_mem_insertIdx hb with rfl | hb2
      · omega
      · exact ha b hb2
    · have h0 : ipos t x = 0 := ipos_eq_zero_of_not_lt t a x ha hax
      rw [ipos_cons]
      simp only [hax, if_false, h0, Nat.add_zero]
      rw [List.insertIdx_zero]
      refine List.pairwise_cons.mpr ⟨?_, hs⟩
      intro b hb
      rcases List.mem_cons.mp hb with rfl | hb2
      · omega
      · have := ha b hb2
        omega

/-- Inserting a fresh key at its leftmost insertion point preserves strict
sortedness. -/
theorem pairwise_lt_insertIdx (ks : List Int) (x : Int)
    (hs : ks.Pairwise (· < ·)) (hx : x ∉ ks) :
    (ks.insertIdx (ipos ks x) x).Pairwise (· < ·) := by
  induction ks with
  | nil => simp [ipos]
  | cons a t ih =>
    rcases List.pairwise_cons.mp hs with ⟨ha, ht⟩
    have hxa : ¬x = a := fun h => hx (h ▸ List.mem_cons_self a t)
    have hxt : x ∉ t := fun h => hx (List.mem_cons_of_mem a h)
    by_cases hax : a < x
    · rw [ipos_cons]
      simp only [hax, if_true]
      rw [List.insertIdx_succ_cons]
      refine List.pairwise_cons.mpr ⟨?_, ih ht hxt⟩
      intro b hb
      rcases mem_of_mem_insertIdx hb with rfl | hb2
      · omega
      · exact ha b hb2
    · have h0 : ipos t x = 0 :=
        ipos_eq_zero_of_not_lt t a x (fun y hy => le_of_lt (ha y hy)) hax
      rw [ipos_cons]
      simp only [hax, if_false, h0, Nat.add_zero]
      rw [List.insertIdx_zero]
      refine List.pairwise_cons.mpr ⟨?_, hs⟩
      intro b hb
      rcases List.mem_cons.mp hb with rfl | hb2
      · omega
      · have := ha b hb2
        omega

/-- Overwriting the entry at the probe's insertion point with the probe
preserves weak sortedness. -/
theorem pairwise_le_set (ks : List Int) (x : Int) (hs : ks.Pairwise (· ≤ ·))
    (hlen : ipos ks x < ks.length) :
    (ks.set (ipos ks x) x).Pairwise (· ≤ ·) := by
  induction ks with
  | nil => simp at hlen
  | cons a t ih =>
    rcases List.pairwise_cons.mp hs with ⟨ha, ht⟩
    by_cases hax : a < x
    · rw [ipos_cons] at hlen ⊢
      simp only [hax, if_true] at hlen ⊢
      rw [List.set_cons_succ]
      refine List.pairwise_cons.mpr ⟨?_, ih ht (by simpa using hlen)⟩
      intro b hb
      rcases List.mem_or_eq_of_mem_set hb with hb2 | rfl
      · exact ha b hb2
      · omega
    · have h0 : ipos t x = 0 := ipos_eq_zero_of_not_lt t a x ha hax
      rw [ipos_cons]
      simp only [hax, if_false, h0, Nat.add_zero]
      rw [List.set_cons_zero]
      refine List.pairwise_cons.mpr ⟨?_, ht⟩
      intro b hb
      have := ha b hb
      omega

/-- Erasing any position preserves pairwise order. -/
theorem pairwise_eraseIdx {R : α → α → Prop} {l : List α}
    (h : l.Pairwise R) (i : Nat) : (l.eraseIdx i).Pairwise R :=
  List.Pairwise.sublist (List.eraseIdx_sublist l i) h

/-- Overwriting a position with the value it already holds is a no-op. -/
theorem set_getD_eq_self (l : List α) (i : Nat) (d : α) (hi : i < l.length) :
    l.set i (l.getD i d) = l := by
  apply List.ext_getElem (by simp)
  intro j h1 h2
  rw [List.getElem_set]
  split
  · next heq =>
    subst heq
    rw [List.getD_eq_getElem?_getD, List.getElem?_eq_getElem hi]
    rfl
  · rfl

/-- `insertIdx` is a permutation of consing (at an in-range position). -/
theorem insertIdx_perm_cons (l : List α) (i : Nat) (x : α) (h : i ≤ l.length) :
    (l.insertIdx i x).Perm (x :: l) := by
  induction l generalizing i with
  | nil =>
    have : i = 0 := by simpa using h
    subst this
    simp
  | cons a t ih =>
    cases i with
    | zero => simp
    | succ j =>
      rw [List.insertIdx_succ_cons]
      have hj : j ≤ t.length := by simpa using h
      exact ((ih j hj).cons a).trans (List.Perm.swap x a t)

/-! ## Transport and dictionary lemmas -/

theorem getD_map_some (ks : List Int) (i : Nat) (hi : i < ks.length) :
    (ks.map some).getD i Option.none = some (ks.getD i 0) := by
  rw [List.getD_eq_getElem?_getD, List.getElem?_map, List.getElem?_eq_getElem hi,
    List.getD_eq_getElem?_getD, List.getElem?_eq_getElem hi]
  rfl

/-- The source's hit test `index < len(self._index) and self._index[index] ==
index_price`, at the probe's insertion point, is exactly membership of the
key. -/
theorem hit_test_iff (ks : List Int) (x : Int) (hs : ks.Pairwise (· < ·)) :
    (ipos ks x < (ks.map some).length ∧
      (ks.map some).getD (ipos ks x) Option.none == some x) ↔ x ∈ ks := by
  rw [ipos_mem_iff ks x hs]
  constructor
  · rintro ⟨h1, h2⟩
    have h1a : ipos ks x < ks.length := by simpa using h1
    rw [getD_map_some ks _ h1a] at h2
    exact ⟨h1a, by simpa using h2⟩
  · rintro ⟨h1, h2⟩
    refine ⟨by simpa using h1, ?_⟩
    rw [getD_map_some ks _ h1, h2]
    simp

theorem dictLookup_cons (p : Val × Val) (d : List (Val × Val)) (k : Val) :
    dictLookup (p :: d) k = if p.1 = k then some p.2 else dictLookup d k := by
  rw [dictLookup, List.find?_cons]
  by_cases h : p.1 = k
  · simp [h]
  · simp only [h, if_false]
    rw [show (p.1 == k) = false by simpa using h]
    rfl

theorem dictMem_cons (p : Val × Val) (d : List (Val × Val)) (k : Val) :
    dictMem (p :: d) k = (decide (p.1 = k) || dictMem d k) := by
  rw [dictMem, dictLookup_cons]
  by_cases h : p.1 = k <;> simp [h, dictMem]

theorem dictLookup_append (d1 d2 : List (Val × Val)) (k : Val) :
    dictLookup (d1 ++ d2) k =
      match dictLookup d1 k with
      | some v => some v
      | Option.none => dictLookup d2 k := by
  induction d1 with
  | nil => simp [dictLookup]
  | cons p rest ih =>
    rw [List.cons_append, dictLookup_cons, dictLookup_cons]
    by_cases h : p.1 = k
    · simp [h]
    · simp only [h, if_false]
      exact ih

theorem dictMem_false_lookup (d : List (Val × Val)) (k : Val)
    (h : dictMem d k = false) : dictLookup d k = Option.none := by
  rw [dictMem] at h
  cases hd : dictLookup d k
  · rfl
  · rw [hd] at h; simp at h

theorem dictLookup_map_other (d : List (Val × Val)) (k v k2 : Val)
    (hne : ¬k2 = k) :
    dictLookup (d.map (fun p => if p.1 == k then (k, v) else p)) k2 =
      dictLookup d k2 := by
  induction d with
  | nil => rfl
  | cons p rest ih =>
    rw [List.map_cons, dictLookup_cons, dictLookup_cons]
    by_cases hp : p.1 = k
    · rw [show (p.1 == k) = true by simpa using hp]
      simp only [if_true, show ¬(k, v).1 = k2 from fun h => hne h.symm, if_false,
        show ¬p.1 = k2 from hp ▸ fun h => hne h.symm, ih]
    · rw [show (p.1 == k) = false by simpa using hp]
      simp only [Bool.false_eq_true, if_false, ih]

theorem dictLookup_map_self (d : List (Val × Val)) (k v : Val)
    (hmem : dictMem d k = true) :
    dictLookup (d.map (fun p => if p.1 == k then (k, v) else p)) k = some v := by
  induction d with
  | nil => simp [dictMem, dictLookup] at hmem
  | cons p rest ih =>
    rw [List.map_cons, dictLookup_cons]
    by_cases hp : p.1 = k
    · rw [show (p.1 == k) = true by simpa using hp]
      simp
    · rw [show (p.1 == k) = false by simpa using hp]
      rw [dictMem_cons] at hmem
      simp only [hp, decide_False, Bool.false_or] at hmem
      simp only [Bool.false_eq_true, if_false, if_neg hp]
      exact ih hmem

/-- Lookup through Python `d[k] = v`. -/
theorem dictLookup_set (d : List (Val × Val)) (k v k2 : Val) :
    dictLookup (dictSet d k v) k2 =
      if k2 = k then some v else dictLookup d k2 := by
  rw [dictSet]
  by_cases hmem : dictMem d k
  · rw [if_pos hmem]
    by_cases h2 : k2 = k
    · subst h2
      rw [dictLookup_map_self d k2 v hmem, if_pos rfl]
    · rw [dictLookup_map_other d k v k2 h2, if_neg h2]
  · rw [if_neg hmem, dictLookup_append]
    by_cases h2 : k2 = k
    · subst h2
      rw [dictMem_false_lookup d k2 (by simpa using hmem)]
      simp [dictLookup_cons]
    · cases hd : dictLookup d k2
      · simp only [if_neg h2]
        rw [dictLookup_cons]
        simp [show ¬(k, v).1 = k2 from fun h => h2 h.symm, dictLookup]
      · simp [if_neg h2]

/-- Lookup through Python `del d[k]`. -/
theorem dictLookup_del (d : List (Val × Val)) (k k2 : Val) :
    dictLookup (dictDel d k) k2 =
      if k2 = k then Option.none else dictLookup d k2 := by
  induction d with
  | nil => simp [dictDel, dictLookup]
  | cons p rest ih =>
    rw [dictDel, List.filter_cons]
    by_cases hp : p.1 = k
    · rw [show (!(p.1 == k)) = false by simpa using hp]
      simp only [Bool.false_eq_true, if_false]
      rw [dictDel] at ih
      rw [ih]
      by_cases h2 : k2 = k
      · simp [h2]
      · rw [if_neg h2, if_neg h2, dictLookup_cons,
          if_neg (hp ▸ fun h => h2 h.symm)]
    · rw [show (!(p.1 == k)) = true by simpa using hp, if_pos rfl,
        dictLookup_cons]
      rw [dictDel] at ih
      by_cases hpk : p.1 = k2
      · rw [if_pos hpk, dictLookup_cons, if_pos hpk,
          if_neg (fun h => hp (hpk.trans h))]
      · rw [if_neg hpk, ih, dictLookup_cons, if_neg hpk]

/-! ## List surgery helpers -/

theorem perm_getElem_cons_eraseIdx (l : List α) (i : Nat) (h : i < l.length) :
    l.Perm (l[i] :: l.eraseIdx i) := by
  have h1 : l = List.take i l ++ (l[i] :: List.drop (i + 1) l) := by
    rw [List.getElem_cons_drop, List.take_append_drop]
  rw [List.eraseIdx_eq_take_drop_succ]
  conv_lhs => rw [h1]
  exact List.perm_middle

theorem eraseIdx_perm_erase (l : List α) [DecidableEq α] (i : Nat)
    (h : i < l.length) : (l.eraseIdx i).Perm (l.erase (l[i])) :=
  List.Perm.cons_inv
    ((perm_getElem_cons_eraseIdx l i h).symm.trans
      (List.perm_cons_erase (List.getElem_mem h)))

theorem map_insertIdx_le (f : α → β) (l : List α) (i : Nat) (x : α)
    (h : i ≤ l.length) :
    (l.insertIdx i x).map f = (l.map f).insertIdx i (f x) := by
  induction l generalizing i with
  | nil =>
    have h0 : i = 0 := by simpa using h
    subst h0
    simp
  | cons a t ih =>
    cases i with
    | zero => simp
    | succ j =>
      rw [List.insertIdx_succ_cons, List.map_cons, List.map_cons,
        List.insertIdx_succ_cons, ih j (by simpa using h)]

theorem map_eraseIdx (f : α → β) (l : List α) (i : Nat) :
    (l.eraseIdx i).map f = (l.map f).eraseIdx i := by
  induction l generalizing i with
  | nil => simp
  | cons a t ih =>
    cases i with
    | zero => simp
    | succ j =>
      rw [List.eraseIdx_cons_succ, List.map_cons, List.map_cons,
        List.eraseIdx_cons_succ, ih]

theorem zip_insertIdx (xs : List α) (ys : List β) (i : Nat) (a : α) (b : β)
    (hlen : xs.length = ys.length) (h : i ≤ xs.length) :
    (xs.insertIdx i a).zip (ys.insertIdx i b) = (xs.zip ys).insertIdx i (a, b) := by
  induction xs generalizing ys i with
  | nil =>
    cases ys with
    | nil =>
      have h0 : i = 0 := by simpa using h
      subst h0
      simp
    | cons y yt => simp at hlen
  | cons x xt ih =>
    cases ys with
    | nil => simp at hlen
    | cons y yt =>
      cases i with
      | zero => simp [List.zip_cons_cons]
      | succ j =>
        rw [List.insertIdx_succ_cons, List.insertIdx_succ_cons,
          List.zip_cons_cons, List.zip_cons_cons, List.insertIdx_succ_cons,
          ih yt j (by simpa using hlen) (by simpa using h)]

theorem zip_eraseIdx (xs : List α) (ys : List β) (i : Nat)
    (hlen : xs.length = ys.length) :
    (xs.eraseIdx i).zip (ys.eraseIdx i) = (xs.zip ys).eraseIdx i := by
  induction xs generalizing ys i with
  | nil => simp
  | cons x xt ih =>
    cases ys with
    | nil => simp at hlen
    | cons y yt =>
      cases i with
      | zero => simp [List.zip_cons_cons]
      | succ j =>
        rw [List.eraseIdx_cons_succ, List.eraseIdx_cons_succ,
          List.zip_cons_cons, List.zip_cons_cons, List.eraseIdx_cons_succ,
          ih yt j (by simpa using hlen)]

/-- On a strictly sorted key list, the insertion point of a stored key is its
position. -/
theorem ipos_getElem (ks : List Int) (hs : ks.Pairwise (· < ·)) (i : Nat)
    (h : i < ks.length) : ipos ks (ks[i]) = i := by
  have hle : ks.Pairwise (· ≤ ·) := hs.imp le_of_lt
  have hmono := List.pairwise_iff_getElem.mp hs
  have h1 := lt_iff_lt_ipos ks (ks[i]) hle
  by_contra hne
  rcases Nat.lt_or_ge i (ipos ks (ks[i])) with hlt | hge
  · have := (h1 i h).mpr hlt
    omega
  · have hlt2 : ipos ks (ks[i]) < i := by omega
    have hlen2 : ipos ks (ks[i]) < ks.length := by omega
    have h2 := hmono _ _ hlen2 h hlt2
    have := (h1 _ hlen2).mp h2
    omega

/-! ## Dictionaries as permutations of (id, key) pairs -/

theorem dictLookup_eq_some_iff_mem (d : List (Val × Val))
    (hnd : (d.map Prod.fst).Nodup) (k v : Val) :
    dictLookup d k = some v ↔ (k, v) ∈ d := by
  induction d with
  | nil => simp [dictLookup]
  | cons p rest ih =>
    rw [List.map_cons, List.nodup_cons] at hnd
    rw [dictLookup_cons, List.mem_cons]
    by_cases hp : p.1 = k
    · rw [if_pos hp]
      constructor
      · intro hv
        left
        have hv2 : p.2 = v := by simpa using hv
        calc (k, v) = (p.1, p.2) := by rw [hp, hv2]
          _ = p := rfl
      · rintro (rfl | hmem)
        · rfl
        · exact absurd (List.mem_map_of_mem Prod.fst hmem) (hp ▸ hnd.1)
    · rw [if_neg hp, ih hnd.2]
      constructor
      · exact fun h => Or.inr h
      · rintro (rfl | h)
        · exact absurd rfl hp
        · exact h

theorem dictLookup_perm (d1 d2 : List (Val × Val)) (h : d1.Perm d2)
    (hnd : (d1.map Prod.fst).Nodup) (k : Val) :
    dictLookup d1 k = dictLookup d2 k := by
  have hnd2 : (d2.map Prod.fst).Nodup := ((h.map Prod.fst).nodup_iff).mp hnd
  cases h1 : dictLookup d1 k with
  | some v =>
    have hm := (dictLookup_eq_some_iff_mem d1 hnd k v).mp h1
    exact ((dictLookup_eq_some_iff_mem d2 hnd2 k v).mpr (h.mem_iff.mp hm)).symm
  | none =>
    cases h2 : dictLookup d2 k with
    | none => rfl
    | some v =>
      have hm := (dictLookup_eq_some_iff_mem d2 hnd2 k v).mp h2
      have hm1 := h.mem_iff.mpr hm
      have := (dictLookup_eq_some_iff_mem d1 hnd k v).mpr hm1
      rw [h1] at this
      cases this

/-- An in-place dict overwrite is, up to permutation, removal of the old
binding plus a fresh binding. -/
theorem dictSet_perm_of_mem (d : List (Val × Val)) (k v w : Val)
    (hnd : (d.map Prod.fst).Nodup) (hmem : dictLookup d k = some w) :
    (dictSet d k v).Perm ((k, v) :: d.erase (k, w)) := by
  induction d with
  | nil => simp [dictLookup] at hmem
  | cons p rest ih =>
    rw [List.map_cons, List.nodup_cons] at hnd
    have hm : dictMem (p :: rest) k = true := by rw [dictMem, hmem]; rfl
    rw [dictSet, if_pos hm, List.map_cons]
    rw [dictLookup_cons] at hmem
    by_cases hp : p.1 = k
    · rw [if_pos hp] at hmem
      have hpv : p = (k, w) := by
        have hv2 : p.2 = w := by simpa using hmem
        calc p = (p.1, p.2) := rfl
          _ = (k, w) := by rw [hp, hv2]
      subst hpv
      rw [show (((k, w) : Val × Val).1 == k) = true by simp]
      simp only [if_true]
      rw [List.erase_cons_head]
      refine List.Perm.cons _ ?_
      have hid : rest.map (fun p => if p.1 == k then (k, v) else p) = rest := by
        conv_rhs => rw [show rest = rest.map id from (List.map_id rest).symm]
        apply List.map_congr_left
        intro q hq
        have hqk : ¬q.1 = k := by
          intro hqe
          have hqm : q.1 ∈ rest.map Prod.fst := List.mem_map_of_mem Prod.fst hq
          rw [hqe] at hqm
          exact hnd.1 hqm
        simp [show (q.1 == k) = false by simpa using hqk]
      rw [hid]
    · rw [if_neg hp] at hmem
      rw [show (p.1 == k) = false by simpa using hp]
      simp only [Bool.false_eq_true, if_false]
      have hpkw : ¬(p == ((k, w) : Val × Val)) = true := by
        simp only [beq_iff_eq]
        intro hcon
        exact hp (by rw [hcon])
      rw [List.erase_cons_tail hpkw]
      have hmr : dictMem rest k = true := by rw [dictMem, hmem]; rfl
      have ihp := ih hnd.2 hmem
      rw [dictSet, if_pos hmr] at ihp
      exact (List.Perm.cons p ihp).trans (List.Perm.swap (k, v) p _)

/-- Binding a fresh key appends; up to permutation it is a cons. -/
theorem dictSet_perm_of_not_mem (d : List (Val × Val)) (k v : Val)
    (hmem : dictMem d k = false) : (dictSet d k v).Perm ((k, v) :: d) := by
  rw [dictSet, if_neg (by simp [hmem])]
  simpa using (@List.perm_middle _ (k, v) d [])

/-- With pairwise-distinct keys, `del d[k]` is exactly erasure of the unique
binding of `k`. -/
theorem dictDel_eq_erase (d : List (Val × Val)) (k w : Val)
    (hnd : (d.map Prod.fst).Nodup) (hmem : dictLookup d k = some w) :
    dictDel d k = d.erase (k, w) := by
  induction d with
  | nil => simp [dictLookup] at hmem
  | cons p rest ih =>
    rw [List.map_cons, List.nodup_cons] at hnd
    rw [dictLookup_cons] at hmem
    rw [dictDel, List.filter_cons]
    by_cases hp : p.1 = k
    · rw [if_pos hp] at hmem
      have hpv : p = (k, w) := by
        have hv2 : p.2 = w := by simpa using hmem
        calc p = (p.1, p.2) := rfl
          _ = (k, w) := by rw [hp, hv2]
      subst hpv
      rw [show (!(((k, w) : Val × Val).1 == k)) = false by simp]
      simp only [Bool.false_eq_true, if_false]
      rw [List.erase_cons_head]
      rw [List.filter_eq_self]
      intro q hq
      have hqk : ¬q.1 = k := by
        intro hqe
        have hqm : q.1 ∈ rest.map Prod.fst := List.mem_map_of_mem Prod.fst hq
        rw [hqe] at hqm
        exact hnd.1 hqm
      simp [show (q.1 == k) = false by simpa using hqk]
    · rw [show (!(p.1 == k)) = true by simpa using hp, if_pos rfl]
      have hpkw : ¬(p == ((k, w) : Val × Val)) = true := by
        simp only [beq_iff_eq]
        intro hcon
        exact hp (by rw [hcon])
      rw [List.erase_cons_tail hpkw]
      rw [if_neg hp] at hmem
      rw [dictDel] at ih
      rw [ih hnd.2 hmem]

/-! ## Plumbing lemmas for the embedded monadic code -/

@[simp]
theorem withS_ok (s : Side) (v : α) : withS s (Except.ok v) = Except.ok v := rfl

@[simp]
theorem withS_error {α : Type} (s : Side) (e : Unit) :
    withS s (Except.error e : Except Unit α) = Except.error s := rfl

@[simp]
theorem ok_bind (a : α) (f : α → Except ε β) :
    (Except.ok a >>= f) = f a := rfl

@[simp]
theorem error_bind (e : ε) (f : α → Except ε β) :
    ((Except.error e : Except ε α) >>= f) = Except.error e := rfl

@[simp]
theorem resState_ok (s : Side) : resState (Except.ok s) = s := rfl

@[simp]
theorem resState_error (s : Side) : resState (Except.error s) = s := rfl

@[simp]
theorem resState_pure (s : Side) : resState (pure s) = s := rfl

@[simp]
theorem pure_bind_py (a : α) (f : α → Except ε β) :
    ((pure a : Except ε α) >>= f) = f a := rfl

@[simp]
theorem pyGet_cons_zero (a : α) (l : List α) : pyGet (a :: l) 0 = .ok a := by
  simp [pyGet]

@[simp]
theorem pyGet_cons_succ (a : α) (l : List α) (i : Nat) :
    pyGet (a :: l) (i + 1) = pyGet l i := by
  simp [pyGet]

@[simp]
theorem pyGet_nil (i : Nat) : pyGet ([] : List α) i = .error () := rfl

/-! ## The sortedness invariant (claim C2's amended form) -/

/-- The key index is strictly ascending (`None` can only appear alone) and in
lockstep with the level list. -/
def SortedStrict (s : Side) : Prop :=
  s.index.Pairwise (fun a b => vlt a b = true) ∧
    s.index.length = s.levels.length

/-- The key index is weakly ascending (duplicates allowed) and in lockstep
with the level list. -/
def SortedWeak (s : Side) : Prop :=
  s.index.Pairwise (fun a b => vle a b = true) ∧
    s.index.length = s.levels.length

theorem pyGet_ok (l : List α) (i : Nat) (h : i < l.length) :
    pyGet l i = .ok (l[i]) := by
  simp [pyGet, List.getElem?_eq_getElem h]

theorem pySet_ok (l : List α) (i : Nat) (v : α) (h : i < l.length) :
    pySet l i v = .ok (l.set i v) := by
  simp [pySet, h]

theorem pyDelAt_ok (l : List α) (i : Nat) (h : i < l.length) :
    pyDelAt l i = .ok (l.eraseIdx i) := by
  simp [pyDelAt, h]

theorem pyInsert_le (l : List α) (i : Nat) (v : α) (h : i ≤ l.length) :
    pyInsert l i v = l.insertIdx i v := by
  simp [pyInsert, h]

/-- The absolute strategy preserves strict sortedness and lockstep lengths,
also at the raise point of any exception. -/
theorem absStore_sorted (side : Bool) (s : Side) (delta : List Val)
    (h : SortedStrict s) :
    SortedStrict (resState (absStoreArray side s delta)) := by
  obtain ⟨hsort, hpar⟩ := h
  rw [absStoreArray]
  cases h0 : pyGet delta 0 with
  | error e =>
    simp only [h0, withS_error, error_bind, resState_error]
    exact ⟨hsort, hpar⟩
  | ok price =>
  simp only [h0, withS_ok, ok_bind]
  cases h1 : pyGet delta 1 with
  | error e =>
    simp only [h1, withS_error, error_bind, resState_error]
    exact ⟨hsort, hpar⟩
  | ok size =>
  simp only [h1, withS_ok, ok_bind]
  cases h2 : pyNegIf side price with
  | error e =>
    simp only [h2, withS_error, error_bind, resState_error]
    exact ⟨hsort, hpar⟩
  | ok key =>
  simp only [h2, withS_ok, ok_bind]
  rcases pairwise_vlt_shape s.index hsort with hN | ⟨ks, hks, hkss⟩
  · rw [hN, bisect_left_none_singleton]
    simp only [withS_error, error_bind, resState_error]
    exact ⟨hsort, hpar⟩
  · have hsort2 : (ks.map some).Pairwise (fun a b => vlt a b = true) :=
      hks ▸ hsort
    have hpar2 : (ks.map some).length = s.levels.length := hks ▸ hpar
    rw [hks]
    cases key with
    | none =>
      cases ks with
      | nil =>
        rw [show bisect_left (([] : List Int).map some) Option.none
            = .ok 0 from rfl]
        simp only [withS_ok, ok_bind]
        have hlev : s.levels = [] :=
          List.length_eq_zero.mp (by simpa using hpar2.symm)
        by_cases hsz : pyTruthy size = true
        · rw [if_pos hsz, if_neg (by simp)]
          simp only [resState_pure]
          refine ⟨?_, ?_⟩
          · simp [pyInsert]
          · simp [pyInsert, hlev]
        · rw [if_neg hsz, if_neg (by simp)]
          simp only [resState_pure]
          exact ⟨hsort, hpar⟩
      | cons k0 kt =>
        rw [bisect_left_none_probe (k0 :: kt) (by simp)]
        simp only [withS_error, error_bind, resState_error]
        exact ⟨hsort, hpar⟩
    | some x =>
      rw [bisect_left_map_some ks x (hkss.imp le_of_lt)]
      simp only [withS_ok, ok_bind]
      have hcond := hit_test_iff ks x hkss
      by_cases hx : x ∈ ks
      · have hipos : ipos ks x < ks.length := ((ipos_mem_iff ks x hkss).mp hx).1
        have hlev : ipos ks x < s.levels.length := by
          rw [← hpar2]; simpa using hipos
        by_cases hsz : pyTruthy size = true
        · rw [if_pos hsz, if_pos (hcond.mpr hx)]
          rw [pyGet_ok s.levels _ hlev]
          simp only [withS_ok, ok_bind]
          cases h3 : pySet (s.levels[ipos ks x]) 1 size with
          | error e =>
            simp only [withS_error, error_bind, resState_error]
            exact ⟨hsort, hpar⟩
          | ok level1 =>
            simp only [withS_ok, ok_bind, resState_pure]
            exact ⟨hsort2, by simpa using hpar2⟩
        · rw [if_neg hsz, if_pos (hcond.mpr hx)]
          rw [pyDelAt_ok _ _ (by simpa using hipos)]
          simp only [withS_ok, ok_bind]
          rw [pyDelAt_ok _ _ hlev]
          simp only [withS_ok, ok_bind, resState_pure]
          refine ⟨pairwise_eraseIdx hsort2 _, ?_⟩
          simp only [List.length_eraseIdx]
          rw [if_pos (by simpa using hipos), if_pos hlev]
          omega
      · have hnc : ¬(ipos ks x < (ks.map some).length ∧
            (ks.map some).getD (ipos ks x) Option.none == some x) :=
          fun hc => hx (hcond.mp hc)
        have hle : ipos ks x ≤ s.levels.length := by
          rw [← hpar2]; simpa using ipos_le_length ks x
        by_cases hsz : pyTruthy size = true
        · rw [if_pos hsz, if_neg hnc]
          simp only [resState_pure, SortedStrict]
          rw [pyInsert_le (ks.map some) _ (some x)
              (by simpa using ipos_le_length ks x),
            pyInsert_le s.levels _ delta hle]
          refine ⟨?_, ?_⟩
          · rw [← map_insertIdx_le some ks _ x (ipos_le_length ks x)]
            exact pairwise_vlt_of_map_some _ (pairwise_lt_insertIdx ks x hkss hx)
          · rw [List.length_insertIdx _ _ (by simpa using ipos_le_length ks x),
              List.length_insertIdx _ _ hle]
            simpa using hpar2
        · rw [if_neg hsz, if_neg hnc]
          simp only [resState_pure]
          exact ⟨hsort, hpar⟩

/-- The counted strategy preserves strict sortedness and lockstep lengths,
also at the raise point of any exception. -/
theorem countedStore_sorted (side : Bool) (s : Side) (delta : List Val)
    (h : SortedStrict s) :
    SortedStrict (resState (countedStoreArray side s delta)) := by
  obtain ⟨hsort, hpar⟩ := h
  rw [countedStoreArray]
  cases h0 : pyGet delta 0 with
  | error e =>
    simp only [h0, withS_error, error_bind, resState_error]
    exact ⟨hsort, hpar⟩
  | ok price =>
  simp only [h0, withS_ok, ok_bind]
  cases h1 : pyGet delta 1 with
  | error e =>
    simp only [h1, withS_error, error_bind, resState_error]
    exact ⟨hsort, hpar⟩
  | ok size =>
  simp only [h1, withS_ok, ok_bind]
  cases h1b : pyGet delta 2 with
  | error e =>
    simp only [h1b, withS_error, error_bind, resState_error]
    exact ⟨hsort, hpar⟩
  | ok count =>
  simp only [h1b, withS_ok, ok_bind]
  cases h2 : pyNegIf side price with
  | error e =>
    simp only [h2, withS_error, error_bind, resState_error]
    exact ⟨hsort, hpar⟩
  | ok key =>
  simp only [h2, withS_ok, ok_bind]
  rcases pairwise_vlt_shape s.index hsort with hN | ⟨ks, hks, hkss⟩
  · rw [hN, bisect_left_none_singleton]
    simp only [withS_error, error_bind, resState_error]
    exact ⟨hsort, hpar⟩
  · have hsort2 : (ks.map some).Pairwise (fun a b => vlt a b = true) :=
      hks ▸ hsort
    have hpar2 : (ks.map some).length = s.levels.length := hks ▸ hpar
    rw [hks]
    cases key with
    | none =>
      cases ks with
      | nil =>
        rw [show bisect_left (([] : List Int).map some) Option.none
            = .ok 0 from rfl]
        simp only [withS_ok, ok_bind]
        have hlev : s.levels = [] :=
          List.length_eq_zero.mp (by simpa using hpar2.symm)
        by_cases hsz : (pyTruthy size && pyTruthy count) = true
        · rw [if_pos hsz, if_neg (by simp)]
          simp only [resState_pure, SortedStrict]
          refine ⟨?_, ?_⟩
          · simp [pyInsert]
          · simp [pyInsert, hlev]
        · rw [if_neg hsz, if_neg (by simp)]
          simp only [resState_pure]
          exact ⟨hsort, hpar⟩
      | cons k0 kt =>
        rw [bisect_left_none_probe (k0 :: kt) (by simp)]
        simp only [withS_error, error_bind, resState_error]
        exact ⟨hsort, hpar⟩
    | some x =>
      rw [bisect_left_map_some ks x (hkss.imp le_of_lt)]
      simp only [withS_ok, ok_bind]
      have hcond := hit_test_iff ks x hkss
      by_cases hx : x ∈ ks
      · have hipos : ipos ks x < ks.length := ((ipos_mem_iff ks x hkss).mp hx).1
        have hlev : ipos ks x < s.levels.length := by
          rw [← hpar2]; simpa using hipos
        by_cases hsz : (pyTruthy size && pyTruthy count) = true
        · rw [if_pos hsz, if_pos (hcond.mpr hx)]
          rw [pyGet_ok s.levels _ hlev]
          simp only [withS_ok, ok_bind]
          cases h3 : pySet (s.levels[ipos ks x]) 1 size with
          | error e =>
            simp only [withS_error, error_bind, resState_error]
            exact ⟨hsort, hpar⟩
          | ok level1 =>
            simp only [withS_ok, ok_bind]
            cases h4 : pySet level1 2 count with
            | error e =>
              simp only [withS_error, error_bind, resState_error]
              exact ⟨hsort2, by simpa using hpar2⟩
            | ok level2 =>
              simp only [withS_ok, ok_bind, resState_pure]
              exact ⟨hsort2, by simpa using hpar2⟩
        · rw [if_neg hsz, if_pos (hcond.mpr hx)]
          rw [pyDelAt_ok _ _ (by simpa using hipos)]
          simp only [withS_ok, ok_bind]
          rw [pyDelAt_ok _ _ hlev]
          simp only [withS_ok, ok_bind, resState_pure]
          refine ⟨pairwise_eraseIdx hsort2 _, ?_⟩
          simp only [List.length_eraseIdx]
          rw [if_pos (by simpa using hipos), if_pos hlev]
          omega
      · have hnc : ¬(ipos ks x < (ks.map some).length ∧
            (ks.map some).getD (ipos ks x) Option.none == some x) :=
          fun hc => hx (hcond.mp hc)
        have hle : ipos ks x ≤ s.levels.length := by
          rw [← hpar2]; simpa using ipos_le_length ks x
        by_cases hsz : (pyTruthy size && pyTruthy count) = true
        · rw [if_pos hsz, if_neg hnc]
          simp only [resState_pure, SortedStrict]
          rw [pyInsert_le (ks.map some) _ (some x)
              (by simpa using ipos_le_length ks x),
            pyInsert_le s.levels _ delta hle]
          refine ⟨?_, ?_⟩
          · rw [← map_insertIdx_le some ks _ x (ipos_le_length ks x)]
            exact pairwise_vlt_of_map_some _ (pairwise_lt_insertIdx ks x hkss hx)
          · rw [List.length_insertIdx _ _ (by simpa using ipos_le_length ks x),
              List.length_insertIdx _ _ hle]
            simpa using hpar2
        · rw [if_neg hsz, if_neg hnc]
          simp only [resState_pure]
          exact ⟨hsort, hpar⟩

/-- The incremental strategy preserves strict sortedness and lockstep lengths,
also at the raise point of any exception. -/
theorem incStore_sorted (side : Bool) (s : Side) (delta : List Val)
    (h : SortedStrict s) :
    SortedStrict (resState (incStoreArray side s delta)) := by
  obtain ⟨hsort, hpar⟩ := h
  rw [incStoreArray]
  cases h0 : pyGet delta 0 with
  | error e =>
    simp only [h0, withS_error, error_bind, resState_error]
    exact ⟨hsort, hpar⟩
  | ok price =>
  simp only [h0, withS_ok, ok_bind]
  cases h1 : pyGet delta 1 with
  | error e =>
    simp only [h1, withS_error, error_bind, resState_error]
    exact ⟨hsort, hpar⟩
  | ok size =>
  simp only [h1, withS_ok, ok_bind]
  cases h2 : pyNegIf side price with
  | error e =>
    simp only [h2, withS_error, error_bind, resState_error]
    exact ⟨hsort, hpar⟩
  | ok key =>
  simp only [h2, withS_ok, ok_bind]
  rcases pairwise_vlt_shape s.index hsort with hN | ⟨ks, hks, hkss⟩
  · rw [hN, bisect_left_none_singleton]
    simp only [withS_error, error_bind, resState_error]
    exact ⟨hsort, hpar⟩
  · have hsort2 : (ks.map some).Pairwise (fun a b => vlt a b = true) :=
      hks ▸ hsort
    have hpar2 : (ks.map some).length = s.levels.length := hks ▸ hpar
    rw [hks]
    cases key with
    | none =>
      cases ks with
      | nil =>
        rw [show bisect_left (([] : List Int).map some) Option.none
            = .ok 0 from rfl]
        simp only [withS_ok, ok_bind]
        have hlev : s.levels = [] :=
          List.length_eq_zero.mp (by simpa using hpar2.symm)
        rw [show (decide (0 < (([] : List Int).map some).length)
            && ((([] : List Int).map some).getD 0 Option.none == Option.none))
            = false by simp]
        simp only [Bool.false_eq_true, if_false, ok_bind, pure_bind_py]
        cases h3 : pyGtZero size with
        | error e =>
          simp only [withS_error, error_bind, resState_error]
          exact ⟨hsort, hpar⟩
        | ok pos =>
        simp only [withS_ok, ok_bind]
        cases pos with
        | true =>
          simp only [if_true]
          simp only [resState_pure, SortedStrict]
          refine ⟨?_, ?_⟩
          · simp [pyInsert]
          · simp [pyInsert, hlev]
        | false =>
          simp only [Bool.false_eq_true, if_false]
          rw [if_neg (by simp)]
          simp only [resState_pure]
          exact ⟨hsort, hpar⟩
      | cons k0 kt =>
        rw [bisect_left_none_probe (k0 :: kt) (by simp)]
        simp only [withS_error, error_bind, resState_error]
        exact ⟨hsort, hpar⟩
    | some x =>
      rw [bisect_left_map_some ks x (hkss.imp le_of_lt)]
      simp only [withS_ok, ok_bind]
      have hcond := hit_test_iff ks x hkss
      by_cases hx : x ∈ ks
      · have hipos : ipos ks x < ks.length := ((ipos_mem_iff ks x hkss).mp hx).1
        have hlev : ipos ks x < s.levels.length := by
          rw [← hpar2]; simpa using hipos
        have hexists : (decide (ipos ks x < (ks.map some).length)
            && ((ks.map some).getD (ipos ks x) Option.none == some x)) = true := by
          rw [Bool.and_eq_true, decide_eq_true_eq]
          exact hcond.mpr hx
        rw [hexists]
        simp only [if_true]
        rw [pyGet_ok s.levels _ hlev]
        simp only [withS_ok, ok_bind]
        cases h3 : pyGet (s.levels[ipos ks x]) 1 with
        | error e =>
          simp only [withS_error, error_bind, resState_error]
          exact ⟨hsort, hpar⟩
        | ok v =>
        simp only [withS_ok, ok_bind]
        cases h4 : pyAdd size v with
        | error e =>
          simp only [withS_error, error_bind, resState_error]
          exact ⟨hsort, hpar⟩
        | ok size2 =>
        simp only [withS_ok, ok_bind]
        cases h5 : pyGtZero size2 with
        | error e =>
          simp only [withS_error, error_bind, resState_error]
          exact ⟨hsort, hpar⟩
        | ok pos =>
        simp only [withS_ok, ok_bind]
        cases pos with
        | true =>
          simp only [if_true]
          cases h6 : pySet (s.levels[ipos ks x]) 1 size2 with
          | error e =>
            simp only [withS_error, error_bind, resState_error]
            exact ⟨hsort, hpar⟩
          | ok level1 =>
            simp only [withS_ok, ok_bind, resState_pure]
            exact ⟨hsort2, by simpa using hpar2⟩
        | false =>
          simp only [Bool.false_eq_true, if_false]
          rw [if_pos (hcond.mpr hx)]
          rw [pyDelAt_ok _ _ (by simpa using hipos)]
          simp only [withS_ok, ok_bind]
          rw [pyDelAt_ok _ _ hlev]
          simp only [withS_ok, ok_bind, resState_pure]
          refine ⟨pairwise_eraseIdx hsort2 _, ?_⟩
          simp only [List.length_eraseIdx]
          rw [if_pos (by simpa using hipos), if_pos hlev]
          omega
      · have hnc : ¬(ipos ks x < (ks.map some).length ∧
            (ks.map some).getD (ipos ks x) Option.none == some x) :=
          fun hc => hx (hcond.mp hc)
        have hle : ipos ks x ≤ s.levels.length := by
          rw [← hpar2]; simpa using ipos_le_length ks x
        have hexists : (decide (ipos ks x < (ks.map some).length)
            && ((ks.map some).getD (ipos ks x) Option.none == some x)) = false := by
          rw [Bool.eq_false_iff]
          intro hcon
          rw [Bool.and_eq_true, decide_eq_true_eq] at hcon
          exact hnc hcon
        rw [hexists]
        simp only [Bool.false_eq_true, if_false, ok_bind, pure_bind_py]
        cases h3 : pyGtZero size with
        | error e =>
          simp only [withS_error, error_bind, resState_error]
          exact ⟨hsort, hpar⟩
        | ok pos =>
        simp only [withS_ok, ok_bind]
        cases pos with
        | true =>
          simp only [if_true]
          simp only [resState_pure, SortedStrict]
          rw [pyInsert_le (ks.map some) _ (some x)
              (by simpa using ipos_le_length ks x),
            pyInsert_le s.levels _ delta hle]
          refine ⟨?_, ?_⟩
          · rw [← map_insertIdx_le some ks _ x (ipos_le_length ks x)]
            exact pairwise_vlt_of_map_some _ (pairwise_lt_insertIdx ks x hkss hx)
          · rw [List.length_insertIdx _ _ (by simpa using ipos_le_length ks x),
              List.length_insertIdx _ _ hle]
            simpa using hpar2
        | false =>
          simp only [Bool.false_eq_true, if_false]
          rw [if_neg hnc]
          simp only [resState_pure]
          exact ⟨hsort, hpar⟩

/-- Exhaustive analysis of a `bisect_left` call over a weakly sorted index:
it raises, or the index is all-numeric and the probe numeric (returning the
insertion point), or both index and probe are degenerate (`[]` probed with
`None`). -/
theorem bisect_cases (idx : List Val) (key : Val)
    (hsorted : idx.Pairwise (fun a b => vle a b = true)) :
    bisect_left idx key = .error () ∨
    (∃ ks x, idx = ks.map some ∧ ks.Pairwise (· ≤ ·) ∧ key = some x ∧
      bisect_left idx key = .ok (ipos ks x)) ∨
    (idx = [] ∧ key = Option.none ∧ bisect_left idx key = .ok 0) := by
  rcases pairwise_vle_shape idx hsorted with hN | ⟨ks, rfl, hks⟩
  · subst hN
    exact Or.inl (bisect_left_none_singleton key)
  · cases key with
    | none =>
      cases ks with
      | nil => exact Or.inr (Or.inr ⟨rfl, rfl, rfl⟩)
      | cons k0 kt => exact Or.inl (bisect_left_none_probe _ (by simp))
    | some x =>
      exact Or.inr (Or.inl ⟨ks, x, rfl, hks, rfl, bisect_left_map_some ks x hks⟩)

/-- The shared "insert new price level" tail (lines 143–147) preserves weak
sortedness and lockstep lengths. -/
theorem insertFrag_sorted (u : Side) (key : Val) (delta : List Val)
    (h : SortedWeak u) :
    SortedWeak (resState ((do
      let index ← withS u (bisect_left u.index key)
      pure { u with index := pyInsert u.index index key,
                    levels := pyInsert u.levels index delta }) : PyRes)) := by
  obtain ⟨hsort, hpar⟩ := h
  rcases bisect_cases u.index key hsort with hb | ⟨ks, x, hidx, hks, hkey, hb⟩ |
    ⟨hidx, hkey, hb⟩
  · rw [hb]
    simp only [withS_error, error_bind, resState_error]
    exact ⟨hsort, hpar⟩
  · rw [hb]
    simp only [withS_ok, ok_bind, resState_pure, SortedWeak]
    have hlen : ipos ks x ≤ u.index.length := by
      rw [hidx]; simpa using ipos_le_length ks x
    have hlenL : ipos ks x ≤ u.levels.length := by rw [← hpar]; exact hlen
    rw [pyInsert_le _ _ _ hlen, pyInsert_le _ _ _ hlenL]
    refine ⟨?_, ?_⟩
    · rw [hidx, hkey, ← map_insertIdx_le some ks _ x (ipos_le_length ks x)]
      exact pairwise_vle_of_map_some _ (pairwise_le_insertIdx ks x hks)
    · rw [List.length_insertIdx _ _ hlen, List.length_insertIdx _ _ hlenL, hpar]
  · rw [hb]
    simp only [withS_ok, ok_bind, resState_pure, SortedWeak]
    have hlev : u.levels = [] := by
      rw [← List.length_eq_zero, ← hpar, hidx]
      rfl
    rw [hidx, hkey, hlev]
    refine ⟨?_, ?_⟩
    · simp [pyInsert]
    · simp [pyInsert]

/-- The order-indexed "known id, nonzero size" branch (lines 127–147)
preserves weak sortedness and lockstep lengths, for any resolved key. -/
theorem idxContains_sorted (s : Side) (R old order_id : Val) (delta : List Val)
    (h : SortedWeak s) :
    SortedWeak (resState ((do
      let a ← withS s (pyAbs R)
      let delta2 ← withS s (pySet delta 0 a)
      if R == old then do
        let index ← withS s (bisect_left s.index R)
        let ix ← withS s (pySet s.index index R)
        let s1 := { s with index := ix }
        let lv ← withS s1 (pySet s1.levels index delta2)
        pure { s1 with levels := lv }
      else do
        let old_index ← withS s (bisect_left s.index old)
        let ix ← withS s (pyDelAt s.index old_index)
        let s1 := { s with index := ix }
        let lv ← withS s1 (pyDelAt s1.levels old_index)
        let s2 := { s1 with levels := lv }
        let s3 := { s2 with hashmap := dictSet s2.hashmap order_id R }
        let index ← withS s3 (bisect_left s3.index R)
        pure { s3 with index := pyInsert s3.index index R,
                       levels := pyInsert s3.levels index delta2 }) : PyRes)) := by
  obtain ⟨hsort, hpar⟩ := h
  cases habs : pyAbs R with
  | error e =>
    simp only [habs, withS_error, error_bind, resState_error]
    exact ⟨hsort, hpar⟩
  | ok a =>
  simp only [habs, withS_ok, ok_bind]
  cases hset : pySet delta 0 a with
  | error e =>
    simp only [hset, withS_error, error_bind, resState_error]
    exact ⟨hsort, hpar⟩
  | ok delta2 =>
  simp only [hset, withS_ok, ok_bind]
  by_cases hbeq : (R == old) = true
  · rw [if_pos hbeq]
    rcases bisect_cases s.index R hsort with hb | ⟨ks, x, hidx, hks, hkey, hb⟩ |
      ⟨hidx, hkey, hb⟩
    · rw [hb]
      simp only [withS_error, error_bind, resState_error]
      exact ⟨hsort, hpar⟩
    · rw [hb]
      simp only [withS_ok, ok_bind]
      by_cases hlt : ipos ks x < s.index.length
      · rw [pySet_ok _ _ _ hlt]
        simp only [withS_ok, ok_bind]
        have hlt2 : ipos ks x < s.levels.length := by rw [← hpar]; exact hlt
        rw [pySet_ok _ _ _ (by simpa using hlt2)]
        simp only [withS_ok, ok_bind, resState_pure, SortedWeak]
        refine ⟨?_, ?_⟩
        · rw [hidx, hkey, ← List.map_set]
          exact pairwise_vle_of_map_some _
            (pairwise_le_set ks x hks (by rw [hidx] at hlt; simpa using hlt))
        · simp [hpar]
      · rw [pySet, if_neg hlt]
        simp only [withS_error, error_bind, resState_error]
        exact ⟨hsort, hpar⟩
    · rw [hb]
      simp only [withS_ok, ok_bind]
      rw [show pySet s.index 0 R = .error () by rw [hidx]; simp [pySet]]
      simp only [withS_error, error_bind, resState_error]
      exact ⟨hsort, hpar⟩
  · rw [if_neg hbeq]
    rcases bisect_cases s.index old hsort with hb | ⟨ks, y, hidx, hks, hkey, hb⟩ |
      ⟨hidx, hkey, hb⟩
    · rw [hb]
      simp only [withS_error, error_bind, resState_error]
      exact ⟨hsort, hpar⟩
    · rw [hb]
      simp only [withS_ok, ok_bind]
      by_cases hlt : ipos ks y < s.index.length
      · rw [pyDelAt_ok _ _ hlt]
        simp only [withS_ok, ok_bind]
        have hlt2 : ipos ks y < s.levels.length := by rw [← hpar]; exact hlt
        rw [pyDelAt_ok _ _ (by simpa using hlt2)]
        simp only [withS_ok, ok_bind]
        exact insertFrag_sorted _ R delta2
          ⟨pairwise_eraseIdx hsort _, by
            simp only [List.length_eraseIdx]
            rw [if_pos hlt, if_pos hlt2, hpar]⟩
      · rw [pyDelAt, if_neg hlt]
        simp only [withS_error, error_bind, resState_error]
        exact ⟨hsort, hpar⟩
    · rw [hb]
      simp only [withS_ok, ok_bind]
      rw [show pyDelAt s.index 0 = .error () by rw [hidx]; simp [pyDelAt]]
      simp only [withS_error, error_bind, resState_error]
      exact ⟨hsort, hpar⟩

/-- The order-indexed strategy preserves weak sortedness and lockstep
lengths, also at the raise point of any exception. -/
theorem idxStore_sorted (side : Bool) (s : Side) (delta : List Val)
    (h : SortedWeak s) :
    SortedWeak (resState (idxStoreArray side s delta)) := by
  obtain ⟨hsort, hpar⟩ := h
  rw [idxStoreArray]
  cases h0 : pyGet delta 0 with
  | error e =>
    simp only [h0, withS_error, error_bind, resState_error]
    exact ⟨hsort, hpar⟩
  | ok price =>
  simp only [h0, withS_ok, ok_bind]
  cases h1 : pyGet delta 1 with
  | error e =>
    simp only [h1, withS_error, error_bind, resState_error]
    exact ⟨hsort, hpar⟩
  | ok size =>
  simp only [h1, withS_ok, ok_bind]
  cases h1b : pyGet delta 2 with
  | error e =>
    simp only [h1b, withS_error, error_bind, resState_error]
    exact ⟨hsort, hpar⟩
  | ok order_id =>
  simp only [h1b, withS_ok, ok_bind]
  by_cases hsz : pyTruthy size = true
  · rw [if_pos hsz]
    cases hmap : dictLookup s.hashmap order_id with
    | some old_price =>
      exact idxContains_sorted s _ old_price order_id delta ⟨hsort, hpar⟩
    | none =>
      exact insertFrag_sorted
        ⟨s.levels, s.index,
          dictSet s.hashmap order_id (keyOfPrice side price),
          s.depth, s.n⟩ _ delta ⟨hsort, hpar⟩
  · rw [if_neg hsz]
    cases hmap : dictLookup s.hashmap order_id with
    | some old_price =>
      simp only []
      rcases bisect_cases s.index old_price hsort with hb |
        ⟨ks, y, hidx, hks, hkey, hb⟩ | ⟨hidx, hkey, hb⟩
      · rw [hb]
        simp only [withS_error, error_bind, resState_error]
        exact ⟨hsort, hpar⟩
      · rw [hb]
        simp only [withS_ok, ok_bind]
        by_cases hlt : ipos ks y < s.index.length
        · rw [pyDelAt_ok _ _ hlt]
          simp only [withS_ok, ok_bind]
          have hlt2 : ipos ks y < s.levels.length := by rw [← hpar]; exact hlt
          rw [pyDelAt_ok _ _ (by simpa using hlt2)]
          simp only [withS_ok, ok_bind, resState_pure, SortedWeak]
          refine ⟨pairwise_eraseIdx hsort _, ?_⟩
          simp only [List.length_eraseIdx]
          rw [if_pos hlt, if_pos hlt2, hpar]
        · rw [pyDelAt, if_neg hlt]
          simp only [withS_error, error_bind, resState_error]
          exact ⟨hsort, hpar⟩
      · rw [hb]
        simp only [withS_ok, ok_bind]
        rw [show pyDelAt s.index 0 = .error () by rw [hidx]; simp [pyDelAt]]
        simp only [withS_error, error_bind, resState_error]
        exact ⟨hsort, hpar⟩
    | none =>
      simp only [resState_pure]
      exact ⟨hsort, hpar⟩

/-- The "remove old price level, insert at the resolved key" tail (lines
226–234) preserves weak sortedness and lockstep lengths. -/
theorem moveFrag_sorted (s : Side) (R old order_id : Val) (delta2 : List Val)
    (h : SortedWeak s) :
    SortedWeak (resState ((do
      let old_index ← withS s (bisect_left s.index old)
      let ix ← withS s (pyDelAt s.index old_index)
      let s1 := { s with index := ix }
      let lv ← withS s1 (pyDelAt s1.levels old_index)
      let s2 := { s1 with levels := lv }
      let s3 := { s2 with hashmap := dictSet s2.hashmap order_id R }
      let index ← withS s3 (bisect_left s3.index R)
      pure { s3 with index := pyInsert s3.index index R,
                     levels := pyInsert s3.levels index delta2 }) : PyRes)) := by
  obtain ⟨hsort, hpar⟩ := h
  rcases bisect_cases s.index old hsort with hb | ⟨ks, y, hidx, hks, hkey, hb⟩ |
    ⟨hidx, hkey, hb⟩
  · rw [hb]
    simp only [withS_error, error_bind, resState_error]
    exact ⟨hsort, hpar⟩
  · rw [hb]
    simp only [withS_ok, ok_bind]
    by_cases hlt : ipos ks y < s.index.length
    · rw [pyDelAt_ok _ _ hlt]
      simp only [withS_ok, ok_bind]
      have hlt2 : ipos ks y < s.levels.length := by rw [← hpar]; exact hlt
      rw [pyDelAt_ok _ _ (by simpa using hlt2)]
      simp only [withS_ok, ok_bind]
      exact insertFrag_sorted _ R delta2
        ⟨pairwise_eraseIdx hsort _, by
          simp only [List.length_eraseIdx]
          rw [if_pos hlt, if_pos hlt2, hpar]⟩
    · rw [pyDelAt, if_neg hlt]
      simp only [withS_error, error_bind, resState_error]
      exact ⟨hsort, hpar⟩
  · rw [hb]
    simp only [withS_ok, ok_bind]
    rw [show pyDelAt s.index 0 = .error () by rw [hidx]; simp [pyDelAt]]
    simp only [withS_error, error_bind, resState_error]
    exact ⟨hsort, hpar⟩

/-- The "remove level and id" tail (lines 148–153 and 235–240) preserves weak
sortedness and lockstep lengths. -/
theorem deleteFrag_sorted (s : Side) (old order_id : Val) (h : SortedWeak s) :
    SortedWeak (resState ((do
      let index ← withS s (bisect_left s.index old)
      let ix ← withS s (pyDelAt s.index index)
      let s1 := { s with index := ix }
      let lv ← withS s1 (pyDelAt s1.levels index)
      let s2 := { s1 with levels := lv }
      pure { s2 with hashmap := dictDel s2.hashmap order_id }) : PyRes)) := by
  obtain ⟨hsort, hpar⟩ := h
  rcases bisect_cases s.index old hsort with hb | ⟨ks, y, hidx, hks, hkey, hb⟩ |
    ⟨hidx, hkey, hb⟩
  · rw [hb]
    simp only [withS_error, error_bind, resState_error]
    exact ⟨hsort, hpar⟩
  · rw [hb]
    simp only [withS_ok, ok_bind]
    by_cases hlt : ipos ks y < s.index.length
    · rw [pyDelAt_ok _ _ hlt]
      simp only [withS_ok, ok_bind]
      have hlt2 : ipos ks y < s.levels.length := by rw [← hpar]; exact hlt
      rw [pyDelAt_ok _ _ (by simpa using hlt2)]
      simp only [withS_ok, ok_bind, resState_pure, SortedWeak]
      refine ⟨pairwise_eraseIdx hsort _, ?_⟩
      simp only [List.length_eraseIdx]
      rw [if_pos hlt, if_pos hlt2, hpar]
    · rw [pyDelAt, if_neg hlt]
      simp only [withS_error, error_bind, resState_error]
      exact ⟨hsort, hpar⟩
  · rw [hb]
    simp only [withS_ok, ok_bind]
    rw [show pyDelAt s.index 0 = .error () by rw [hidx]; simp [pyDelAt]]
    simp only [withS_error, error_bind, resState_error]
    exact ⟨hsort, hpar⟩

/-- The incremental order-indexed strategy preserves weak sortedness and
lockstep lengths, also at the raise point of any exception. -/
theorem incIdxStore_sorted (side : Bool) (s : Side) (delta : List Val)
    (h : SortedWeak s) :
    SortedWeak (resState (incIdxStoreArray side s delta)) := by
  obtain ⟨hsort, hpar⟩ := h
  rw [incIdxStoreArray]
  cases h0 : pyGet delta 0 with
  | error e =>
    simp only [h0, withS_error, error_bind, resState_error]
    exact ⟨hsort, hpar⟩
  | ok price =>
  simp only [h0, withS_ok, ok_bind]
  cases h1 : pyGet delta 1 with
  | error e =>
    simp only [h1, withS_error, error_bind, resState_error]
    exact ⟨hsort, hpar⟩
  | ok size =>
  simp only [h1, withS_ok, ok_bind]
  cases h1b : pyGet delta 2 with
  | error e =>
    simp only [h1b, withS_error, error_bind, resState_error]
    exact ⟨hsort, hpar⟩
  | ok order_id =>
  simp only [h1b, withS_ok, ok_bind]
  cases h2 : pyGtZero size with
  | error e =>
    simp only [h2, withS_error, error_bind, resState_error]
    exact ⟨hsort, hpar⟩
  | ok szPos =>
  simp only [h2, withS_ok, ok_bind]
  cases hmap : dictLookup s.hashmap order_id with
  | some old_price =>
    simp only []
    cases szPos with
    | false =>
      simp only [Bool.false_eq_true, if_false]
      exact deleteFrag_sorted s old_price order_id ⟨hsort, hpar⟩
    | true =>
      simp only [if_true]
      rcases bisect_cases s.index
          (if pyTruthy (keyOfPrice side price) = true then keyOfPrice side price
            else old_price) hsort with hb | ⟨ks, x, hidx, hks, hkey, hb⟩ |
        ⟨hidx, hkey, hb⟩
      · rw [hb]
        simp only [withS_error, error_bind, resState_error]
        exact ⟨hsort, hpar⟩
      · rw [hkey] at hb ⊢
        rw [hb]
        simp only [withS_ok, ok_bind]
        cases h3 : pyGet s.levels (ipos ks x) with
        | error e =>
          simp only [withS_error, error_bind, resState_error]
          exact ⟨hsort, hpar⟩
        | ok level =>
        simp only [withS_ok, ok_bind]
        cases h4 : pyGet level 1 with
        | error e =>
          simp only [withS_error, error_bind, resState_error]
          exact ⟨hsort, hpar⟩
        | ok v =>
        simp only [withS_ok, ok_bind]
        cases h5 : pyAdd size v with
        | error e =>
          simp only [withS_error, error_bind, resState_error]
          exact ⟨hsort, hpar⟩
        | ok size2 =>
        simp only [withS_ok, ok_bind]
        cases h6 : pyAbs (some x) with
        | error e =>
          simp only [withS_error, error_bind, resState_error]
          exact ⟨hsort, hpar⟩
        | ok a =>
        simp only [withS_ok, ok_bind]
        cases h7 : pySet delta 0 a with
        | error e =>
          simp only [withS_error, error_bind, resState_error]
          exact ⟨hsort, hpar⟩
        | ok delta2 =>
        simp only [withS_ok, ok_bind]
        cases h8 : pySet delta2 1 size2 with
        | error e =>
          simp only [withS_error, error_bind, resState_error]
          exact ⟨hsort, hpar⟩
        | ok delta3 =>
        simp only [withS_ok, ok_bind]
        cases h9 : pyGtZero size2 with
        | error e =>
          simp only [withS_error, error_bind, resState_error]
          exact ⟨hsort, hpar⟩
        | ok szPos2 =>
        simp only [withS_ok, ok_bind]
        cases szPos2 with
        | false =>
          simp only [Bool.false_eq_true, if_false]
          exact deleteFrag_sorted s old_price order_id ⟨hsort, hpar⟩
        | true =>
          simp only [if_true]
          by_cases hbeq : (some x == old_price) = true
          · rw [if_pos hbeq]
            by_cases hlt : ipos ks x < s.index.length
            · rw [pySet_ok _ _ _ hlt]
              simp only [withS_ok, ok_bind]
              have hlt2 : ipos ks x < s.levels.length := by
                rw [← hpar]; exact hlt
              rw [pySet_ok _ _ _ (by simpa using hlt2)]
              simp only [withS_ok, ok_bind, resState_pure, SortedWeak]
              refine ⟨?_, ?_⟩
              · rw [hidx, ← List.map_set]
                exact pairwise_vle_of_map_some _
                  (pairwise_le_set ks x hks (by rw [hidx] at hlt; simpa using hlt))
              · simp [hpar]
            · rw [pySet, if_neg hlt]
              simp only [withS_error, error_bind, resState_error]
              exact ⟨hsort, hpar⟩
          · rw [if_neg hbeq]
            exact moveFrag_sorted s (some x) old_price order_id delta3
              ⟨hsort, hpar⟩
      · rw [hkey] at hb ⊢
        rw [hb]
        simp only [withS_ok, ok_bind]
        have hlev : s.levels = [] := by
          rw [← List.length_eq_zero, ← hpar, hidx]
          rfl
        rw [show pyGet s.levels 0 = .error () by rw [hlev]; rfl]
        simp only [withS_error, error_bind, resState_error]
        exact ⟨hsort, hpar⟩
  | none =>
    simp only []
    cases szPos with
    | false =>
      simp only [Bool.false_eq_true, if_false, resState_pure]
      exact ⟨hsort, hpar⟩
    | true =>
      simp only [if_true]
      exact insertFrag_sorted
        ⟨s.levels, s.index,
          dictSet s.hashmap order_id (keyOfPrice side price),
          s.depth, s.n⟩ _ delta ⟨hsort, hpar⟩

/-! ## The trimming loop of `limit` -/

theorem pyPop_ok (l : List α) (h : l ≠ []) :
    pyPop l = .ok (l.getLast h, l.dropLast) := by
  rw [pyPop, List.getLast?_eq_getLast l h]

/-- Apply a state-to-state function under both `ok` and the raise payload. -/
def mapState (f : Side → Side) : PyRes → PyRes
  | .ok s => .ok (f s)
  | .error s => .error (f s)

/-- `self._n := m` alone. -/
def setN (u : Side) (m : Option Nat) : Side := { u with n := m }

/-- `remove_index` hooks of this module: they succeed on well-shaped levels
and only rewrite the hashmap, via a pure function of the popped order. -/
def RiSpec (ri : List Val → Side → PyRes) (P : List Val → Prop)
    (F : List Val → List (Val × Val) → List (Val × Val)) : Prop :=
  ∀ o u, P o → ri o u = .ok { u with hashmap := F o u.hashmap }

theorem riSpec_base :
    RiSpec baseRemoveIndex (fun _ => True) (fun _ hm => hm) := by
  intro o u _
  rfl

theorem riSpec_idx :
    RiSpec idxRemoveIndex (fun o => 2 < o.length)
      (fun o hm => if dictMem hm (o.getD 2 Option.none)
        then dictDel hm (o.getD 2 Option.none) else hm) := by
  intro o u hP
  rw [idxRemoveIndex, pyGet_ok o 2 hP]
  simp only [withS_ok, ok_bind]
  rw [show o[2] = o.getD 2 Option.none by
    rw [List.getD_eq_getElem?_getD, List.getElem?_eq_getElem hP]; rfl]
  by_cases hm : dictMem u.hashmap (o.getD 2 Option.none) = true
  · rw [if_pos hm, if_pos hm]
    rfl
  · rw [if_neg hm, if_neg hm]
    rfl

theorem popOne_spec (ri P F) (hri : RiSpec ri P F) (s : Side)
    (hP : ∀ o ∈ s.levels, P o) (hlev : s.levels ≠ [])
    (hidx : s.index ≠ []) :
    popOne ri s = .ok { s with levels := s.levels.dropLast,
                               index := s.index.dropLast,
                               hashmap := F (s.levels.getLast hlev) s.hashmap }
    := by
  rw [popOne, pyPop_ok s.levels hlev]
  simp only [withS_ok, ok_bind]
  rw [hri (s.levels.getLast hlev) _ (hP _ (List.getLast_mem hlev))]
  simp only [ok_bind]
  rw [pyPop_ok s.index hidx]
  simp only [withS_ok, ok_bind]
  rfl

theorem popLoop_spec (ri P F) (hri : RiSpec ri P F) :
    ∀ (p : Nat) (s : Side), (∀ o ∈ s.levels, P o) → p ≤ s.levels.length →
      s.index.length = s.levels.length →
      ∃ hm2, popLoop ri s p
        = .ok { s with levels := s.levels.take (s.levels.length - p),
                       index := s.index.take (s.index.length - p),
                       hashmap := hm2 } := by
  intro p
  induction p with
  | zero =>
    intro s hP hp hpar
    refine ⟨s.hashmap, ?_⟩
    rw [popLoop]
    simp [List.take_length]
  | succ q ih =>
    intro s hP hp hpar
    have hlev : s.levels ≠ [] := by
      intro hcon
      rw [hcon] at hp
      simp at hp
    have hidx : s.index ≠ [] := by
      intro hcon
      rw [hcon] at hpar
      have : s.levels = [] := List.length_eq_zero.mp hpar.symm
      exact hlev this
    rw [popLoop]
    rw [popOne_spec ri P F hri s hP hlev hidx]
    simp only [ok_bind]
    obtain ⟨hm2, hrec⟩ := ih
      { s with levels := s.levels.dropLast, index := s.index.dropLast,
               hashmap := F (s.levels.getLast hlev) s.hashmap }
      (fun o ho => hP o (List.dropLast_sublist s.levels |>.mem ho))
      (by simp only [List.length_dropLast]; omega)
      (by simp only [List.length_dropLast]; omega)
    refine ⟨hm2, ?_⟩
    rw [hrec]
    simp only [List.dropLast_eq_take, List.length_take, List.length_dropLast,
      List.take_take]
    have e1 : min (s.levels.length - 1 - q) (s.levels.length - 1)
        = s.levels.length - (q + 1) := by omega
    have e2 : min (min (s.levels.length - 1) s.levels.length - q)
        (s.levels.length - 1) = s.levels.length - (q + 1) := by omega
    have e3 : min (min (s.index.length - 1) s.index.length - q)
        (s.index.length - 1) = s.index.length - (q + 1) := by omega
    congr 1 <;> try rw [e2] <;> try rw [e3]

theorem popOne_nil_levels (ri : List Val → Side → PyRes) (s : Side)
    (h : s.levels = []) : popOne ri s = .error s := by
  rw [popOne, h]
  rfl

theorem popOne_nil_index (ri P F) (hri : RiSpec ri P F) (s : Side)
    (hP : ∀ o ∈ s.levels, P o) (hlev : s.levels ≠ [])
    (hidx : s.index = []) :
    popOne ri s = .error { s with
                           levels := s.levels.dropLast,
                           hashmap := F (s.levels.getLast hlev) s.hashmap }
    := by
  rw [popOne, pyPop_ok s.levels hlev]
  simp only [withS_ok, ok_bind]
  rw [hri (s.levels.getLast hlev) _ (hP _ (List.getLast_mem hlev))]
  simp only [ok_bind]
  rw [show ({ s with levels := s.levels.dropLast,
                     hashmap := F (s.levels.getLast hlev) s.hashmap }
        : Side).index = s.index from rfl, hidx]
  rfl

theorem popOne_ok_shape (ri P F) (hri : RiSpec ri P F) (s t : Side)
    (hP : ∀ o ∈ s.levels, P o) (h : popOne ri s = .ok t) :
    t.levels = s.levels.dropLast ∧ t.index = s.index.dropLast := by
  by_cases hlev : s.levels = []
  · rw [popOne_nil_levels ri s hlev] at h
    cases h
  · by_cases hidx : s.index = []
    · rw [popOne_nil_index ri P F hri s hP hlev hidx] at h
      cases h
    · rw [popOne_spec ri P F hri s hP hlev hidx] at h
      cases h
      exact ⟨rfl, rfl⟩

theorem popLoop_add (ri : List Val → Side → PyRes) :
    ∀ (p q : Nat) (s : Side),
      ((popLoop ri s p) >>= fun t => popLoop ri t q) = popLoop ri s (p + q) := by
  intro p
  induction p with
  | zero =>
    intro q s
    rw [Nat.zero_add]
    rfl
  | succ r ih =>
    intro q s
    have harith : r + 1 + q = (r + q) + 1 := by omega
    rw [harith, popLoop, popLoop]
    cases h : popOne ri s with
    | error t => rfl
    | ok t =>
      simp only [ok_bind]
      exact ih q t

theorem popOne_setN (ri P F) (hri : RiSpec ri P F) (s : Side) (m : Option Nat)
    (hP : ∀ o ∈ s.levels, P o) :
    popOne ri (setN s m) = mapState (fun w => setN w m) (popOne ri s) := by
  by_cases hlev : s.levels = []
  · rw [popOne_nil_levels ri _ (show (setN s m).levels = [] from hlev),
      popOne_nil_levels ri s hlev]
    rfl
  · by_cases hidx : s.index = []
    · rw [popOne_nil_index ri P F hri (setN s m) hP hlev hidx,
        popOne_nil_index ri P F hri s hP hlev hidx]
      rfl
    · rw [popOne_spec ri P F hri (setN s m) hP hlev hidx,
        popOne_spec ri P F hri s hP hlev hidx]
      rfl

theorem popLoop_setN (ri P F) (hri : RiSpec ri P F) :
    ∀ (p : Nat) (s : Side) (m : Option Nat), (∀ o ∈ s.levels, P o) →
      popLoop ri (setN s m) p = mapState (fun w => setN w m) (popLoop ri s p) := by
  intro p
  induction p with
  | zero => intro s m hP; rfl
  | succ r ih =>
    intro s m hP
    rw [popLoop, popLoop, popOne_setN ri P F hri s m hP]
    cases h : popOne ri s with
    | error t => rfl
    | ok t =>
      simp only [mapState, ok_bind]
      obtain ⟨hl, _⟩ := popOne_ok_shape ri P F hri s t hP h
      refine ih t m ?_
      intro o ho
      rw [hl] at ho
      exact hP o (List.dropLast_sublist s.levels |>.mem ho)

/-- The number of trimming iterations `limit` performs: the (clamped)
difference `len(self) - self._depth` computed after `_n` was set. -/
def limitPops (s : Side) (n : Option Nat) : Nat :=
  match s.depth with
  | Option.none => 0
  | some d =>
    (match n with
     | Option.none => s.levels.length
     | some k => min s.levels.length k) - d

theorem pyLimit_eq_popLoop (ri : List Val → Side → PyRes) (s : Side)
    (n : Option Nat) :
    pyLimit ri s n = popLoop ri (setN s n) (limitPops s n) := rfl

theorem limitPops_le (s : Side) (n : Option Nat) :
    limitPops s n ≤ s.levels.length := by
  unfold limitPops
  cases s.depth with
  | none => exact Nat.zero_le _
  | some d =>
    simp only []
    cases n with
    | none => simp only []; omega
    | some k =>
      simp only []
      have := min_le_left s.levels.length k
      omega

/-- `limit(k)` followed by `limit(None)` equals `limit(None)` alone: the
soft cap by itself discards nothing beyond what the depth cap forces. -/
theorem limit_then_unlimit (ri P F) (hri : RiSpec ri P F) (s : Side) (k : Nat)
    (hP : ∀ o ∈ s.levels, P o) (hpar : s.index.length = s.levels.length) :
    ((pyLimit ri s (some k)) >>= fun t => pyLimit ri t Option.none)
      = pyLimit ri s Option.none := by
  obtain ⟨hm2, hA⟩ := popLoop_spec ri P F hri (limitPops s (some k)) s hP
    (limitPops_le s (some k)) hpar
  set W : Side :=
    { s with levels := s.levels.take (s.levels.length - limitPops s (some k)),
             index := s.index.take (s.index.length - limitPops s (some k)),
             hashmap := hm2 } with hW
  have hPW : ∀ o ∈ W.levels, P o := by
    intro o ho
    rw [hW] at ho
    exact hP o (List.take_sublist _ _ |>.mem ho)
  have hWlen : W.levels.length = s.levels.length - limitPops s (some k) := by
    rw [hW]
    simp only [List.length_take]
    omega
  have hp12 : limitPops s Option.none
      = limitPops s (some k) + limitPops W Option.none := by
    have e1 : limitPops s (some k)
        = (match s.depth with
           | Option.none => 0
           | some d => min s.levels.length k - d) := rfl
    have e2 : limitPops s Option.none
        = (match s.depth with
           | Option.none => 0
           | some d => s.levels.length - d) := rfl
    have e3 : limitPops W Option.none
        = (match s.depth with
           | Option.none => 0
           | some d => W.levels.length - d) := rfl
    rw [e1, e2, e3, hWlen, e1]
    cases s.depth with
    | none => rfl
    | some d =>
      simp only []
      have := min_le_left s.levels.length k
      omega
  rw [pyLimit_eq_popLoop ri s (some k)]
  rw [popLoop_setN ri P F hri _ s (some k) hP]
  rw [hA]
  simp only [mapState, ok_bind]
  rw [pyLimit_eq_popLoop ri (setN W (some k)) Option.none,
    pyLimit_eq_popLoop ri s Option.none]
  rw [show setN (setN W (some k)) Option.none = setN W Option.none from rfl]
  rw [show limitPops (setN W (some k)) Option.none
      = limitPops W Option.none from rfl]
  rw [popLoop_setN ri P F hri _ W Option.none hPW,
    popLoop_setN ri P F hri _ s Option.none hP]
  congr 1
  rw [hp12, ← popLoop_add ri, hA]
  simp only [ok_bind]

theorem take_min_length (l : List α) (d : Nat) :
    l.take (min l.length d) = l.take d := by
  rcases le_total d l.length with h | h
  · rw [min_eq_right h]
  · rw [min_eq_left h, List.take_length, List.take_of_length_le h]

theorem pairwise_take_drop {R : α → α → Prop} {l : List α}
    (h : l.Pairwise R) (d : Nat) :
    ∀ a ∈ l.take d, ∀ b ∈ l.drop d, R a b :=
  (List.pairwise_append.mp (by rw [List.take_append_drop]; exact h)).2.2

/-- `limit()` with a finite depth trims the stored data to the first `depth`
levels (and keys), leaving at most `depth` levels stored. -/
theorem pyLimit_none_spec (ri P F) (hri : RiSpec ri P F) (s : Side) (d : Nat)
    (hdepth : s.depth = some d)
    (hP : ∀ o ∈ s.levels, P o) (hpar : s.index.length = s.levels.length) :
    ∃ t, pyLimit ri s Option.none = .ok t ∧
      t.levels = s.levels.take d ∧ t.index = s.index.take d ∧
      t.levels.length = min s.levels.length d := by
  have hpops : limitPops s Option.none = s.levels.length - d := by
    unfold limitPops
    rw [hdepth]
  obtain ⟨hm2, hA⟩ := popLoop_spec ri P F hri (limitPops s Option.none)
    (setN s Option.none) hP
    (by rw [hpops]; exact Nat.sub_le _ _) hpar
  rw [pyLimit_eq_popLoop]
  refine ⟨_, hA, ?_, ?_, ?_⟩
  · show s.levels.take (s.levels.length - limitPops s Option.none)
      = s.levels.take d
    rw [hpops, show s.levels.length - (s.levels.length - d)
      = min s.levels.length d by omega, take_min_length]
  · show s.index.take (s.index.length - limitPops s Option.none)
      = s.index.take d
    rw [hpops, hpar]
    rw [show s.levels.length - (s.levels.length - d) = min s.index.length d
      by rw [hpar]; omega]
    exact take_min_length s.index d
  · show (s.levels.take (s.levels.length - limitPops s Option.none)).length
      = min s.levels.length d
    rw [hpops, List.length_take]
    omega

theorem pyNegIf_some (side : Bool) (p : Int) :
    pyNegIf side (some p) = .ok (some (if side then -p else p)) := by
  cases side <;> simp [pyNegIf]

theorem pyTruthy_some_iff (z : Int) : pyTruthy (some z) = true ↔ z ≠ 0 := by
  simp [pyTruthy]

theorem getD_eq_getElem (l : List α) (i : Nat) (d : α) (h : i < l.length) :
    l.getD i d = l[i] := by
  rw [List.getD_eq_getElem?_getD, List.getElem?_eq_getElem h]
  rfl

/-- Absolute strategy, nonzero size, key present: the matching level's size
field is overwritten in place; nothing else changes. -/
theorem absStore_overwrite (side : Bool) (s : Side) (ks : List Int)
    (p z : Int) (rest : List Val)
    (hks : s.index = ks.map some) (hsort : ks.Pairwise (· < ·))
    (hpar : s.index.length = s.levels.length)
    (hlv : ∀ lv ∈ s.levels, 2 ≤ lv.length)
    (hz : z ≠ 0) (hk : (if side then -p else p) ∈ ks) :
    absStoreArray side s (some p :: some z :: rest)
      = .ok { s with
              levels := s.levels.set (ipos ks (if side then -p else p))
                          ((s.levels.getD (ipos ks (if side then -p else p))
                            []).set 1 (some z)) } := by
  have hipos : ipos ks (if side then -p else p) < ks.length :=
    ((ipos_mem_iff ks _ hsort).mp hk).1
  have hlev : ipos ks (if side then -p else p) < s.levels.length := by
    rw [← hpar, hks]
    simpa using hipos
  rw [absStoreArray]
  simp only [pyGet_cons_zero, pyGet_cons_succ, withS_ok, ok_bind]
  rw [pyNegIf_some]
  simp only [withS_ok, ok_bind]
  rw [hks, bisect_left_map_some ks _ (hsort.imp le_of_lt)]
  simp only [withS_ok, ok_bind]
  rw [if_pos ((pyTruthy_some_iff z).mpr hz)]
  rw [if_pos ((hit_test_iff ks _ hsort).mpr hk)]
  rw [pyGet_ok s.levels _ hlev]
  simp only [withS_ok, ok_bind]
  rw [pySet_ok _ 1 (some z)
    (by
      have := hlv _ (List.getElem_mem hlev)
      omega)]
  simp only [withS_ok, ok_bind]
  rw [getD_eq_getElem s.levels _ [] hlev]
  rfl

/-- Absolute strategy, nonzero size, key absent: a new level is inserted at
the binary-search position. -/
theorem absStore_insert (side : Bool) (s : Side) (ks : List Int)
    (p z : Int) (rest : List Val)
    (hks : s.index = ks.map some) (hsort : ks.Pairwise (· < ·))
    (hpar : s.index.length = s.levels.length)
    (hz : z ≠ 0) (hk : (if side then -p else p) ∉ ks) :
    absStoreArray side s (some p :: some z :: rest)
      = .ok { s with
              index := s.index.insertIdx (ipos ks (if side then -p else p))
                         (some (if side then -p else p)),
              levels := s.levels.insertIdx (ipos ks (if side then -p else p))
                          (some p :: some z :: rest) } := by
  have hle : ipos ks (if side then -p else p) ≤ s.index.length := by
    rw [hks]
    simpa using ipos_le_length ks _
  rw [absStoreArray]
  simp only [pyGet_cons_zero, pyGet_cons_succ, withS_ok, ok_bind]
  rw [pyNegIf_some]
  simp only [withS_ok, ok_bind]
  rw [hks, bisect_left_map_some ks _ (hsort.imp le_of_lt)]
  simp only [withS_ok, ok_bind]
  rw [if_pos ((pyTruthy_some_iff z).mpr hz)]
  rw [if_neg (fun hc => hk ((hit_test_iff ks _ hsort).mp hc))]
  rw [pyInsert_le (ks.map some) _ _ (by simpa using ipos_le_length ks _),
    pyInsert_le s.levels _ _ (by rw [← hpar]; exact hle)]
  rw [← hks]
  rfl

/-- Absolute strategy, zero size, key present: exactly the matching level is
removed. -/
theorem absStore_delete (side : Bool) (s : Side) (ks : List Int)
    (p : Int) (rest : List Val)
    (hks : s.index = ks.map some) (hsort : ks.Pairwise (· < ·))
    (hpar : s.index.length = s.levels.length)
    (hk : (if side then -p else p) ∈ ks) :
    absStoreArray side s (some p :: some 0 :: rest)
      = .ok { s with
              index := s.index.eraseIdx (ipos ks (if side then -p else p)),
              levels := s.levels.eraseIdx (ipos ks (if side then -p else p)) }
    := by
  have hipos : ipos ks (if side then -p else p) < ks.length :=
    ((ipos_mem_iff ks _ hsort).mp hk).1
  have hlev : ipos ks (if side then -p else p) < s.levels.length := by
    rw [← hpar, hks]
    simpa using hipos
  rw [absStoreArray]
  simp only [pyGet_cons_zero, pyGet_cons_succ, withS_ok, ok_bind]
  rw [pyNegIf_some]
  simp only [withS_ok, ok_bind]
  rw [hks, bisect_left_map_some ks _ (hsort.imp le_of_lt)]
  simp only [withS_ok, ok_bind]
  rw [if_neg (by simp [pyTruthy])]
  rw [if_pos ((hit_test_iff ks _ hsort).mpr hk)]
  rw [pyDelAt_ok _ _ (by simpa using hipos)]
  simp only [withS_ok, ok_bind]
  rw [pyDelAt_ok _ _ hlev]
  simp only [withS_ok, ok_bind]
  rw [← hks]
  rfl

/-- Absolute strategy, zero size, key absent: deleting a nonexistent level
is a silent no-op. -/
theorem absStore_noop (side : Bool) (s : Side) (ks : List Int)
    (p : Int) (rest : List Val)
    (hks : s.index = ks.map some) (hsort : ks.Pairwise (· < ·))
    (hk : (if side then -p else p) ∉ ks) :
    absStoreArray side s (some p :: some 0 :: rest) = .ok s := by
  rw [absStoreArray]
  simp only [pyGet_cons_zero, pyGet_cons_succ, withS_ok, ok_bind]
  rw [pyNegIf_some]
  simp only [withS_ok, ok_bind]
  rw [hks, bisect_left_map_some ks _ (hsort.imp le_of_lt)]
  simp only [withS_ok, ok_bind]
  rw [if_neg (by simp [pyTruthy])]
  rw [if_neg (fun hc => hk ((hit_test_iff ks _ hsort).mp hc))]
  rfl

theorem count_map_some (ks : List Int) (k : Int) :
    (ks.map some).count (some k) = ks.count k := by
  induction ks with
  | nil => rfl
  | cons a t ih =>
    rw [List.map_cons, List.count_cons, List.count_cons, ih]
    by_cases h : a = k
    · simp [h]
    · simp [h]

theorem ipos_insertIdx_self (ks : List Int) (k : Int) (hk : k ∉ ks) :
    ipos (ks.insertIdx (ipos ks k) k) k = ipos ks k := by
  have hperm := insertIdx_perm_cons ks (ipos ks k) k (ipos_le_length ks k)
  rw [ipos, hperm.countP_eq]
  simp [List.countP_cons, ipos]

/-- Applying the same nonzero-size absolute delta twice is idempotent and
leaves exactly one level at that key. -/
theorem absStore_idem (side : Bool) (s : Side) (ks : List Int)
    (p z : Int) (rest : List Val)
    (hks : s.index = ks.map some) (hsort : ks.Pairwise (· < ·))
    (hpar : s.index.length = s.levels.length)
    (hlv : ∀ lv ∈ s.levels, 2 ≤ lv.length)
    (hz : z ≠ 0) :
    ∃ s1, absStoreArray side s (some p :: some z :: rest) = .ok s1 ∧
      absStoreArray side s1 (some p :: some z :: rest) = .ok s1 ∧
      s1.index.count (some (if side then -p else p)) = 1 := by
  by_cases hk : (if side then -p else p) ∈ ks
  · have hipos : ipos ks (if side then -p else p) < s.levels.length := by
      rw [← hpar, hks]
      simpa using ((ipos_mem_iff ks _ hsort).mp hk).1
    set L1 : List Val :=
      (s.levels.getD (ipos ks (if side then -p else p)) []).set 1 (some z)
      with hL1
    set s1 : Side :=
      { s with levels := s.levels.set (ipos ks (if side then -p else p)) L1 }
      with hs1
    have hgetD : s1.levels.getD (ipos ks (if side then -p else p)) [] = L1 := by
      rw [hs1]
      rw [getD_eq_getElem _ _ [] (by simpa using hipos), List.getElem_set,
        if_pos rfl]
    refine ⟨s1, absStore_overwrite side s ks p z rest hks hsort hpar hlv hz hk,
      ?_, ?_⟩
    · have hks1 : s1.index = ks.map some := hks
      have hpar1 : s1.index.length = s1.levels.length := by
        rw [hs1]
        simpa using hpar
      have hlv1 : ∀ lv ∈ s1.levels, 2 ≤ lv.length := by
        intro lv hlvm
        rw [hs1] at hlvm
        rcases List.mem_or_eq_of_mem_set hlvm with hmem | rfl
        · exact hlv lv hmem
        · rw [hL1]
          rw [getD_eq_getElem _ _ [] hipos]
          simpa using hlv _ (List.getElem_mem hipos)
      have hstep : L1.set 1 (some z) = L1 := by
        rw [hL1, List.set_set]
      have hlvlEq : s1.levels.set (ipos ks (if side then -p else p))
          ((s1.levels.getD (ipos ks (if side then -p else p)) []).set 1
            (some z))
          = s1.levels := by
        rw [hgetD, hstep]
        show (s.levels.set (ipos ks (if side then -p else p)) L1).set
          (ipos ks (if side then -p else p)) L1
          = s.levels.set (ipos ks (if side then -p else p)) L1
        exact List.set_set L1 L1 s.levels _
      rw [absStore_overwrite side s1 ks p z rest hks1 hsort hpar1 hlv1 hz hk,
        hlvlEq]
    · rw [show s1.index = s.index from rfl, hks, count_map_some]
      exact List.count_eq_one_of_mem (hsort.imp ne_of_lt) hk
  · have hle : ipos ks (if side then -p else p) ≤ s.levels.length := by
      rw [← hpar, hks]
      simpa using ipos_le_length ks _
    set ks1 : List Int :=
      ks.insertIdx (ipos ks (if side then -p else p)) (if side then -p else p)
      with hks1def
    set s1 : Side :=
      { s with index := s.index.insertIdx (ipos ks (if side then -p else p))
                          (some (if side then -p else p)),
               levels := s.levels.insertIdx (ipos ks (if side then -p else p))
                           (some p :: some z :: rest) }
      with hs1
    have hidx1 : s1.index = ks1.map some := by
      rw [hs1, hks1def, hks, map_insertIdx_le some ks _ _ (ipos_le_length ks _)]
    have hsort1 : ks1.Pairwise (· < ·) := pairwise_lt_insertIdx ks _ hsort hk
    have hpar1 : s1.index.length = s1.levels.length := by
      rw [hs1]
      show (s.index.insertIdx _ _).length = (s.levels.insertIdx _ _).length
      rw [List.length_insertIdx _ _
        (by rw [hks]; simpa using ipos_le_length ks _),
        List.length_insertIdx _ _ hle, hpar]
    have hlv1 : ∀ lv ∈ s1.levels, 2 ≤ lv.length := by
      intro lv hlvm
      rw [hs1] at hlvm
      rcases mem_of_mem_insertIdx hlvm with rfl | hmem
      · simp
      · exact hlv lv hmem
    have hkmem : (if side then -p else p) ∈ ks1 := by
      rw [hks1def, List.mem_insertIdx (ipos_le_length ks _)]
      exact Or.inl rfl
    have hposeq : ipos ks1 (if side then -p else p)
        = ipos ks (if side then -p else p) := by
      rw [hks1def]
      exact ipos_insertIdx_self ks _ hk
    have hgetD : s1.levels.getD (ipos ks (if side then -p else p)) []
        = some p :: some z :: rest := by
      rw [hs1]
      show (s.levels.insertIdx _ _).getD _ [] = _
      rw [getD_eq_getElem _ _ []
        (by rw [List.length_insertIdx _ _ hle]; omega)]
      exact List.getElem_insertIdx_self s.levels _ _ hle
    have hlen1 : ipos ks (if side then -p else p) < s1.levels.length := by
      rw [hs1]
      show _ < (s.levels.insertIdx _ _).length
      rw [List.length_insertIdx _ _ hle]
      omega
    refine ⟨s1, absStore_insert side s ks p z rest hks hsort hpar hz hk,
      ?_, ?_⟩
    · have hlvlEq : s1.levels.set (ipos ks1 (if side then -p else p))
          ((s1.levels.getD (ipos ks1 (if side then -p else p)) []).set 1
            (some z))
          = s1.levels := by
        rw [hposeq, hgetD]
        rw [show (some p :: some z :: rest).set 1 (some z)
          = some p :: some z :: rest from rfl]
        rw [← hgetD]
        exact set_getD_eq_self _ _ _ hlen1
      rw [absStore_overwrite side s1 ks1 p z rest hidx1 hsort1 hpar1 hlv1 hz
        hkmem, hlvlEq]
    · rw [hidx1, count_map_some, hks1def]
      have hperm := insertIdx_perm_cons ks (ipos ks (if side then -p else p))
        (if side then -p else p) (ipos_le_length ks _)
      rw [List.Perm.count_eq hperm, List.count_cons,
        List.count_eq_zero_of_not_mem hk]
      simp

theorem pyGet_error (l : List α) (i : Nat) (h : l.length ≤ i) :
    pyGet l i = .error () := by
  rw [pyGet, List.getElem?_eq_none h]

theorem hit_test_bool (ks : List Int) (x : Int) (hs : ks.Pairwise (· < ·)) :
    (decide (ipos ks x < (ks.map some).length) &&
      ((ks.map some).getD (ipos ks x) Option.none == some x)) = true ↔
      x ∈ ks := by
  rw [Bool.and_eq_true, decide_eq_true_eq]
  exact hit_test_iff ks x hs

/-- Incremental strategy, key present with numeric stored size `w`: the
effective size is `z + w`; a positive effective size overwrites the level's
size in place, otherwise the level is removed. -/
theorem incStore_hit (side : Bool) (s : Side) (ks : List Int)
    (p z w : Int) (rest : List Val)
    (hks : s.index = ks.map some) (hsort : ks.Pairwise (· < ·))
    (hpar : s.index.length = s.levels.length)
    (hk : (if side then -p else p) ∈ ks)
    (hw : (s.levels.getD (ipos ks (if side then -p else p)) [])[1]?
      = some (some w)) :
    incStoreArray side s (some p :: some z :: rest)
      = if 0 < z + w then
          .ok { s with
                levels := s.levels.set (ipos ks (if side then -p else p))
                  ((s.levels.getD (ipos ks (if side then -p else p)) []).set 1
                    (some (z + w))) }
        else
          .ok { s with
                index := s.index.eraseIdx (ipos ks (if side then -p else p)),
                levels := s.levels.eraseIdx (ipos ks (if side then -p else p))
              } := by
  have hipos : ipos ks (if side then -p else p) < ks.length :=
    ((ipos_mem_iff ks _ hsort).mp hk).1
  have hlev : ipos ks (if side then -p else p) < s.levels.length := by
    rw [← hpar, hks]
    simpa using hipos
  have hw' : (s.levels[ipos ks (if side then -p else p)])[1]?
      = some (some w) := by
    rw [← getD_eq_getElem s.levels _ [] hlev]
    exact hw
  have hget1 : pyGet (s.levels[ipos ks (if side then -p else p)]) 1
      = .ok (some w) := by
    rw [pyGet, hw']
  rw [incStoreArray]
  simp only [pyGet_cons_zero, pyGet_cons_succ, withS_ok, ok_bind]
  rw [pyNegIf_some]
  simp only [withS_ok, ok_bind]
  rw [hks, bisect_left_map_some ks _ (hsort.imp le_of_lt)]
  simp only [withS_ok, ok_bind]
  rw [if_pos ((hit_test_bool ks _ hsort).mpr hk)]
  rw [pyGet_ok s.levels _ hlev]
  simp only [withS_ok, ok_bind]
  rw [hget1]
  simp only [withS_ok, ok_bind]
  rw [show pyAdd (some z) (some w) = .ok (some (z + w)) from rfl]
  simp only [withS_ok, ok_bind]
  rw [show pyGtZero (some (z + w)) = .ok (decide (0 < z + w)) from rfl]
  simp only [withS_ok, ok_bind]
  by_cases hzw : 0 < z + w
  · rw [if_pos hzw, if_pos (decide_eq_true hzw)]
    rw [if_pos ((hit_test_bool ks _ hsort).mpr hk)]
    have hlen2 : 1 < (s.levels[ipos ks (if side then -p else p)]).length := by
      rcases List.getElem?_eq_some_iff.mp hw' with ⟨hb, _⟩
      exact hb
    rw [pySet_ok _ 1 (some (z + w)) hlen2]
    simp only [withS_ok, ok_bind]
    rw [getD_eq_getElem s.levels _ [] hlev]
    rfl
  · rw [if_neg hzw, if_neg (fun hc => hzw (of_decide_eq_true hc))]
    rw [if_pos ((hit_test_iff ks _ hsort).mpr hk)]
    rw [pyDelAt_ok _ _ (by simpa using hipos)]
    simp only [withS_ok, ok_bind]
    rw [pyDelAt_ok _ _ hlev]
    simp only [withS_ok, ok_bind]
    rfl

/-- Incremental strategy, key absent: the effective size is the delta size
itself; positive inserts a new level, otherwise nothing changes. -/
theorem incStore_miss (side : Bool) (s : Side) (ks : List Int)
    (p z : Int) (rest : List Val)
    (hks : s.index = ks.map some) (hsort : ks.Pairwise (· < ·))
    (hpar : s.index.length = s.levels.length)
    (hk : (if side then -p else p) ∉ ks) :
    incStoreArray side s (some p :: some z :: rest)
      = if 0 < z then
          .ok { s with
                index := s.index.insertIdx (ipos ks (if side then -p else p))
                  (some (if side then -p else p)),
                levels := s.levels.insertIdx
                  (ipos ks (if side then -p else p))
                  (some p :: some z :: rest) }
        else .ok s := by
  have hle : ipos ks (if side then -p else p) ≤ s.index.length := by
    rw [hks]
    simpa using ipos_le_length ks _
  rw [incStoreArray]
  simp only [pyGet_cons_zero, pyGet_cons_succ, withS_ok, ok_bind]
  rw [pyNegIf_some]
  simp only [withS_ok, ok_bind]
  rw [hks, bisect_left_map_some ks _ (hsort.imp le_of_lt)]
  simp only [withS_ok, ok_bind]
  rw [if_neg (fun hc => hk ((hit_test_bool ks _ hsort).mp hc))]
  simp only [pure_bind_py]
  rw [show pyGtZero (some z) = .ok (decide (0 < z)) from rfl]
  simp only [withS_ok, ok_bind]
  by_cases hz : 0 < z
  · rw [if_pos hz, if_pos (decide_eq_true hz)]
    rw [if_neg (fun hc => hk ((hit_test_bool ks _ hsort).mp hc))]
    rw [pyInsert_le (ks.map some) _ _ (by simpa using ipos_le_length ks _),
      pyInsert_le s.levels _ _ (by rw [← hpar]; exact hle)]
    rfl
  · rw [if_neg hz, if_neg (fun hc => hz (of_decide_eq_true hc))]
    rw [if_neg (fun hc => hk ((hit_test_iff ks _ hsort).mp hc))]
    rfl

/-- Absolute strategy: a delta with fewer than 2 fields raises before any
mutation; the state at the raise point is the original state. -/
theorem absStore_short (side : Bool) (s : Side) (delta : List Val)
    (h : delta.length < 2) :
    absStoreArray side s delta = .error s := by
  rcases delta with _ | ⟨a, _ | ⟨b, t⟩⟩
  · rw [absStoreArray, pyGet_error [] 0 (by simp)]
    simp only [withS_error, error_bind]
  · rw [absStoreArray]
    simp only [pyGet_cons_zero, withS_ok, ok_bind]
    rw [pyGet_error [a] 1 (by simp)]
    simp only [withS_error, error_bind]
  · simp at h
    omega

/-- Counted strategy: a delta with fewer than 3 fields raises before any
mutation. -/
theorem countedStore_short (side : Bool) (s : Side) (delta : List Val)
    (h : delta.length < 3) :
    countedStoreArray side s delta = .error s := by
  rcases delta with _ | ⟨a, _ | ⟨b, _ | ⟨c, t⟩⟩⟩
  · rw [countedStoreArray, pyGet_error [] 0 (by simp)]
    simp only [withS_error, error_bind]
  · rw [countedStoreArray]
    simp only [pyGet_cons_zero, withS_ok, ok_bind]
    rw [pyGet_error [a] 1 (by simp)]
    simp only [withS_error, error_bind]
  · rw [countedStoreArray]
    simp only [pyGet_cons_zero, pyGet_cons_succ, withS_ok, ok_bind]
    rw [pyGet_error [] 0 (by simp)]
    simp only [withS_error, error_bind]
  · simp at h
    omega

/-- Order-indexed strategy: a delta with fewer than 3 fields raises before
any mutation. -/
theorem idxStore_short (side : Bool) (s : Side) (delta : List Val)
    (h : delta.length < 3) :
    idxStoreArray side s delta = .error s := by
  rcases delta with _ | ⟨a, _ | ⟨b, _ | ⟨c, t⟩⟩⟩
  · rw [idxStoreArray, pyGet_error [] 0 (by simp)]
    simp only [withS_error, error_bind]
  · rw [idxStoreArray]
    simp only [pyGet_cons_zero, withS_ok, ok_bind]
    rw [pyGet_error [a] 1 (by simp)]
    simp only [withS_error, error_bind]
  · rw [idxStoreArray]
    simp only [pyGet_cons_zero, pyGet_cons_succ, withS_ok, ok_bind]
    rw [pyGet_error [] 0 (by simp)]
    simp only [withS_error, error_bind]
  · simp at h
    omega

/-- Incremental strategy: a delta with fewer than 2 fields raises before any
mutation. -/
theorem incStore_short (side : Bool) (s : Side) (delta : List Val)
    (h : delta.length < 2) :
    incStoreArray side s delta = .error s := by
  rcases delta with _ | ⟨a, _ | ⟨b, t⟩⟩
  · rw [incStoreArray, pyGet_error [] 0 (by simp)]
    simp only [withS_error, error_bind]
  · rw [incStoreArray]
    simp only [pyGet_cons_zero, withS_ok, ok_bind]
    rw [pyGet_error [a] 1 (by simp)]
    simp only [withS_error, error_bind]
  · simp at h
    omega

/-- Incremental order-indexed strategy: a delta with fewer than 3 fields
raises before any mutation. -/
theorem incIdxStore_short (side : Bool) (s : Side) (delta : List Val)
    (h : delta.length < 3) :
    incIdxStoreArray side s delta = .error s := by
  rcases delta with _ | ⟨a, _ | ⟨b, _ | ⟨c, t⟩⟩⟩
  · rw [incIdxStoreArray, pyGet_error [] 0 (by simp)]
    simp only [withS_error, error_bind]
  · rw [incIdxStoreArray]
    simp only [pyGet_cons_zero, withS_ok, ok_bind]
    rw [pyGet_error [a] 1 (by simp)]
    simp only [withS_error, error_bind]
  · rw [incIdxStoreArray]
    simp only [pyGet_cons_zero, pyGet_cons_succ, withS_ok, ok_bind]
    rw [pyGet_error [] 0 (by simp)]
    simp only [withS_error, error_bind]
  · simp at h
    omega

theorem keyOfPrice_zero_falsy :
    ∀ side : Bool, pyTruthy (keyOfPrice side (some 0)) = false := by decide

theorem keyOfPrice_none (side : Bool) :
    keyOfPrice side Option.none = Option.none := rfl

theorem pyTruthy_none : pyTruthy Option.none = false := rfl

theorem pySet_cons_zero (x : α) (tl : List α) (v : α) :
    pySet (x :: tl) 0 v = .ok (v :: tl) := by
  simp [pySet]

/-- Order-indexed strategy: when the order id is known, a delta whose price
is exactly `0` behaves identically to a delta whose price is `None` — the
falsy sort key falls back to the order's old key either way. -/
theorem idxStore_price_zero (side : Bool) (s : Side) (sz oid : Val)
    (rest : List Val) (hmem : dictMem s.hashmap oid = true) :
    idxStoreArray side s (some 0 :: sz :: oid :: rest)
      = idxStoreArray side s (Option.none :: sz :: oid :: rest) := by
  obtain ⟨old, hold⟩ := Option.isSome_iff_exists.mp hmem
  rw [idxStoreArray, idxStoreArray]
  simp only [pyGet_cons_zero, pyGet_cons_succ, withS_ok, ok_bind]
  rw [hold]
  simp only []
  by_cases hsz : pyTruthy sz = true
  · rw [if_pos hsz, if_pos hsz]
    simp only [keyOfPrice_zero_falsy, keyOfPrice_none, pyTruthy_none,
      Bool.false_eq_true, if_false]
    simp only [pySet_cons_zero]
  · rw [if_neg hsz, if_neg hsz]

/-- Incremental order-indexed strategy: when the order id is known, a delta
whose price is exactly `0` behaves identically to a delta whose price is
`None`. -/
theorem incIdxStore_price_zero (side : Bool) (s : Side) (sz oid : Val)
    (rest : List Val) (hmem : dictMem s.hashmap oid = true) :
    incIdxStoreArray side s (some 0 :: sz :: oid :: rest)
      = incIdxStoreArray side s (Option.none :: sz :: oid :: rest) := by
  obtain ⟨old, hold⟩ := Option.isSome_iff_exists.mp hmem
  rw [incIdxStoreArray, incIdxStoreArray]
  simp only [pyGet_cons_zero, pyGet_cons_succ, withS_ok, ok_bind]
  cases hgz : pyGtZero sz with
  | error e => simp only [hgz, withS_error, error_bind]
  | ok szPos =>
  simp only [hgz, withS_ok, ok_bind]
  rw [hold]
  simp only []
  cases szPos with
  | false => rfl
  | true =>
    simp only [if_true]
    simp only [keyOfPrice_zero_falsy, keyOfPrice_none, pyTruthy_none,
      Bool.false_eq_true, if_false]
    simp only [pySet_cons_zero]

/-! ## Order-id map machinery (indexed variants)

`self._hashmap` maps order ids to sort keys; the intended correspondence is
that, up to dict ordering, it holds exactly the pairs (level id, level key)
of the store. -/

/-- The order id carried by a stored level (`order[2]`). -/
def levelId (lv : List Val) : Val := lv.getD 2 Option.none

/-- The id-map invariant of the order-indexed variants: a numeric, strictly
ascending key index in lockstep with the levels, pairwise-distinct order ids
on the levels, and a hashmap holding (up to dict ordering) exactly the pairs
(level id, level key). -/
structure IdxInv (s : Side) : Prop where
  keys : ∃ ks : List Int, s.index = ks.map some ∧ ks.Pairwise (· < ·)
  par : s.index.length = s.levels.length
  idsNodup : (s.levels.map levelId).Nodup
  mapPerm : s.hashmap.Perm ((s.levels.map levelId).zip s.index)

/-- The key a nonzero-size delta resolves to (lines 125–127 and 207–209): the
sort key computed from the stated price when that key is truthy, else the
order's old mapped key; for an unknown order id, the computed key itself. -/
def resolvedKey (side : Bool) (s : Side) (price oid : Val) : Val :=
  match dictLookup s.hashmap oid with
  | some old =>
    if pyTruthy (keyOfPrice side price) then keyOfPrice side price else old
  | Option.none => keyOfPrice side price

/-- Precondition under which the order-indexed strategies keep the id map
consistent: a nonzero-size delta must either resolve to its own order's
current key, or resolve to a numeric key not yet present in the index. -/
def GoodIdx (side : Bool) (s : Side) (delta : List Val) : Prop :=
  ∀ price size oid, delta[0]? = some price → delta[1]? = some size →
    delta[2]? = some oid → pyTruthy size = true →
    (∃ old, dictLookup s.hashmap oid = some old ∧
      resolvedKey side s price oid = old) ∨
    (∃ r : Int, resolvedKey side s price oid = some r ∧ some r ∉ s.index)

theorem mem_of_getElem_some {l : List α} {i : Nat} {a : α}
    (h : l[i]? = some a) : a ∈ l := by
  rcases List.getElem?_eq_some_iff.mp h with ⟨hi, he⟩
  exact he ▸ List.getElem_mem hi

theorem zip_mem_iff (xs : List α) (ys : List β) (p1 : α) (p2 : β) :
    (p1, p2) ∈ xs.zip ys ↔ ∃ i : Nat, xs[i]? = some p1 ∧ ys[i]? = some p2 := by
  induction xs generalizing ys with
  | nil => simp
  | cons x xt ih =>
    cases ys with
    | nil => simp
    | cons y yt =>
      rw [List.zip_cons_cons, List.mem_cons, ih yt]
      constructor
      · rintro (hp | ⟨i, h1, h2⟩)
        · rw [Prod.mk.injEq] at hp
          exact ⟨0, by rw [hp.1]; simp, by rw [hp.2]; simp⟩
        · exact ⟨i + 1, by simpa using h1, by simpa using h2⟩
      · rintro ⟨i, h1, h2⟩
        cases i with
        | zero =>
          simp only [List.getElem?_cons_zero, Option.some.injEq] at h1 h2
          exact Or.inl (by rw [Prod.mk.injEq]; exact ⟨h1.symm, h2.symm⟩)
        | succ j =>
          exact Or.inr ⟨j, by simpa using h1, by simpa using h2⟩

theorem keys_nodup_of_perm (hm : List (Val × Val)) (ids index : List Val)
    (hnd : ids.Nodup) (hlen : ids.length ≤ index.length)
    (hperm : hm.Perm (ids.zip index)) : (hm.map Prod.fst).Nodup := by
  refine ((hperm.map Prod.fst).nodup_iff).mpr ?_
  rw [List.map_fst_zip ids index hlen]
  exact hnd

theorem idmap_mem_iff (hm : List (Val × Val)) (ids index : List Val)
    (hnd : ids.Nodup) (hlen : ids.length = index.length)
    (hperm : hm.Perm (ids.zip index)) (i : Val) :
    dictMem hm i = true ↔ i ∈ ids := by
  have hknd := keys_nodup_of_perm hm ids index hnd (le_of_eq hlen) hperm
  rw [dictMem, Option.isSome_iff_exists]
  constructor
  · rintro ⟨v, hv⟩
    have hmem := (dictLookup_eq_some_iff_mem hm hknd i v).mp hv
    obtain ⟨j, h1, h2⟩ := (zip_mem_iff ids index i v).mp (hperm.mem_iff.mp hmem)
    exact mem_of_getElem_some h1
  · intro hmem
    obtain ⟨j, hj, hje⟩ := List.getElem_of_mem hmem
    have hj2 : j < index.length := by omega
    refine ⟨index[j], (dictLookup_eq_some_iff_mem hm hknd i _).mpr
      (hperm.mem_iff.mpr ?_)⟩
    rw [zip_mem_iff]
    exact ⟨j, by rw [List.getElem?_eq_getElem hj, hje],
      List.getElem?_eq_getElem hj2⟩

theorem idmap_lookup_getElem (hm : List (Val × Val)) (ids index : List Val)
    (hnd : ids.Nodup) (hlen : ids.length = index.length)
    (hperm : hm.Perm (ids.zip index)) (j : Nat) (hj : j < ids.length)
    (hj2 : j < index.length) :
    dictLookup hm (ids[j]) = some (index[j]) := by
  have hknd := keys_nodup_of_perm hm ids index hnd (le_of_eq hlen) hperm
  refine (dictLookup_eq_some_iff_mem hm hknd _ _).mpr (hperm.mem_iff.mpr ?_)
  rw [zip_mem_iff]
  exact ⟨j, List.getElem?_eq_getElem hj, List.getElem?_eq_getElem hj2⟩

theorem idmap_lookup_inv (hm : List (Val × Val)) (ids index : List Val)
    (hnd : ids.Nodup) (hlen : ids.length = index.length)
    (hperm : hm.Perm (ids.zip index)) (oid v : Val)
    (h : dictLookup hm oid = some v) :
    ∃ j, j < ids.length ∧ ids[j]? = some oid ∧ index[j]? = some v := by
  have hknd := keys_nodup_of_perm hm ids index hnd (le_of_eq hlen) hperm
  have hmem := (dictLookup_eq_some_iff_mem hm hknd oid v).mp h
  obtain ⟨j, h1, h2⟩ := (zip_mem_iff ids index oid v).mp (hperm.mem_iff.mp hmem)
  exact ⟨j, (List.getElem?_eq_some_iff.mp h1).1, h1, h2⟩

theorem dictDel_of_not_mem_keys (d : List (Val × Val)) (k : Val)
    (h : ∀ p ∈ d, p.1 ≠ k) : dictDel d k = d := by
  rw [dictDel, List.filter_eq_self]
  intro p hp
  simpa using h p hp

theorem idmap_del_perm (hm : List (Val × Val)) (ids index : List Val)
    (hnd : ids.Nodup) (hlen : ids.length = index.length)
    (hperm : hm.Perm (ids.zip index)) (j : Nat) (hj : j < ids.length)
    (hj2 : j < index.length) :
    (dictDel hm (ids[j])).Perm ((ids.eraseIdx j).zip (index.eraseIdx j)) := by
  have hjz : j < (ids.zip index).length := by
    rw [List.length_zip]
    exact lt_min hj hj2
  have hz : (ids.zip index)[j] = (ids[j], index[j]) := List.getElem_zip
  have hp1 : (ids.zip index).Perm
      ((ids[j], index[j]) :: (ids.zip index).eraseIdx j) := by
    rw [← hz]
    exact perm_getElem_cons_eraseIdx _ j hjz
  have hperm_ids : ids.Perm (ids[j] :: ids.eraseIdx j) :=
    perm_getElem_cons_eraseIdx ids j hj
  have hnotmem : ids[j] ∉ ids.eraseIdx j :=
    (List.nodup_cons.mp ((hperm_ids.nodup_iff).mp hnd)).1
  have hnk : ∀ p ∈ (ids.zip index).eraseIdx j, p.1 ≠ ids[j] := by
    intro p hp hpk
    apply hnotmem
    have hmm : p.1 ∈ ((ids.zip index).eraseIdx j).map Prod.fst :=
      List.mem_map_of_mem _ hp
    rw [map_eraseIdx, List.map_fst_zip ids index (le_of_eq hlen)] at hmm
    rw [hpk] at hmm
    exact hmm
  have h1 : (dictDel hm (ids[j])).Perm (dictDel (ids.zip index) (ids[j])) :=
    hperm.filter _
  have h2 : (dictDel (ids.zip index) (ids[j])).Perm
      (dictDel ((ids[j], index[j]) :: (ids.zip index).eraseIdx j) (ids[j])) :=
    hp1.filter _
  have h3 : dictDel ((ids[j], index[j]) :: (ids.zip index).eraseIdx j)
      (ids[j]) = dictDel ((ids.zip index).eraseIdx j) (ids[j]) := by
    rw [dictDel, dictDel, List.filter_cons]
    simp
  have h4 : dictDel ((ids.zip index).eraseIdx j) (ids[j])
      = (ids.zip index).eraseIdx j := dictDel_of_not_mem_keys _ _ hnk
  rw [zip_eraseIdx ids index j hlen]
  have h5 := h1.trans h2
  rwa [h3, h4] at h5

theorem levelId_of_getElem (lv : List Val) (oid : Val) (h : lv[2]? = some oid) :
    levelId lv = oid := by
  rw [levelId, List.getD_eq_getElem?_getD, h]
  rfl

theorem levelId_set_ne (lv : List Val) (j : Nat) (a : Val) (h : j ≠ 2) :
    levelId (lv.set j a) = levelId lv := by
  rw [levelId, levelId, List.getD_eq_getElem?_getD, List.getD_eq_getElem?_getD,
    List.getElem?_set_ne h]

theorem pyGet_eq_ok_iff (l : List α) (i : Nat) (v : α) :
    pyGet l i = .ok v ↔ l[i]? = some v := by
  cases h : l[i]? with
  | none => rw [pyGet, h]; simp
  | some w => rw [pyGet, h]; simp

theorem pySet_ok_inv (l : List α) (i : Nat) (v : α) (l2 : List α)
    (h : pySet l i v = .ok l2) : i < l.length ∧ l2 = l.set i v := by
  rw [pySet] at h
  by_cases hi : i < l.length
  · rw [if_pos hi] at h
    exact ⟨hi, (Except.ok.inj h).symm⟩
  · rw [if_neg hi] at h
    exact absurd h (by simp)

theorem pure_eq_ok (a : α) : (pure a : Except ε α) = .ok a := rfl

theorem set_getElem_some_self (l : List α) (j : Nat) (a : α)
    (h : l[j]? = some a) : l.set j a = l := by
  rcases List.getElem?_eq_some_iff.mp h with ⟨hj, he⟩
  have h2 := set_getD_eq_self l j a hj
  rwa [getD_eq_getElem l j a hj, he] at h2

theorem dictSet_perm_dictDel (d : List (Val × Val)) (k v w : Val)
    (hnd : (d.map Prod.fst).Nodup) (hmem : dictLookup d k = some w) :
    (dictSet d k v).Perm ((k, v) :: dictDel d k) := by
  have h := dictSet_perm_of_mem d k v w hnd hmem
  rwa [← dictDel_eq_erase d k w hnd hmem] at h

/-- The shared "insert new price level" tail (lines 143–147) restores the
id-map invariant when the hashmap already accounts for the inserted pair. -/
theorem insertFrag_idmap (u : Side) (r : Int) (delta2 : List Val) (oid : Val)
    (t : Side)
    (hks : ∃ ks : List Int, u.index = ks.map some ∧ ks.Pairwise (· < ·))
    (hpar : u.index.length = u.levels.length)
    (hnd : (u.levels.map levelId).Nodup)
    (hfresh : some r ∉ u.index)
    (hoid : levelId delta2 = oid)
    (hoidfresh : oid ∉ u.levels.map levelId)
    (hperm : u.hashmap.Perm
      ((oid, some r) :: ((u.levels.map levelId).zip u.index)))
    (hok : ((do
      let index ← withS u (bisect_left u.index (some r))
      pure { u with index := pyInsert u.index index (some r),
                    levels := pyInsert u.levels index delta2 }) : PyRes)
      = .ok t) :
    IdxInv t := by
  obtain ⟨ks, hksu, hsort⟩ := hks
  have hrks : r ∉ ks := fun hc =>
    hfresh (by rw [hksu]; exact List.mem_map_of_mem some hc)
  have hlenL : ipos ks r ≤ u.levels.length := by
    rw [← hpar, hksu]
    simpa using ipos_le_length ks r
  rw [hksu, bisect_left_map_some ks r (hsort.imp le_of_lt)] at hok
  simp only [withS_ok, ok_bind] at hok
  rw [pyInsert_le (ks.map some) _ _ (by simpa using ipos_le_length ks r),
    pyInsert_le u.levels _ _ hlenL] at hok
  rw [pure_eq_ok] at hok
  obtain rfl := Except.ok.inj hok
  have hlenIds : (u.levels.map levelId).length = (ks.map some).length := by
    rw [List.length_map, List.length_map, ← hpar, hksu, List.length_map]
  have hidsLe : ipos ks r ≤ (u.levels.map levelId).length := by
    rw [List.length_map]
    exact hlenL
  refine ⟨⟨ks.insertIdx (ipos ks r) r,
    (map_insertIdx_le some ks _ r (ipos_le_length ks r)).symm,
    pairwise_lt_insertIdx ks r hsort hrks⟩, ?_, ?_, ?_⟩
  · show ((ks.map some).insertIdx _ _).length
      = ((u.levels.insertIdx _ _).length)
    rw [List.length_insertIdx _ _ (by simpa using ipos_le_length ks r),
      List.length_insertIdx _ _ hlenL, ← hksu, hpar]
  · show ((u.levels.insertIdx _ delta2).map levelId).Nodup
    rw [map_insertIdx_le levelId u.levels _ delta2 hlenL, hoid]
    exact ((insertIdx_perm_cons _ _ _ hidsLe).nodup_iff).mpr
      (List.nodup_cons.mpr ⟨hoidfresh, hnd⟩)
  · show u.hashmap.Perm (((u.levels.insertIdx _ delta2).map levelId).zip
      ((ks.map some).insertIdx _ (some r)))
    rw [map_insertIdx_le levelId u.levels _ delta2 hlenL, hoid]
    rw [zip_insertIdx _ _ _ oid (some r) hlenIds hidsLe]
    refine hperm.trans ?_
    rw [hksu]
    refine (insertIdx_perm_cons _ (ipos ks r) (oid, some r) ?_).symm
    rw [List.length_zip, hlenIds]
    simpa using ipos_le_length ks r

/-- The in-place overwrite at an occupied position (lines 129–133 and
219–223) preserves the id-map invariant when the new level keeps the same
order id. -/
theorem overwriteFrag_idmap (s : Side) (j : Nat) (ks : List Int)
    (delta2 : List Val) (oid : Val) (t : Side)
    (hks : s.index = ks.map some) (hsort : ks.Pairwise (· < ·))
    (hpar : s.index.length = s.levels.length)
    (hnd : (s.levels.map levelId).Nodup)
    (hperm : s.hashmap.Perm ((s.levels.map levelId).zip s.index))
    (hjk : j < ks.length)
    (hodj : (s.levels.map levelId)[j]? = some oid)
    (hlid : levelId delta2 = oid)
    (hok : ((do
      let ix ← withS s (pySet s.index j (some (ks[j])))
      let s1 := { s with index := ix }
      let lv ← withS s1 (pySet s1.levels j delta2)
      pure { s1 with levels := lv }) : PyRes) = .ok t) :
    IdxInv t := by
  have hjL : j < s.levels.length := by
    rw [← hpar, hks]
    simpa using hjk
  have hsetidx : (ks.map some).set j (some (ks[j])) = ks.map some :=
    set_getElem_some_self _ j _
      (by rw [List.getElem?_map, List.getElem?_eq_getElem hjk]; rfl)
  rw [hks, pySet_ok _ _ _ (by simpa using hjk), hsetidx] at hok
  simp only [withS_ok, ok_bind] at hok
  rw [pySet_ok s.levels j delta2 hjL] at hok
  simp only [withS_ok, ok_bind] at hok
  rw [pure_eq_ok] at hok
  obtain rfl := Except.ok.inj hok
  have hidset : (s.levels.map levelId).set j oid = s.levels.map levelId :=
    set_getElem_some_self _ j oid hodj
  refine ⟨⟨ks, rfl, hsort⟩, ?_, ?_, ?_⟩
  · show (ks.map some).length = (s.levels.set j delta2).length
    rw [List.length_set, ← hks, hpar]
  · show ((s.levels.set j delta2).map levelId).Nodup
    rw [List.map_set, hlid, hidset]
    exact hnd
  · show s.hashmap.Perm (((s.levels.set j delta2).map levelId).zip
      (ks.map some))
    rw [List.map_set, hlid, hidset, ← hks]
    exact hperm

/-- The "remove level and id" tail (lines 148–153 and 235–240) preserves the
id-map invariant when the removed level carries the removed id. -/
theorem deleteFrag_idmap (s : Side) (j : Nat) (ks : List Int) (oid : Val)
    (t : Side)
    (hks : s.index = ks.map some) (hsort : ks.Pairwise (· < ·))
    (hpar : s.index.length = s.levels.length)
    (hnd : (s.levels.map levelId).Nodup)
    (hperm : s.hashmap.Perm ((s.levels.map levelId).zip s.index))
    (hjk : j < ks.length)
    (hodj : (s.levels.map levelId)[j]? = some oid)
    (hok : ((do
      let index ← withS s (bisect_left s.index (some (ks[j])))
      let ix ← withS s (pyDelAt s.index index)
      let s1 := { s with index := ix }
      let lv ← withS s1 (pyDelAt s1.levels index)
      let s2 := { s1 with levels := lv }
      pure { s2 with hashmap := dictDel s2.hashmap oid }) : PyRes)
      = .ok t) :
    IdxInv t := by
  have hjL : j < s.levels.length := by
    rw [← hpar, hks]
    simpa using hjk
  have hjI : j < (s.levels.map levelId).length := by
    rw [List.length_map]
    exact hjL
  have hoide : (s.levels.map levelId)[j] = oid :=
    (List.getElem?_eq_some_iff.mp hodj).2
  rw [hks, bisect_left_map_some ks (ks[j]) (hsort.imp le_of_lt),
    ipos_getElem ks hsort j hjk] at hok
  simp only [withS_ok, ok_bind] at hok
  rw [pyDelAt_ok _ _ (by simpa using hjk)] at hok
  simp only [withS_ok, ok_bind] at hok
  rw [pyDelAt_ok s.levels _ hjL] at hok
  simp only [withS_ok, ok_bind] at hok
  rw [pure_eq_ok] at hok
  obtain rfl := Except.ok.inj hok
  refine ⟨⟨ks.eraseIdx j, (map_eraseIdx some ks j).symm,
    pairwise_eraseIdx hsort j⟩, ?_, ?_, ?_⟩
  · show ((ks.map some).eraseIdx j).length = (s.levels.eraseIdx j).length
    rw [List.length_eraseIdx, List.length_eraseIdx, ← hks, hpar]
  · show ((s.levels.eraseIdx j).map levelId).Nodup
    rw [map_eraseIdx]
    exact hnd.sublist (List.eraseIdx_sublist _ j)
  · show (dictDel s.hashmap oid).Perm
      (((s.levels.eraseIdx j).map levelId).zip ((ks.map some).eraseIdx j))
    rw [map_eraseIdx, ← hoide]
    refine idmap_del_perm s.hashmap _ (ks.map some) hnd ?_ ?_ j hjI
      (by simpa using hjk)
    · rw [List.length_map, ← hpar, hks]
    · rw [← hks]
      exact hperm

/-- The order-indexed strategy preserves the id-map invariant on every
successful call whose delta satisfies the `GoodIdx` precondition. -/
theorem idxStore_idmap (side : Bool) (s : Side) (delta : List Val) (t : Side)
    (hinv : IdxInv s) (hgood : GoodIdx side s delta)
    (hok : idxStoreArray side s delta = .ok t) : IdxInv t := by
  obtain ⟨⟨ks, hks, hsort⟩, hpar, hnd, hperm⟩ := hinv
  rw [idxStoreArray] at hok
  cases h0 : pyGet delta 0 with
  | error e =>
    rw [h0] at hok
    simp only [withS_error, error_bind] at hok
    exact Except.noConfusion hok
  | ok price =>
  rw [h0] at hok
  simp only [withS_ok, ok_bind] at hok
  cases h1 : pyGet delta 1 with
  | error e =>
    rw [h1] at hok
    simp only [withS_error, error_bind] at hok
    exact Except.noConfusion hok
  | ok size =>
  rw [h1] at hok
  simp only [withS_ok, ok_bind] at hok
  cases h2 : pyGet delta 2 with
  | error e =>
    rw [h2] at hok
    simp only [withS_error, error_bind] at hok
    exact Except.noConfusion hok
  | ok oid =>
  rw [h2] at hok
  simp only [withS_ok, ok_bind] at hok
  by_cases hsz : pyTruthy size = true
  case neg =>
    rw [if_neg hsz] at hok
    cases hmap : dictLookup s.hashmap oid with
    | none =>
      rw [hmap] at hok
      simp only [] at hok
      rw [pure_eq_ok] at hok
      obtain rfl := Except.ok.inj hok
      exact ⟨⟨ks, hks, hsort⟩, hpar, hnd, hperm⟩
    | some old =>
      rw [hmap] at hok
      simp only [] at hok
      obtain ⟨j, hjI, hodj, hvj⟩ := idmap_lookup_inv s.hashmap
        (s.levels.map levelId) s.index hnd
        (by rw [List.length_map, hpar]) hperm oid old hmap
      have hjk : j < ks.length := by
        have h := (List.getElem?_eq_some_iff.mp hvj).1
        rw [hks] at h
        simpa using h
      have holdk : old = some (ks[j]) := by
        rw [hks, List.getElem?_map, List.getElem?_eq_getElem hjk] at hvj
        simpa using hvj.symm
      rw [holdk] at hok
      exact deleteFrag_idmap s j ks oid t hks hsort hpar hnd hperm hjk hodj hok
  case pos =>
  rw [if_pos hsz] at hok
  have hg := hgood price size oid ((pyGet_eq_ok_iff delta 0 price).mp h0)
    ((pyGet_eq_ok_iff delta 1 size).mp h1)
    ((pyGet_eq_ok_iff delta 2 oid).mp h2) hsz
  cases hmap : dictLookup s.hashmap oid with
  | none =>
    rw [hmap] at hok
    simp only [] at hok
    have hRres : resolvedKey side s price oid = keyOfPrice side price := by
      unfold resolvedKey
      rw [hmap]
    rcases hg with ⟨old, hlk, -⟩ | ⟨r, hRr, hfresh⟩
    · rw [hmap] at hlk
      exact Option.noConfusion hlk
    rw [hRres] at hRr
    rw [hRr] at hok
    have hoidfresh : oid ∉ s.levels.map levelId := by
      intro hc
      have hm2 := (idmap_mem_iff s.hashmap (s.levels.map levelId) s.index hnd
        (by rw [List.length_map, hpar]) hperm oid).mpr hc
      rw [dictMem, hmap] at hm2
      simp at hm2
    refine insertFrag_idmap
      { s with hashmap := dictSet s.hashmap oid (some r) } r delta oid t
      ⟨ks, hks, hsort⟩ hpar hnd hfresh
      (levelId_of_getElem delta oid ((pyGet_eq_ok_iff delta 2 oid).mp h2))
      hoidfresh ?_ hok
    show (dictSet s.hashmap oid (some r)).Perm _
    refine (dictSet_perm_of_not_mem s.hashmap oid (some r)
      (by rw [dictMem, hmap]; rfl)).trans ?_
    exact List.Perm.cons _ hperm
  | some old =>
    rw [hmap] at hok
    simp only [] at hok
    obtain ⟨j, hjI, hodj, hvj⟩ := idmap_lookup_inv s.hashmap
      (s.levels.map levelId) s.index hnd
      (by rw [List.length_map, hpar]) hperm oid old hmap
    have hjk : j < ks.length := by
      have h := (List.getElem?_eq_some_iff.mp hvj).1
      rw [hks] at h
      simpa using h
    have hjL : j < s.levels.length := by
      rw [← hpar, hks]
      simpa using hjk
    have holdk : old = some (ks[j]) := by
      rw [hks, List.getElem?_map, List.getElem?_eq_getElem hjk] at hvj
      simpa using hvj.symm
    have hoide : (s.levels.map levelId)[j] = oid :=
      (List.getElem?_eq_some_iff.mp hodj).2
    have hRres : resolvedKey side s price oid
        = (if pyTruthy (keyOfPrice side price) = true
            then keyOfPrice side price else old) := by
      unfold resolvedKey
      rw [hmap]
    cases habs : pyAbs (if pyTruthy (keyOfPrice side price) = true
        then keyOfPrice side price else old) with
    | error e =>
      rw [habs] at hok
      simp only [withS_error, error_bind] at hok
      exact Except.noConfusion hok
    | ok a =>
    rw [habs] at hok
    simp only [withS_ok, ok_bind] at hok
    cases hset : pySet delta 0 a with
    | error e =>
      rw [hset] at hok
      simp only [withS_error, error_bind] at hok
      exact Except.noConfusion hok
    | ok delta2 =>
    rw [hset] at hok
    simp only [withS_ok, ok_bind] at hok
    have hlid : levelId delta2 = oid := by
      obtain ⟨-, rfl⟩ := pySet_ok_inv delta 0 a delta2 hset
      rw [levelId_set_ne delta 0 a (by omega)]
      exact levelId_of_getElem delta oid ((pyGet_eq_ok_iff delta 2 oid).mp h2)
    by_cases hbeq : ((if pyTruthy (keyOfPrice side price) = true
        then keyOfPrice side price else old) == old) = true
    · rw [if_pos hbeq] at hok
      have hReq : (if pyTruthy (keyOfPrice side price) = true
          then keyOfPrice side price else old) = old := beq_iff_eq.mp hbeq
      rw [hReq, holdk] at hok
      rw [show bisect_left s.index (some (ks[j])) = .ok j from by
        rw [hks, bisect_left_map_some ks (ks[j]) (hsort.imp le_of_lt),
          ipos_getElem ks hsort j hjk]] at hok
      simp only [withS_ok, ok_bind] at hok
      exact overwriteFrag_idmap s j ks delta2 oid t hks hsort hpar hnd hperm
        hjk hodj hlid hok
    · rw [if_neg hbeq] at hok
      rcases hg with ⟨old2, hlk2, hReq2⟩ | ⟨r, hRr, hfresh⟩
      · rw [hmap] at hlk2
        have hold2 : old2 = old := (Option.some.inj hlk2).symm
        rw [hRres, hold2] at hReq2
        exact absurd (beq_iff_eq.mpr hReq2) hbeq
      · have hRsome : (if pyTruthy (keyOfPrice side price) = true
            then keyOfPrice side price else old) = some r := by
          rw [← hRres]
          exact hRr
        rw [hRsome, holdk] at hok
        rw [hks, bisect_left_map_some ks (ks[j]) (hsort.imp le_of_lt),
          ipos_getElem ks hsort j hjk] at hok
        simp only [withS_ok, ok_bind] at hok
        rw [pyDelAt_ok _ _ (by simpa using hjk)] at hok
        simp only [withS_ok, ok_bind] at hok
        rw [pyDelAt_ok s.levels _ hjL] at hok
        simp only [withS_ok, ok_bind] at hok
        have hjI2 : j < (s.levels.map levelId).length := by
          rw [List.length_map]
          exact hjL
        have hnotmem : oid ∉ (s.levels.map levelId).eraseIdx j := by
          intro hc
          have hpm := perm_getElem_cons_eraseIdx (s.levels.map levelId) j hjI2
          rw [hoide] at hpm
          exact (List.nodup_cons.mp ((hpm.nodup_iff).mp hnd)).1 hc
        refine insertFrag_idmap
          { levels := s.levels.eraseIdx j, index := (ks.map some).eraseIdx j,
            hashmap := dictSet s.hashmap oid (some r), depth := s.depth,
            n := s.n } r delta2 oid t
          ⟨ks.eraseIdx j, (map_eraseIdx some ks j).symm,
            pairwise_eraseIdx hsort j⟩ ?_ ?_ ?_ hlid ?_ ?_ hok
        · show ((ks.map some).eraseIdx j).length
            = (s.levels.eraseIdx j).length
          rw [List.length_eraseIdx, List.length_eraseIdx, ← hks, hpar]
        · show ((s.levels.eraseIdx j).map levelId).Nodup
          rw [map_eraseIdx]
          exact hnd.sublist (List.eraseIdx_sublist _ j)
        · show some r ∉ (ks.map some).eraseIdx j
          intro hc
          exact hfresh (by
            rw [hks]
            exact (List.eraseIdx_sublist (ks.map some) j).subset hc)
        · show oid ∉ (s.levels.eraseIdx j).map levelId
          rw [map_eraseIdx]
          exact hnotmem
        · show (dictSet s.hashmap oid (some r)).Perm _
          rw [map_eraseIdx]
          refine (dictSet_perm_dictDel s.hashmap oid (some r) old ?_
            hmap).trans (List.Perm.cons _ ?_)
          · exact keys_nodup_of_perm s.hashmap (s.levels.map levelId) s.index
              hnd (le_of_eq (by rw [List.length_map, hpar])) hperm
          · rw [← hoide]
            refine idmap_del_perm s.hashmap (s.levels.map levelId)
              (ks.map some) hnd ?_ ?_ j hjI2 (by simpa using hjk)
            · rw [List.length_map, ← hpar, hks]
            · rw [← hks]
              exact hperm

theorem pyGtZero_ok_inv (v : Val) (b : Bool) (h : pyGtZero v = .ok b) :
    ∃ z, v = some z ∧ b = decide (0 < z) := by
  cases v with
  | none => exact Except.noConfusion h
  | some z => exact ⟨z, rfl, (Except.ok.inj h).symm⟩

/-- The incremental order-indexed strategy preserves the id-map invariant on
every successful call whose delta satisfies the `GoodIdx` precondition. -/
theorem incIdxStore_idmap (side : Bool) (s : Side) (delta : List Val)
    (t : Side) (hinv : IdxInv s) (hgood : GoodIdx side s delta)
    (hok : incIdxStoreArray side s delta = .ok t) : IdxInv t := by
  obtain ⟨⟨ks, hks, hsort⟩, hpar, hnd, hperm⟩ := hinv
  rw [incIdxStoreArray] at hok
  cases h0 : pyGet delta 0 with
  | error e =>
    rw [h0] at hok
    simp only [withS_error, error_bind] at hok
    exact Except.noConfusion hok
  | ok price =>
  rw [h0] at hok
  simp only [withS_ok, ok_bind] at hok
  cases h1 : pyGet delta 1 with
  | error e =>
    rw [h1] at hok
    simp only [withS_error, error_bind] at hok
    exact Except.noConfusion hok
  | ok size =>
  rw [h1] at hok
  simp only [withS_ok, ok_bind] at hok
  cases h2 : pyGet delta 2 with
  | error e =>
    rw [h2] at hok
    simp only [withS_error, error_bind] at hok
    exact Except.noConfusion hok
  | ok oid =>
  rw [h2] at hok
  simp only [withS_ok, ok_bind] at hok
  cases hszp : pyGtZero size with
  | error e =>
    rw [hszp] at hok
    simp only [withS_error, error_bind] at hok
    exact Except.noConfusion hok
  | ok szPos =>
  rw [hszp] at hok
  simp only [withS_ok, ok_bind] at hok
  cases hmap : dictLookup s.hashmap oid with
  | none =>
    rw [hmap] at hok
    simp only [] at hok
    cases szPos with
    | false =>
      simp only [Bool.false_eq_true, if_false] at hok
      rw [pure_eq_ok] at hok
      obtain rfl := Except.ok.inj hok
      exact ⟨⟨ks, hks, hsort⟩, hpar, hnd, hperm⟩
    | true =>
      simp only [if_true] at hok
      have hsz : pyTruthy size = true := by
        obtain ⟨z, rfl, hb⟩ := pyGtZero_ok_inv size true hszp
        have hz : 0 < z := of_decide_eq_true hb.symm
        simp [pyTruthy]
        omega
      have hg := hgood price size oid ((pyGet_eq_ok_iff delta 0 price).mp h0)
        ((pyGet_eq_ok_iff delta 1 size).mp h1)
        ((pyGet_eq_ok_iff delta 2 oid).mp h2) hsz
      have hRres : resolvedKey side s price oid = keyOfPrice side price := by
        unfold resolvedKey
        rw [hmap]
      rcases hg with ⟨old, hlk, -⟩ | ⟨r, hRr, hfresh⟩
      · rw [hmap] at hlk
        exact Option.noConfusion hlk
      rw [hRres] at hRr
      rw [hRr] at hok
      have hoidfresh : oid ∉ s.levels.map levelId := by
        intro hc
        have hm2 := (idmap_mem_iff s.hashmap (s.levels.map levelId) s.index
          hnd (by rw [List.length_map, hpar]) hperm oid).mpr hc
        rw [dictMem, hmap] at hm2
        simp at hm2
      refine insertFrag_idmap
        { s with hashmap := dictSet s.hashmap oid (some r) } r delta oid t
        ⟨ks, hks, hsort⟩ hpar hnd hfresh
        (levelId_of_getElem delta oid ((pyGet_eq_ok_iff delta 2 oid).mp h2))
        hoidfresh ?_ hok
      show (dictSet s.hashmap oid (some r)).Perm _
      refine (dictSet_perm_of_not_mem s.hashmap oid (some r)
        (by rw [dictMem, hmap]; rfl)).trans ?_
      exact List.Perm.cons _ hperm
  | some old =>
    rw [hmap] at hok
    simp only [] at hok
    obtain ⟨j, hjI, hodj, hvj⟩ := idmap_lookup_inv s.hashmap
      (s.levels.map levelId) s.index hnd
      (by rw [List.length_map, hpar]) hperm oid old hmap
    have hjk : j < ks.length := by
      have h := (List.getElem?_eq_some_iff.mp hvj).1
      rw [hks] at h
      simpa using h
    have hjL : j < s.levels.length := by
      rw [← hpar, hks]
      simpa using hjk
    have holdk : old = some (ks[j]) := by
      rw [hks, List.getElem?_map, List.getElem?_eq_getElem hjk] at hvj
      simpa using hvj.symm
    have hoide : (s.levels.map levelId)[j] = oid :=
      (List.getElem?_eq_some_iff.mp hodj).2
    have hjI2 : j < (s.levels.map levelId).length := by
      rw [List.length_map]
      exact hjL
    cases szPos with
    | false =>
      simp only [Bool.false_eq_true, if_false] at hok
      rw [holdk] at hok
      exact deleteFrag_idmap s j ks oid t hks hsort hpar hnd hperm hjk hodj hok
    | true =>
      simp only [if_true] at hok
      have hsz : pyTruthy size = true := by
        obtain ⟨z, rfl, hb⟩ := pyGtZero_ok_inv size true hszp
        have hz : 0 < z := of_decide_eq_true hb.symm
        simp [pyTruthy]
        omega
      have hg := hgood price size oid ((pyGet_eq_ok_iff delta 0 price).mp h0)
        ((pyGet_eq_ok_iff delta 1 size).mp h1)
        ((pyGet_eq_ok_iff delta 2 oid).mp h2) hsz
      have hRres : resolvedKey side s price oid
          = (if pyTruthy (keyOfPrice side price) = true
              then keyOfPrice side price else old) := by
        unfold resolvedKey
        rw [hmap]
      rcases hg with ⟨old2, hlk2, hReq2⟩ | ⟨r, hRr, hfresh⟩
      · -- resolved key equals the old key: overwrite or incremental delete
        rw [hmap] at hlk2
        have hold2 : old2 = old := (Option.some.inj hlk2).symm
        rw [hRres, hold2] at hReq2
        rw [hReq2, holdk] at hok
        nth_rewrite 1 [show bisect_left s.index (some (ks[j])) = .ok j from by
          rw [hks, bisect_left_map_some ks (ks[j]) (hsort.imp le_of_lt),
            ipos_getElem ks hsort j hjk]] at hok
        simp only [withS_ok, ok_bind] at hok
        rw [pyGet_ok s.levels j hjL] at hok
        simp only [withS_ok, ok_bind] at hok
        cases hv : pyGet (s.levels[j]) 1 with
        | error e =>
          rw [hv] at hok
          simp only [withS_error, error_bind] at hok
          exact Except.noConfusion hok
        | ok v =>
        rw [hv] at hok
        simp only [withS_ok, ok_bind] at hok
        cases hadd : pyAdd size v with
        | error e =>
          rw [hadd] at hok
          simp only [withS_error, error_bind] at hok
          exact Except.noConfusion hok
        | ok size2 =>
        rw [hadd] at hok
        simp only [withS_ok, ok_bind] at hok
        cases habs : pyAbs (some (ks[j])) with
        | error e =>
          rw [habs] at hok
          simp only [withS_error, error_bind] at hok
          exact Except.noConfusion hok
        | ok a =>
        rw [habs] at hok
        simp only [withS_ok, ok_bind] at hok
        cases hset : pySet delta 0 a with
        | error e =>
          rw [hset] at hok
          simp only [withS_error, error_bind] at hok
          exact Except.noConfusion hok
        | ok delta2 =>
        rw [hset] at hok
        simp only [withS_ok, ok_bind] at hok
        cases hset2 : pySet delta2 1 size2 with
        | error e =>
          rw [hset2] at hok
          simp only [withS_error, error_bind] at hok
          exact Except.noConfusion hok
        | ok delta3 =>
        rw [hset2] at hok
        simp only [withS_ok, ok_bind] at hok
        have hlid : levelId delta3 = oid := by
          obtain ⟨-, rfl⟩ := pySet_ok_inv delta2 1 size2 delta3 hset2
          obtain ⟨-, rfl⟩ := pySet_ok_inv delta 0 a delta2 hset
          rw [levelId_set_ne _ 1 size2 (by omega),
            levelId_set_ne delta 0 a (by omega)]
          exact levelId_of_getElem delta oid
            ((pyGet_eq_ok_iff delta 2 oid).mp h2)
        cases hsp2 : pyGtZero size2 with
        | error e =>
          rw [hsp2] at hok
          simp only [withS_error, error_bind] at hok
          exact Except.noConfusion hok
        | ok szPos2 =>
        rw [hsp2] at hok
        simp only [withS_ok, ok_bind] at hok
        cases szPos2 with
        | false =>
          simp only [Bool.false_eq_true, if_false] at hok
          exact deleteFrag_idmap s j ks oid t hks hsort hpar hnd hperm hjk
            hodj hok
        | true =>
          simp only [if_true] at hok
          rw [if_pos (beq_iff_eq.mpr rfl)] at hok
          exact overwriteFrag_idmap s j ks delta3 oid t hks hsort hpar hnd
            hperm hjk hodj hlid hok
      · -- resolved key is fresh: incremental read at the new position, then
        -- move the level
        have hRsome : (if pyTruthy (keyOfPrice side price) = true
            then keyOfPrice side price else old) = some r := by
          rw [← hRres]
          exact hRr
        have hne : some r ≠ old := by
          rw [holdk]
          intro hc
          apply hfresh
          rw [hks, hc]
          exact List.mem_map_of_mem some (List.getElem_mem hjk)
        rw [hRsome] at hok
        rw [show bisect_left s.index (some r) = .ok (ipos ks r) from by
          rw [hks, bisect_left_map_some ks r (hsort.imp le_of_lt)]] at hok
        simp only [withS_ok, ok_bind] at hok
        cases hread : pyGet s.levels (ipos ks r) with
        | error e =>
          rw [hread] at hok
          simp only [withS_error, error_bind] at hok
          exact Except.noConfusion hok
        | ok level =>
        rw [hread] at hok
        simp only [withS_ok, ok_bind] at hok
        cases hv : pyGet level 1 with
        | error e =>
          rw [hv] at hok
          simp only [withS_error, error_bind] at hok
          exact Except.noConfusion hok
        | ok v =>
        rw [hv] at hok
        simp only [withS_ok, ok_bind] at hok
        cases hadd : pyAdd size v with
        | error e =>
          rw [hadd] at hok
          simp only [withS_error, error_bind] at hok
          exact Except.noConfusion hok
        | ok size2 =>
        rw [hadd] at hok
        simp only [withS_ok, ok_bind] at hok
        cases habs : pyAbs (some r) with
        | error e =>
          rw [habs] at hok
          simp only [withS_error, error_bind] at hok
          exact Except.noConfusion hok
        | ok a =>
        rw [habs] at hok
        simp only [withS_ok, ok_bind] at hok
        cases hset : pySet delta 0 a with
        | error e =>
          rw [hset] at hok
          simp only [withS_error, error_bind] at hok
          exact Except.noConfusion hok
        | ok delta2 =>
        rw [hset] at hok
        simp only [withS_ok, ok_bind] at hok
        cases hset2 : pySet delta2 1 size2 with
        | error e =>
          rw [hset2] at hok
          simp only [withS_error, error_bind] at hok
          exact Except.noConfusion hok
        | ok delta3 =>
        rw [hset2] at hok
        simp only [withS_ok, ok_bind] at hok
        have hlid : levelId delta3 = oid := by
          obtain ⟨-, rfl⟩ := pySet_ok_inv delta2 1 size2 delta3 hset2
          obtain ⟨-, rfl⟩ := pySet_ok_inv delta 0 a delta2 hset
          rw [levelId_set_ne _ 1 size2 (by omega),
            levelId_set_ne delta 0 a (by omega)]
          exact levelId_of_getElem delta oid
            ((pyGet_eq_ok_iff delta 2 oid).mp h2)
        cases hsp2 : pyGtZero size2 with
        | error e =>
          rw [hsp2] at hok
          simp only [withS_error, error_bind] at hok
          exact Except.noConfusion hok
        | ok szPos2 =>
        rw [hsp2] at hok
        simp only [withS_ok, ok_bind] at hok
        cases szPos2 with
        | false =>
          simp only [Bool.false_eq_true, if_false] at hok
          rw [holdk] at hok
          exact deleteFrag_idmap s j ks oid t hks hsort hpar hnd hperm hjk
            hodj hok
        | true =>
          simp only [if_true] at hok
          rw [if_neg (fun hc => hne (beq_iff_eq.mp hc))] at hok
          rw [holdk] at hok
          rw [hks, bisect_left_map_some ks (ks[j]) (hsort.imp le_of_lt),
            ipos_getElem ks hsort j hjk] at hok
          simp only [withS_ok, ok_bind] at hok
          rw [pyDelAt_ok _ _ (by simpa using hjk)] at hok
          simp only [withS_ok, ok_bind] at hok
          rw [pyDelAt_ok s.levels _ hjL] at hok
          simp only [withS_ok, ok_bind] at hok
          have hnotmem : oid ∉ (s.levels.map levelId).eraseIdx j := by
            intro hc
            have hpm := perm_getElem_cons_eraseIdx (s.levels.map levelId) j
              hjI2
            rw [hoide] at hpm
            exact (List.nodup_cons.mp ((hpm.nodup_iff).mp hnd)).1 hc
          refine insertFrag_idmap
            { levels := s.levels.eraseIdx j,
              index := (ks.map some).eraseIdx j,
              hashmap := dictSet s.hashmap oid (some r), depth := s.depth,
              n := s.n } r delta3 oid t
            ⟨ks.eraseIdx j, (map_eraseIdx some ks j).symm,
              pairwise_eraseIdx hsort j⟩ ?_ ?_ ?_ hlid ?_ ?_ hok
          · show ((ks.map some).eraseIdx j).length
              = (s.levels.eraseIdx j).length
            rw [List.length_eraseIdx, List.length_eraseIdx, ← hks, hpar]
          · show ((s.levels.eraseIdx j).map levelId).Nodup
            rw [map_eraseIdx]
            exact hnd.sublist (List.eraseIdx_sublist _ j)
          · show some r ∉ (ks.map some).eraseIdx j
            intro hc
            exact hfresh (by
              rw [hks]
              exact (List.eraseIdx_sublist (ks.map some) j).subset hc)
          · show oid ∉ (s.levels.eraseIdx j).map levelId
            rw [map_eraseIdx]
            exact hnotmem
          · show (dictSet s.hashmap oid (some r)).Perm _
            rw [map_eraseIdx]
            refine (dictSet_perm_dictDel s.hashmap oid (some r) old ?_
              hmap).trans (List.Perm.cons _ ?_)
            · exact keys_nodup_of_perm s.hashmap (s.levels.map levelId)
                s.index hnd (le_of_eq (by rw [List.length_map, hpar])) hperm
            · rw [← hoide]
              refine idmap_del_perm s.hashmap (s.levels.map levelId)
                (ks.map some) hnd ?_ ?_ j hjI2 (by simpa using hjk)
              · rw [List.length_map, ← hpar, hks]
              · rw [← hks]
                exact hperm

theorem pyPop_ok_inv (l : List α) (p : α × List α) (h : pyPop l = .ok p) :
    l.getLast? = some p.1 ∧ p.2 = l.dropLast := by
  cases hl : l.getLast? with
  | none =>
    rw [pyPop, hl] at h
    exact Except.noConfusion h
  | some v =>
    rw [pyPop, hl] at h
    have h2 := Except.ok.inj h
    rw [← h2]
    exact ⟨rfl, rfl⟩

theorem dropLast_eq_eraseIdx (l : List α) :
    l.dropLast = l.eraseIdx (l.length - 1) := by
  rw [List.dropLast_eq_take, List.eraseIdx_eq_take_drop_succ]
  cases l with
  | nil => rfl
  | cons a tl =>
    rw [show (a :: tl).length - 1 + 1 = (a :: tl).length by simp]
    rw [List.drop_length, List.append_nil]

/-- One iteration of the trimming loop with the order-indexed
`remove_index` hook preserves the id-map invariant. -/
theorem popOne_idmap (s t : Side) (hinv : IdxInv s)
    (hok : popOne idxRemoveIndex s = .ok t) : IdxInv t := by
  obtain ⟨⟨ks, hks, hsort⟩, hpar, hnd, hperm⟩ := hinv
  rw [popOne] at hok
  cases hpl : pyPop s.levels with
  | error e =>
    rw [hpl] at hok
    simp only [withS_error, error_bind] at hok
    exact Except.noConfusion hok
  | ok pl =>
  rw [hpl] at hok
  simp only [withS_ok, ok_bind] at hok
  obtain ⟨hlast, hrest⟩ := pyPop_ok_inv s.levels pl hpl
  simp only [idxRemoveIndex] at hok
  cases hg2 : pyGet pl.1 2 with
  | error e =>
    rw [hg2] at hok
    simp only [withS_error, error_bind] at hok
    exact Except.noConfusion hok
  | ok oid0 =>
  rw [hg2] at hok
  simp only [withS_ok, ok_bind] at hok
  have hne : s.levels ≠ [] := by
    intro hc
    rw [hc] at hlast
    simp at hlast
  have hlen0 : 0 < s.levels.length := List.length_pos.mpr hne
  have hlaste : s.levels[s.levels.length - 1]? = some pl.1 := by
    rw [← List.getLast?_eq_getElem?]
    exact hlast
  have hlid : levelId pl.1 = oid0 :=
    levelId_of_getElem pl.1 oid0 ((pyGet_eq_ok_iff pl.1 2 oid0).mp hg2)
  have hodj : (s.levels.map levelId)[s.levels.length - 1]? = some oid0 := by
    rw [List.getElem?_map, hlaste]
    simp [hlid]
  have hmemT : dictMem s.hashmap oid0 = true := by
    refine (idmap_mem_iff s.hashmap (s.levels.map levelId) s.index hnd
      (by rw [List.length_map, hpar]) hperm oid0).mpr ?_
    exact mem_of_getElem_some hodj
  rw [if_pos hmemT] at hok
  simp only [pure_bind_py] at hok
  cases hpi : pyPop s.index with
  | error e =>
    rw [hpi] at hok
    simp only [withS_error, error_bind] at hok
    exact Except.noConfusion hok
  | ok pi =>
  rw [hpi] at hok
  simp only [withS_ok, ok_bind] at hok
  obtain ⟨hlastI, hrestI⟩ := pyPop_ok_inv s.index pi hpi
  rw [pure_eq_ok] at hok
  obtain rfl := Except.ok.inj hok
  have hrw : pl.2 = s.levels.eraseIdx (s.levels.length - 1) := by
    rw [hrest, dropLast_eq_eraseIdx]
  have hrwI : pi.2 = s.index.eraseIdx (s.levels.length - 1) := by
    rw [hrestI, dropLast_eq_eraseIdx, hpar]
  have hjI2 : s.levels.length - 1 < (s.levels.map levelId).length := by
    rw [List.length_map]
    omega
  have hoide : (s.levels.map levelId)[s.levels.length - 1] = oid0 :=
    (List.getElem?_eq_some_iff.mp hodj).2
  refine ⟨⟨ks.eraseIdx (s.levels.length - 1), ?_, pairwise_eraseIdx hsort _⟩,
    ?_, ?_, ?_⟩
  · show pi.2 = _
    rw [hrwI, hks]
    exact (map_eraseIdx some ks _).symm
  · show pi.2.length = pl.2.length
    rw [hrwI, hrw, List.length_eraseIdx, List.length_eraseIdx, hpar]
  · show (pl.2.map levelId).Nodup
    rw [hrw, map_eraseIdx]
    exact hnd.sublist (List.eraseIdx_sublist _ _)
  · show (dictDel s.hashmap oid0).Perm ((pl.2.map levelId).zip pi.2)
    rw [hrw, hrwI, map_eraseIdx, ← hoide]
    exact idmap_del_perm s.hashmap (s.levels.map levelId) s.index hnd
      (by rw [List.length_map, hpar]) hperm _ hjI2 (by omega)

/-- The trimming loop with the order-indexed `remove_index` hook preserves
the id-map invariant. -/
theorem popLoop_idmap (k : Nat) (s t : Side) (hinv : IdxInv s)
    (hok : popLoop idxRemoveIndex s k = .ok t) : IdxInv t := by
  induction k generalizing s with
  | zero =>
    simp only [popLoop] at hok
    obtain rfl := Except.ok.inj hok
    exact hinv
  | succ n ih =>
    simp only [popLoop] at hok
    cases hp : popOne idxRemoveIndex s with
    | error e =>
      rw [hp] at hok
      simp only [error_bind] at hok
      exact Except.noConfusion hok
    | ok s1 =>
      rw [hp] at hok
      simp only [ok_bind] at hok
      exact ih s1 (popOne_idmap s s1 hinv hp) hok

/-- `limit` with the order-indexed `remove_index` hook preserves the id-map
invariant (both visible-length setting and depth trimming). -/
theorem pyLimit_idmap (s : Side) (n : Option Nat) (t : Side)
    (hinv : IdxInv s) (hok : pyLimit idxRemoveIndex s n = .ok t) :
    IdxInv t := by
  rw [pyLimit_eq_popLoop] at hok
  refine popLoop_idmap _ _ t ⟨?_, ?_, ?_, ?_⟩ hok
  · exact hinv.keys
  · exact hinv.par
  · exact hinv.idsNodup
  · exact hinv.mapPerm

/-- Incremental order-indexed strategy with a known id, positive raw size,
and an existing level at the resolved key holding numeric size `w`: the call
behaves exactly like the plain order-indexed strategy run on the delta with
its size replaced by the effective size `z + w`. -/
theorem incIdxStore_effSize (side : Bool) (s : Side) (ks : List Int)
    (delta : List Val) (price oid : Val) (z w x : Int)
    (hks : s.index = ks.map some) (hsort : ks.Pairwise (· < ·))
    (hpar : s.index.length = s.levels.length)
    (h0 : delta[0]? = some price) (h1 : delta[1]? = some (some z))
    (h2 : delta[2]? = some oid)
    (hz : 0 < z) (hw : 0 ≤ w)
    (hold : ∃ old, dictLookup s.hashmap oid = some old)
    (hres : resolvedKey side s price oid = some x)
    (hx : x ∈ ks)
    (hlvl : (s.levels.getD (ipos ks x) [])[1]? = some (some w)) :
    incIdxStoreArray side s delta
      = idxStoreArray side s (delta.set 1 (some (z + w))) := by
  obtain ⟨old, hlk⟩ := hold
  have hpos : ipos ks x < ks.length := ((ipos_mem_iff ks x hsort).mp hx).1
  have hposL : ipos ks x < s.levels.length := by
    rw [← hpar, hks]
    simpa using hpos
  have hd0 : 0 < delta.length := (List.getElem?_eq_some_iff.mp h0).1
  have hd1 : 1 < delta.length := (List.getElem?_eq_some_iff.mp h1).1
  have hlvl2 : (s.levels[ipos ks x])[1]? = some (some w) := by
    rw [← getD_eq_getElem s.levels _ [] hposL]
    exact hlvl
  have hres' : (if pyTruthy (keyOfPrice side price) = true
      then keyOfPrice side price else old) = some x := by
    rw [← hres]
    unfold resolvedKey
    rw [hlk]
  rw [incIdxStoreArray, idxStoreArray]
  rw [show pyGet delta 0 = .ok price from (pyGet_eq_ok_iff _ _ _).mpr h0,
    show pyGet delta 1 = .ok (some z) from (pyGet_eq_ok_iff _ _ _).mpr h1,
    show pyGet delta 2 = .ok oid from (pyGet_eq_ok_iff _ _ _).mpr h2]
  rw [show pyGet (delta.set 1 (some (z + w))) 0 = .ok price from
      (pyGet_eq_ok_iff _ _ _).mpr
        (by rw [List.getElem?_set_ne (by omega)]; exact h0),
    show pyGet (delta.set 1 (some (z + w))) 1 = .ok (some (z + w)) from
      (pyGet_eq_ok_iff _ _ _).mpr
        (by rw [List.getElem?_eq_getElem (by rw [List.length_set]; exact hd1),
              List.getElem_set, if_pos rfl]),
    show pyGet (delta.set 1 (some (z + w))) 2 = .ok oid from
      (pyGet_eq_ok_iff _ _ _).mpr
        (by rw [List.getElem?_set_ne (by omega)]; exact h2)]
  simp only [withS_ok, ok_bind]
  rw [show pyGtZero (some z) = .ok true from by
    rw [show pyGtZero (some z) = Except.ok (decide (0 < z)) from rfl,
      decide_eq_true hz]]
  simp only [withS_ok, ok_bind]
  rw [hlk]
  simp only []
  rw [if_pos (show pyTruthy (some (z + w)) = true from by
    simp only [pyTruthy, bne_iff_ne, ne_eq, decide_eq_true_eq]
    omega)]
  rw [hres']
  rw [show bisect_left s.index (some x) = .ok (ipos ks x) from by
    rw [hks, bisect_left_map_some ks x (hsort.imp le_of_lt)]]
  simp only [withS_ok, ok_bind]
  rw [pyGet_ok s.levels _ hposL]
  simp only [withS_ok, ok_bind]
  rw [show pyGet (s.levels[ipos ks x]) 1 = .ok (some w) from by
    rw [pyGet, hlvl2]]
  simp only [withS_ok, ok_bind]
  rw [show pyAdd (some z) (some w) = .ok (some (z + w)) from rfl]
  simp only [withS_ok, ok_bind]
  rw [show pyAbs (some x) = .ok (some |x|) from rfl]
  simp only [withS_ok, ok_bind]
  rw [pySet_ok delta 0 (some |x|) hd0]
  rw [pySet_ok (delta.set 1 (some (z + w))) 0 (some |x|)
    (by rw [List.length_set]; exact hd0)]
  simp only [withS_ok, ok_bind]
  rw [pySet_ok (delta.set 0 (some |x|)) 1 (some (z + w))
    (by rw [List.length_set]; exact hd1)]
  simp only [withS_ok, ok_bind]
  rw [show pyGtZero (some (z + w)) = .ok true from by
    rw [show pyGtZero (some (z + w)) = Except.ok (decide (0 < z + w)) from
      rfl, decide_eq_true (show (0 : Int) < z + w by omega)]]
  simp only [withS_ok, ok_bind]
  rw [List.set_comm (some |x|) (some (z + w)) delta (by omega)]
  simp only [if_true]

/-! ## Claim theorems -/

/-- C1 (corrected): the depth cap is enforced only by `limit()`, never by a
`storeArray` call. After `limit()` on a side with finite depth `d`, exactly
the first `d` levels and keys — the `d` best by sort key — are retained, and
the stored count is `min (stored, d)`. The original claim, that every single
`storeArray` call already keeps the stored count at most `d`, is refuted by
`claim_C1_counterexample`. -/
theorem claim_C1 (ri : List Val → Side → PyRes) (P : List Val → Prop)
    (F : List Val → List (Val × Val) → List (Val × Val))
    (hri : RiSpec ri P F) (s : Side) (d : Nat)
    (hdepth : s.depth = some d) (hP : ∀ o ∈ s.levels, P o)
    (hpar : s.index.length = s.levels.length)
    (hsorted : s.index.Pairwise (fun a b => vle a b = true)) :
    ∃ t, pyLimit ri s Option.none = .ok t ∧
      t.levels = s.levels.take d ∧ t.index = s.index.take d ∧
      t.levels.length = min s.levels.length d ∧
      ∀ a ∈ t.index, ∀ b ∈ s.index.drop d, vle a b = true := by
  obtain ⟨t, h1, h2, h3, h4⟩ := pyLimit_none_spec ri P F hri s d hdepth hP hpar
  refine ⟨t, h1, h2, h3, h4, ?_⟩
  rw [h3]
  exact pairwise_take_drop hsorted d

/-- C1 counterexample: a side constructed with depth `1` still holds `2`
levels after two `storeArray` calls — the constructor's replay of deltas
through `storeArray` never enforces the depth cap. -/
theorem claim_C1_counterexample :
    ∃ s, newSide (absStoreArray false)
        [[some 10, some 1], [some 11, some 1]] (some 1) = .ok s ∧
      s.depth = some 1 ∧ s.levels.length = 2 :=
  ⟨{ levels := [[some 10, some 1], [some 11, some 1]],
     index := [some 10, some 11], hashmap := [], depth := some 1,
     n := Option.none }, rfl, rfl, rfl⟩

theorem claim_C1_witness :
    ∃ t, pyLimit baseRemoveIndex
        { levels := [[some 10, some 1], [some 11, some 1]],
          index := [some 10, some 11], hashmap := [], depth := some 1,
          n := Option.none } Option.none = .ok t ∧
      t.levels = [[some 10, some 1], [some 11, some 1]].take 1 ∧
      t.index = [some 10, some 11].take 1 ∧
      t.levels.length = min 2 1 ∧
      ∀ a ∈ t.index, ∀ b ∈ [some 10, some 11].drop 1, vle a b = true :=
  claim_C1 baseRemoveIndex (fun _ => True) (fun _ hm => hm) riSpec_base
    { levels := [[some 10, some 1], [some 11, some 1]],
      index := [some 10, some 11], hashmap := [], depth := some 1,
      n := Option.none } 1 rfl (fun _ _ => trivial) rfl (by decide)

/-- C2 (corrected): the absolute, counted and incremental strategies keep
the key index strictly ascending (with lockstep lengths) across every call,
including at the raise point of exceptions; the order-indexed strategies
keep it only weakly ascending. The original claim's strictness for the
order-indexed variants — no two stored levels sharing a sort key — is
refuted by `claim_C2_counterexample`: two deltas with distinct order ids at
the same price produce duplicate keys. -/
theorem claim_C2 :
    (∀ side s delta, SortedStrict s →
      SortedStrict (resState (absStoreArray side s delta))) ∧
    (∀ side s delta, SortedStrict s →
      SortedStrict (resState (countedStoreArray side s delta))) ∧
    (∀ side s delta, SortedStrict s →
      SortedStrict (resState (incStoreArray side s delta))) ∧
    (∀ side s delta, SortedWeak s →
      SortedWeak (resState (idxStoreArray side s delta))) ∧
    (∀ side s delta, SortedWeak s →
      SortedWeak (resState (incIdxStoreArray side s delta))) :=
  ⟨absStore_sorted, countedStore_sorted, incStore_sorted, idxStore_sorted,
    incIdxStore_sorted⟩

/-- C2 counterexample: from an empty order-indexed side, storing id `1` then
id `2` at the same price `10` leaves the duplicate key index
`[some 10, some 10]`, which is not strictly ascending. -/
theorem claim_C2_counterexample :
    ∃ s1 s2,
      idxStoreArray false
          { levels := [], index := [], hashmap := [], depth := Option.none,
            n := Option.none } [some 10, some 1, some 1] = .ok s1 ∧
      idxStoreArray false s1 [some 10, some 1, some 2] = .ok s2 ∧
      s2.index = [some 10, some 10] ∧ ¬SortedStrict s2 :=
  ⟨{ levels := [[some 10, some 1, some 1]], index := [some 10],
     hashmap := [(some 1, some 10)], depth := Option.none,
     n := Option.none },
   { levels := [[some 10, some 1, some 2], [some 10, some 1, some 1]],
     index := [some 10, some 10],
     hashmap := [(some 1, some 10), (some 2, some 10)],
     depth := Option.none, n := Option.none },
   rfl, rfl, rfl, by
     intro hc
     exact absurd hc.1 (by decide)⟩

theorem claim_C2_witness :
    SortedStrict (resState (absStoreArray false
      { levels := [[some 10, some 1]], index := [some 10], hashmap := [],
        depth := Option.none, n := Option.none } [some 11, some 2])) :=
  claim_C2.1 false
    { levels := [[some 10, some 1]], index := [some 10], hashmap := [],
      depth := Option.none, n := Option.none } [some 11, some 2]
    ⟨by decide, rfl⟩

/-- C3 (corrected): length and iteration observe the visible-length-truncated
view `min (stored, n)`, but integer indexed access does not — it delegates to
the untruncated stored list, so every index below the stored length returns a
stored level, including indices at or beyond the visible length (refuting the
original claim's last part, see `claim_C3_counterexample`). -/
theorem claim_C3 :
    (∀ s k, s.n = some k → pyLen s = min s.levels.length k) ∧
    (∀ s k, s.n = some k → pyIter s = s.levels.take k) ∧
    (∀ s i, i < s.levels.length → pyGetItem s i = .ok (s.levels.getD i [])) := by
  refine ⟨?_, ?_, ?_⟩
  · intro s k hk
    rw [pyLen, hk]
  · intro s k hk
    rw [pyIter, hk]
  · intro s i hi
    rw [pyGetItem, pyGet_ok s.levels i hi, getD_eq_getElem s.levels i [] hi]

/-- C3 counterexample: after `limit(1)` on a two-level side, the visible
length is `1` but indexed access at `1` still returns the hidden second
stored level instead of failing or observing the truncated view. -/
theorem claim_C3_counterexample :
    ∃ t, pyLimit baseRemoveIndex
        { levels := [[some 10, some 1], [some 11, some 1]],
          index := [some 10, some 11], hashmap := [], depth := Option.none,
          n := Option.none } (some 1) = .ok t ∧
      pyLen t = 1 ∧ 1 < t.levels.length ∧
      pyGetItem t 1 = .ok [some 11, some 1] :=
  ⟨{ levels := [[some 10, some 1], [some 11, some 1]],
     index := [some 10, some 11], hashmap := [], depth := Option.none,
     n := some 1 }, rfl, rfl, by decide, rfl⟩

theorem claim_C3_witness :
    pyLen { levels := [[some 10, some 1], [some 11, some 1]],
            index := [some 10, some 11], hashmap := [],
            depth := Option.none, n := some 1 } = min 2 1 ∧
    pyGetItem { levels := [[some 10, some 1], [some 11, some 1]],
                index := [some 10, some 11], hashmap := [],
                depth := Option.none, n := some 1 } 1
      = .ok ([[some 10, some 1], [some 11, some 1]].getD 1 []) :=
  ⟨claim_C3.1
    { levels := [[some 10, some 1], [some 11, some 1]],
      index := [some 10, some 11], hashmap := [], depth := Option.none,
      n := some 1 } 1 rfl,
   claim_C3.2.2
    { levels := [[some 10, some 1], [some 11, some 1]],
      index := [some 10, some 11], hashmap := [], depth := Option.none,
      n := some 1 } 1 (by decide)⟩

/-- C4 (corrected): the id-map correspondence — an order id is in the
hashmap iff a stored level carries it — is an invariant of the order-indexed
strategies and of `limit` only under the `GoodIdx` precondition (each
nonzero-size delta resolves to its own order's current key or to a key not
yet in the index). Unconditionally the claim is false: a new id stored at an
already-occupied price breaks the correspondence two deltas later, see
`claim_C4_counterexample`. -/
theorem claim_C4 :
    (∀ side s delta t, IdxInv s → GoodIdx side s delta →
      idxStoreArray side s delta = .ok t → IdxInv t) ∧
    (∀ side s delta t, IdxInv s → GoodIdx side s delta →
      incIdxStoreArray side s delta = .ok t → IdxInv t) ∧
    (∀ s n t, IdxInv s → pyLimit idxRemoveIndex s n = .ok t → IdxInv t) ∧
    (∀ t, IdxInv t →
      ∀ i, dictMem t.hashmap i = true ↔ i ∈ t.levels.map levelId) := by
  refine ⟨idxStore_idmap, incIdxStore_idmap, pyLimit_idmap, ?_⟩
  intro t ht i
  obtain ⟨⟨ks, hks, hsort⟩, hpar, hnd, hperm⟩ := ht
  exact idmap_mem_iff t.hashmap _ t.index hnd
    (by rw [List.length_map, hpar]) hperm i

/-- C4 counterexample: store id `1` at price `10`, then id `2` at the same
price (duplicate key), then delete id `1`: the deletion erases the level
that carries id `2`, leaving id `2` in the hashmap with no level carrying
it, and id `1` out of the hashmap although its level is still stored. -/
theorem claim_C4_counterexample :
    ∃ s1 s2 s3,
      idxStoreArray false
          { levels := [], index := [], hashmap := [], depth := Option.none,
            n := Option.none } [some 10, some 1, some 1] = .ok s1 ∧
      idxStoreArray false s1 [some 10, some 1, some 2] = .ok s2 ∧
      idxStoreArray false s2 [Option.none, some 0, some 1] = .ok s3 ∧
      dictMem s3.hashmap (some 2) = true ∧
      some 2 ∉ s3.levels.map levelId ∧
      dictMem s3.hashmap (some 1) = false ∧
      some 1 ∈ s3.levels.map levelId :=
  ⟨{ levels := [[some 10, some 1, some 1]], index := [some 10],
     hashmap := [(some 1, some 10)], depth := Option.none,
     n := Option.none },
   { levels := [[some 10, some 1, some 2], [some 10, some 1, some 1]],
     index := [some 10, some 10],
     hashmap := [(some 1, some 10), (some 2, some 10)],
     depth := Option.none, n := Option.none },
   { levels := [[some 10, some 1, some 1]], index := [some 10],
     hashmap := [(some 2, some 10)], depth := Option.none,
     n := Option.none },
   rfl, rfl, rfl, rfl, by decide, rfl, by decide⟩

theorem claim_C4_witness :
    IdxInv { levels := [[some 10, some 1, some 1]], index := [some 10],
             hashmap := [(some 1, some 10)], depth := Option.none,
             n := Option.none } :=
  claim_C4.1 false
    { levels := [], index := [], hashmap := [], depth := Option.none,
      n := Option.none }
    [some 10, some 1, some 1]
    { levels := [[some 10, some 1, some 1]], index := [some 10],
      hashmap := [(some 1, some 10)], depth := Option.none,
      n := Option.none }
    ⟨⟨[], rfl, List.Pairwise.nil⟩, rfl, List.nodup_nil, List.Perm.refl _⟩
    (by
      intro price size oid h0 h1 h2 hsz
      simp only [List.getElem?_cons_zero, List.getElem?_cons_succ,
        Option.some.injEq] at h0 h1 h2
      subst h0
      subst h2
      right
      exact ⟨10, rfl, by decide⟩)
    rfl

/-- C5 (corrected): with a known order id and positive raw size, the
incremental indexed strategy behaves as the plain order-indexed strategy on
the delta with its size replaced by the effective size `z + w` — but only
when a level actually exists at the resolved key, holding numeric size `w`.
When the resolved key is fresh, the code reads whatever level sits at the
key's insertion position (a neighbour) instead of "the existing level at
that key", see `claim_C5_counterexample`. -/
theorem claim_C5 (side : Bool) (s : Side) (ks : List Int)
    (delta : List Val) (price oid : Val) (z w x : Int)
    (hks : s.index = ks.map some) (hsort : ks.Pairwise (· < ·))
    (hpar : s.index.length = s.levels.length)
    (h0 : delta[0]? = some price) (h1 : delta[1]? = some (some z))
    (h2 : delta[2]? = some oid)
    (hz : 0 < z) (hw : 0 ≤ w)
    (hold : ∃ old, dictLookup s.hashmap oid = some old)
    (hres : resolvedKey side s price oid = some x)
    (hx : x ∈ ks)
    (hlvl : (s.levels.getD (ipos ks x) [])[1]? = some (some w)) :
    incIdxStoreArray side s delta
      = idxStoreArray side s (delta.set 1 (some (z + w))) :=
  incIdxStore_effSize side s ks delta price oid z w x hks hsort hpar h0 h1
    h2 hz hw hold hres hx hlvl

/-- C5 counterexample: id `2` currently sits at key `10`; a delta moves it
to the fresh key `7` with size `6`. No level exists at key `7`, yet the
stored size becomes `12`: the code added the size of the neighbouring level
(key `10`, size `6`) found at `7`'s insertion position. -/
theorem claim_C5_counterexample :
    incIdxStoreArray false
        { levels := [[some 5, some 6, some 1], [some 10, some 6, some 2]],
          index := [some 5, some 10],
          hashmap := [(some 1, some 5), (some 2, some 10)],
          depth := Option.none, n := Option.none }
        [some 7, some 6, some 2]
      = .ok { levels := [[some 5, some 6, some 1], [some 7, some 12, some 2]],
              index := [some 5, some 7],
              hashmap := [(some 1, some 5), (some 2, some 7)],
              depth := Option.none, n := Option.none }
    ∧ some 7 ∉ [some 5, some 10] :=
  ⟨rfl, by decide⟩

theorem claim_C5_witness :
    incIdxStoreArray false
        { levels := [[some 5, some 6, some 1], [some 10, some 3, some 2]],
          index := [some 5, some 10],
          hashmap := [(some 1, some 5), (some 2, some 10)],
          depth := Option.none, n := Option.none }
        [some 5, some 6, some 2]
      = idxStoreArray false
        { levels := [[some 5, some 6, some 1], [some 10, some 3, some 2]],
          index := [some 5, some 10],
          hashmap := [(some 1, some 5), (some 2, some 10)],
          depth := Option.none, n := Option.none }
        ([some 5, some 6, some 2].set 1 (some (6 + 6))) :=
  claim_C5 false
    { levels := [[some 5, some 6, some 1], [some 10, some 3, some 2]],
      index := [some 5, some 10],
      hashmap := [(some 1, some 5), (some 2, some 10)],
      depth := Option.none, n := Option.none }
    [5, 10] [some 5, some 6, some 2] (some 5) (some 2) 6 6 5
    rfl (by decide) rfl rfl rfl rfl (by decide) (by decide)
    ⟨some 10, rfl⟩ rfl (by decide) rfl

/-- C6 (confirmed): `limit(k)` followed by `limit(None)` equals a single
`limit(None)` — setting the visible length pops nothing beyond what the
depth cap itself requires, so clearing it restores every level the depth cap
would have kept; with no depth cap the round trip restores the full store
unchanged (only `_n` differs). -/
theorem claim_C6 (ri : List Val → Side → PyRes) (P : List Val → Prop)
    (F : List Val → List (Val × Val) → List (Val × Val))
    (hri : RiSpec ri P F) (s : Side) (k : Nat)
    (hP : ∀ o ∈ s.levels, P o) (hpar : s.index.length = s.levels.length) :
    ((pyLimit ri s (some k)) >>= fun t => pyLimit ri t Option.none)
      = pyLimit ri s Option.none ∧
    (s.depth = Option.none →
      pyLimit ri s Option.none = .ok { s with n := Option.none }) := by
  refine ⟨limit_then_unlimit ri P F hri s k hP hpar, ?_⟩
  intro hdepth
  rw [pyLimit_eq_popLoop]
  rw [show limitPops s Option.none = 0 from by
    unfold limitPops
    rw [hdepth]]
  rfl

theorem claim_C6_witness :
    ((pyLimit baseRemoveIndex
        { levels := [[some 10, some 1], [some 11, some 1]],
          index := [some 10, some 11], hashmap := [], depth := Option.none,
          n := Option.none } (some 1)) >>= fun t =>
      pyLimit baseRemoveIndex t Option.none)
      = pyLimit baseRemoveIndex
        { levels := [[some 10, some 1], [some 11, some 1]],
          index := [some 10, some 11], hashmap := [], depth := Option.none,
          n := Option.none } Option.none ∧
    (Option.none = (Option.none : Option Nat) →
      pyLimit baseRemoveIndex
        { levels := [[some 10, some 1], [some 11, some 1]],
          index := [some 10, some 11], hashmap := [], depth := Option.none,
          n := Option.none } Option.none
      = .ok { levels := [[some 10, some 1], [some 11, some 1]],
              index := [some 10, some 11], hashmap := [],
              depth := Option.none, n := Option.none }) :=
  claim_C6 baseRemoveIndex (fun _ => True) (fun _ hm => hm) riSpec_base
    { levels := [[some 10, some 1], [some 11, some 1]],
      index := [some 10, some 11], hashmap := [], depth := Option.none,
      n := Option.none } 1 (fun _ _ => trivial) rfl

/-- C7 (confirmed): the absolute strategy's four cases — nonzero size
overwrites a matching level's size in place or inserts a new level at the
binary-search position; zero size removes exactly the matching level or
silently does nothing — and idempotence: the same nonzero delta applied
twice leaves one level at that key with the latest size. -/
theorem claim_C7 :
    (∀ side s (ks : List Int) p z rest, s.index = ks.map some →
      ks.Pairwise (· < ·) → s.index.length = s.levels.length →
      (∀ lv ∈ s.levels, 2 ≤ lv.length) → z ≠ 0 →
      (if side then -p else p) ∈ ks →
      absStoreArray side s (some p :: some z :: rest)
        = .ok { s with
                levels := s.levels.set (ipos ks (if side then -p else p))
                  ((s.levels.getD (ipos ks (if side then -p else p))
                    []).set 1 (some z)) }) ∧
    (∀ side s (ks : List Int) p z rest, s.index = ks.map some →
      ks.Pairwise (· < ·) → s.index.length = s.levels.length → z ≠ 0 →
      (if side then -p else p) ∉ ks →
      absStoreArray side s (some p :: some z :: rest)
        = .ok { s with
                index := s.index.insertIdx (ipos ks (if side then -p else p))
                  (some (if side then -p else p)),
                levels := s.levels.insertIdx
                  (ipos ks (if side then -p else p))
                  (some p :: some z :: rest) }) ∧
    (∀ side s (ks : List Int) p rest, s.index = ks.map some →
      ks.Pairwise (· < ·) → s.index.length = s.levels.length →
      (if side then -p else p) ∈ ks →
      absStoreArray side s (some p :: some 0 :: rest)
        = .ok { s with
                index := s.index.eraseIdx (ipos ks (if side then -p else p)),
                levels := s.levels.eraseIdx
                  (ipos ks (if side then -p else p)) }) ∧
    (∀ side s (ks : List Int) p rest, s.index = ks.map some →
      ks.Pairwise (· < ·) → (if side then -p else p) ∉ ks →
      absStoreArray side s (some p :: some 0 :: rest) = .ok s) ∧
    (∀ side s (ks : List Int) p z rest, s.index = ks.map some →
      ks.Pairwise (· < ·) → s.index.length = s.levels.length →
      (∀ lv ∈ s.levels, 2 ≤ lv.length) → z ≠ 0 →
      ∃ s1, absStoreArray side s (some p :: some z :: rest) = .ok s1 ∧
        absStoreArray side s1 (some p :: some z :: rest) = .ok s1 ∧
        s1.index.count (some (if side then -p else p)) = 1) :=
  ⟨fun side s ks p z rest h1 h2 h3 h4 h5 h6 =>
      absStore_overwrite side s ks p z rest h1 h2 h3 h4 h5 h6,
   fun side s ks p z rest h1 h2 h3 h4 h5 =>
      absStore_insert side s ks p z rest h1 h2 h3 h4 h5,
   fun side s ks p rest h1 h2 h3 h4 =>
      absStore_delete side s ks p rest h1 h2 h3 h4,
   fun side s ks p rest h1 h2 h3 =>
      absStore_noop side s ks p rest h1 h2 h3,
   fun side s ks p z rest h1 h2 h3 h4 h5 =>
      absStore_idem side s ks p z rest h1 h2 h3 h4 h5⟩

theorem claim_C7_witness :
    absStoreArray false
      { levels := [[some 10, some 1]], index := [some 10], hashmap := [],
        depth := Option.none, n := Option.none } [some 10, some 2]
    = .ok { levels := [[some 10, some 2]], index := [some 10],
            hashmap := [], depth := Option.none, n := Option.none } :=
  claim_C7.1 false
    { levels := [[some 10, some 1]], index := [some 10], hashmap := [],
      depth := Option.none, n := Option.none }
    [10] 10 2 [] rfl (by decide) rfl (by decide) (by decide) (by decide)

/-- C8 (confirmed): the incremental strategy adds the delta size to the
matching level's stored size (effective size), upserting when the effective
size is positive and deleting the matching level (or doing nothing)
otherwise; with the spec's example run: `(10,5)`, `(10,-3)` leaves
`[(10,2)]` and a further `(10,-2)` empties the store. -/
theorem claim_C8 :
    (∀ side s (ks : List Int) p z w rest, s.index = ks.map some →
      ks.Pairwise (· < ·) → s.index.length = s.levels.length →
      (if side then -p else p) ∈ ks →
      (s.levels.getD (ipos ks (if side then -p else p)) [])[1]?
        = some (some w) →
      incStoreArray side s (some p :: some z :: rest)
        = if 0 < z + w then
            .ok { s with
                  levels := s.levels.set (ipos ks (if side then -p else p))
                    ((s.levels.getD (ipos ks (if side then -p else p))
                      []).set 1 (some (z + w))) }
          else
            .ok { s with
                  index := s.index.eraseIdx
                    (ipos ks (if side then -p else p)),
                  levels := s.levels.eraseIdx
                    (ipos ks (if side then -p else p)) }) ∧
    (∀ side s (ks : List Int) p z rest, s.index = ks.map some →
      ks.Pairwise (· < ·) → s.index.length = s.levels.length →
      (if side then -p else p) ∉ ks →
      incStoreArray side s (some p :: some z :: rest)
        = if 0 < z then
            .ok { s with
                  index := s.index.insertIdx
                    (ipos ks (if side then -p else p))
                    (some (if side then -p else p)),
                  levels := s.levels.insertIdx
                    (ipos ks (if side then -p else p))
                    (some p :: some z :: rest) }
          else .ok s) ∧
    (∃ s1 s2 s3,
      incStoreArray false
          { levels := [], index := [], hashmap := [], depth := Option.none,
            n := Option.none } [some 10, some 5] = .ok s1 ∧
      incStoreArray false s1 [some 10, some (-3)] = .ok s2 ∧
      s2.levels = [[some 10, some 2]] ∧
      incStoreArray false s2 [some 10, some (-2)] = .ok s3 ∧
      s3.levels = [] ∧ s3.index = []) :=
  ⟨fun side s ks p z w rest h1 h2 h3 h4 h5 =>
      incStore_hit side s ks p z w rest h1 h2 h3 h4 h5,
   fun side s ks p z rest h1 h2 h3 h4 =>
      incStore_miss side s ks p z rest h1 h2 h3 h4,
   ⟨{ levels := [[some 10, some 5]], index := [some 10], hashmap := [],
      depth := Option.none, n := Option.none },
    { levels := [[some 10, some 2]], index := [some 10], hashmap := [],
      depth := Option.none, n := Option.none },
    { levels := [], index := [], hashmap := [], depth := Option.none,
      n := Option.none },
    rfl, rfl, rfl, rfl, rfl, rfl⟩⟩

theorem claim_C8_witness :
    incStoreArray false
      { levels := [[some 10, some 5]], index := [some 10], hashmap := [],
        depth := Option.none, n := Option.none } [some 10, some (-3)]
    = .ok { levels := [[some 10, some 2]], index := [some 10],
            hashmap := [], depth := Option.none, n := Option.none } :=
  claim_C8.1 false
    { levels := [[some 10, some 5]], index := [some 10], hashmap := [],
      depth := Option.none, n := Option.none }
    [10] 10 (-3) 5 [] rfl (by decide) rfl (by decide) rfl

/-- C9 (confirmed): for every variant, a delta with fewer fields than the
variant reads (2 for absolute and incremental, 3 for counted and the
order-indexed variants) raises before any mutation: the call returns the
exception with the state exactly as it was. -/
theorem claim_C9 :
    (∀ side s delta, delta.length < 2 →
      absStoreArray side s delta = .error s) ∧
    (∀ side s delta, delta.length < 3 →
      countedStoreArray side s delta = .error s) ∧
    (∀ side s delta, delta.length < 3 →
      idxStoreArray side s delta = .error s) ∧
    (∀ side s delta, delta.length < 2 →
      incStoreArray side s delta = .error s) ∧
    (∀ side s delta, delta.length < 3 →
      incIdxStoreArray side s delta = .error s) :=
  ⟨absStore_short, countedStore_short, idxStore_short, incStore_short,
    incIdxStore_short⟩

theorem claim_C9_witness :
    absStoreArray false
      { levels := [[some 10, some 1]], index := [some 10], hashmap := [],
        depth := Option.none, n := Option.none } [some 11]
      = .error { levels := [[some 10, some 1]], index := [some 10],
                 hashmap := [], depth := Option.none, n := Option.none } ∧
    idxStoreArray false
      { levels := [[some 10, some 1]], index := [some 10], hashmap := [],
        depth := Option.none, n := Option.none } [some 11, some 1]
      = .error { levels := [[some 10, some 1]], index := [some 10],
                 hashmap := [], depth := Option.none, n := Option.none } :=
  ⟨claim_C9.1 false
    { levels := [[some 10, some 1]], index := [some 10], hashmap := [],
      depth := Option.none, n := Option.none } [some 11] (by decide),
   claim_C9.2.2.1 false
    { levels := [[some 10, some 1]], index := [some 10], hashmap := [],
      depth := Option.none, n := Option.none } [some 11, some 1] (by decide)⟩

/-- C10 (confirmed): in the order-indexed variants, a known-id delta whose
stated price is exactly `0` behaves identically to one whose price is
`None`: the computed sort key `0` is falsy, so the effective key falls back
to the order's old mapped key, and the stored price is recovered from it. -/
theorem claim_C10 :
    (∀ side s sz oid rest, dictMem s.hashmap oid = true →
      pyTruthy sz = true →
      idxStoreArray side s (some 0 :: sz :: oid :: rest)
        = idxStoreArray side s (Option.none :: sz :: oid :: rest)) ∧
    (∀ side s sz oid rest, dictMem s.hashmap oid = true →
      pyTruthy sz = true →
      incIdxStoreArray side s (some 0 :: sz :: oid :: rest)
        = incIdxStoreArray side s (Option.none :: sz :: oid :: rest)) :=
  ⟨fun side s sz oid rest hmem _ =>
      idxStore_price_zero side s sz oid rest hmem,
   fun side s sz oid rest hmem _ =>
      incIdxStore_price_zero side s sz oid rest hmem⟩

theorem claim_C10_witness :
    idxStoreArray false
      { levels := [[some 10, some 1, some 1]], index := [some 10],
        hashmap := [(some 1, some 10)], depth := Option.none,
        n := Option.none } [some 0, some 2, some 1]
    = idxStoreArray false
      { levels := [[some 10, some 1, some 1]], index := [some 10],
        hashmap := [(some 1, some 10)], depth := Option.none,
        n := Option.none } [Option.none, some 2, some 1] :=
  claim_C10.1 false
    { levels := [[some 10, some 1, some 1]], index := [some 10],
      hashmap := [(some 1, some 10)], depth := Option.none,
      n := Option.none } (some 2) (some 1) [] rfl rfl
